import Mathlib

/-! # GIMLi sparse map matrix: a verification development

Shallow embedding of `core/src/sparsemapmatrix.cpp`.

* The value type (`double` or `Complex` in the source) is an arbitrary commutative
  ring `R` with a conjugation `star`; arithmetic is exact.  The real value type is a
  ring whose conjugation is the identity (`TrivialStar`).
* `Index` is the unsigned machine word: sums of indices are taken modulo `2 ^ 64`.
* A dense vector is a `List R`; the entry store (`std::map` keyed by the pair
  `(row, column)`) is the list of its entries in iteration order.
* A call ends in one of three ways, see `Result`.
-/

namespace GIMLI

/-! ## Outcomes -/

/-- The two exceptions the source raises: `ASSERT_GREATER_EQUAL` (a length error, the
contract violation) and `THROW_TO_IMPL` (not implemented). -/
inductive Signal where
  | lengthError
  | notImplemented
  deriving DecidableEq, Repr

/-- How a call leaves: `ok v` returns normally with the in/out argument equal to `v`;
`thrown s v` leaves by exception `s` with the in/out argument left as `v`;
`undefined` means a vector was indexed past its end, for which the source defines
no behaviour. -/
inductive Result (α : Type) where
  | ok (val : α)
  | thrown (s : Signal) (val : α)
  | undefined
  deriving DecidableEq, Repr

/-- Lift a loop that may index out of range into a `Result`. -/
def Result.ofOption {α : Type} : Option α → Result α
  | some v => Result.ok v
  | none => Result.undefined

/-! ## Index arithmetic -/

/-- Number of values of the type `Index` (`size_t`, 64 bit). -/
def indexModulus : Nat := 2 ^ 64

/-- Sum of two `Index` values, as the machine computes it. -/
def indexAdd (a b : Nat) : Nat := (a + b) % indexModulus

/-! ## Dense vectors -/

section Vector

variable {R : Type} [CommRing R]

/-- Modelled from the spec: `Vector::resize(n)`, declared outside this file; growing
appends zero-initialised slots, existing values are kept. -/
def resize (c : List R) (n : Nat) : List R :=
  c.take n ++ List.replicate (n - c.length) 0

/-- Modelled from the spec: `c *= beta`, the scalar multiply of the vector type: every
element of the vector is multiplied by `beta`. -/
def scale (c : List R) (beta : R) : List R :=
  c.map (fun x => x * beta)

/-- Modelled from the spec: `v[i] += x` on the vector type; an index past the end has no
defined behaviour in the source and yields `none`. -/
def addAt (v : List R) (i : Nat) (x : R) : Option (List R) :=
  match v[i]? with
  | some vi => some (v.set i (vi + x))
  | none => none

end Vector

/-! ## The sparse map matrix -/

/-- One element of the entry store: `it.first.first` is the row, `it.first.second` the
column, `it.second` the value. -/
abbrev Entry (R : Type) := (Nat × Nat) × R

/-- Data members of `SparseMapMatrix< ValueType, Index >`: `C_` is the entry store in
iteration order, `_rows`, `_cols` the nominal shape, `stype_` the symmetry tag. -/
structure SparseMapMatrix (R : Type) where
  C_ : List (Entry R)
  _rows : Nat
  _cols : Nat
  stype_ : Int
  deriving DecidableEq, Repr

namespace SparseMapMatrix

variable {R : Type}

/-- Accessor `nRows()`. -/
def nRows (A : SparseMapMatrix R) : Nat := A._rows

/-- Accessor `nCols()`. -/
def nCols (A : SparseMapMatrix R) : Nat := A._cols

/-- Accessor `stype()`. -/
def stype (A : SparseMapMatrix R) : Int := A.stype_

end SparseMapMatrix

/-- Order of `std::pair< Index, Index >`, the key order of the entry store. -/
def keyLt (a b : Nat × Nat) : Prop :=
  a.1 < b.1 ∨ (a.1 = b.1 ∧ a.2 < b.2)

instance (a b : Nat × Nat) : Decidable (keyLt a b) := by
  unfold keyLt; infer_instance

/-- Modelled from the spec: lookup in the entry store (`std::map::find`, declared
outside this file): the value stored under key `k`, zero when the key is absent. -/
def entryAt {R : Type} [Zero R] : List (Entry R) → Nat × Nat → R
  | [], _ => 0
  | e :: es, k => if e.1 = k then e.2 else entryAt es k

/-- Modelled from the spec: `get(row, col)` returns the stored coefficient, or zero if
absent; it does not insert. -/
def SparseMapMatrix.getVal {R : Type} [Zero R] (A : SparseMapMatrix R) (i j : Nat) : R :=
  entryAt A.C_ (i, j)

section Mult

variable {R : Type} [CommRing R] [StarRing R]

/-- Body of the loop of `mult_T_impl` for `stype == 0`, `trans == true`:
`c[it.first.second] += alpha * b[it.first.first] * it.second`. -/
def stepGeneralTrans (alpha : R) (b : List R) (c : List R) (it : Entry R) :
    Option (List R) := do
  let bI ← b[it.1.1]?
  addAt c it.1.2 (alpha * bI * it.2)

/-- Body of the loop of `mult_T_impl` for `stype == 0`, `trans == false`:
`c[it.first.first] += alpha * b[it.first.second] * it.second`. -/
def stepGeneral (alpha : R) (b : List R) (c : List R) (it : Entry R) :
    Option (List R) := do
  let bJ ← b[it.1.2]?
  addAt c it.1.1 (alpha * bJ * it.2)

/-- Body of the loop of `mult_T_impl` for `stype == -1`, `trans == false`. -/
def stepLower (alpha : R) (b : List R) (c : List R) (it : Entry R) :
    Option (List R) := do
  let I := it.1.1
  let J := it.1.2
  let bJ ← b[J]?
  let c1 ← addAt c I (alpha * bJ * star it.2)
  if J > I then
    let bI ← b[I]?
    addAt c1 J (alpha * bI * it.2)
  else
    pure c1

/-- Body of the loop of `mult_T_impl` for `stype == 1`, `trans == false`. -/
def stepUpper (alpha : R) (b : List R) (c : List R) (it : Entry R) :
    Option (List R) := do
  let I := it.1.1
  let J := it.1.2
  let bJ ← b[J]?
  let c1 ← addAt c I (alpha * bJ * star it.2)
  if J < I then
    let bI ← b[I]?
    addAt c1 J (alpha * bI * it.2)
  else
    pure c1

/-- Lines 218-267 of `mult_T_impl`: `c *= beta`, then the dispatch on the symmetry
tag.  A tag other than `0`, `-1`, `1` matches no branch. -/
def mult_T_dispatch (A : SparseMapMatrix R) (b c : List R) (alpha beta : R)
    (trans : Bool) : Result (List R) :=
  let c := scale c beta
  if A.stype = 0 then
    if trans then
      Result.ofOption (A.C_.foldlM (stepGeneralTrans alpha b) c)
    else
      Result.ofOption (A.C_.foldlM (stepGeneral alpha b) c)
  else if A.stype = -1 then
    if trans then
      Result.thrown Signal.notImplemented c
    else
      Result.ofOption (A.C_.foldlM (stepLower alpha b) c)
  else if A.stype = 1 then
    if trans then
      Result.thrown Signal.notImplemented c
    else
      Result.ofOption (A.C_.foldlM (stepUpper alpha b) c)
  else
    Result.ok c

/-- The function template `mult_T_impl`: the dimension assertion and the resize of
lines 211-217, then `mult_T_dispatch`. -/
def mult_T_impl (A : SparseMapMatrix R) (b c : List R) (alpha beta : R)
    (bOff cOff : Nat) (trans : Bool) : Result (List R) :=
  if trans then
    if indexAdd b.length bOff < A.nRows then
      Result.thrown Signal.lengthError c
    else
      mult_T_dispatch A b
        (if c.length < indexAdd A.nCols cOff then resize c (indexAdd A.nCols cOff) else c)
        alpha beta trans
  else
    if indexAdd b.length bOff < A.nCols then
      Result.thrown Signal.lengthError c
    else
      mult_T_dispatch A b
        (if c.length < indexAdd A.nRows cOff then resize c (indexAdd A.nRows cOff) else c)
        alpha beta trans

/-- The free function `mult` (both value types): `mult_T_impl` with `trans = false`. -/
def mult (A : SparseMapMatrix R) (b c : List R) (alpha beta : R)
    (bOff cOff : Nat) : Result (List R) :=
  mult_T_impl A b c alpha beta bOff cOff false

/-- The free function `transMult` (both value types): `mult_T_impl` with
`trans = true`. -/
def transMult (A : SparseMapMatrix R) (b c : List R) (alpha beta : R)
    (bOff cOff : Nat) : Result (List R) :=
  mult_T_impl A b c alpha beta bOff cOff true

end Mult


/-! ## What a multiply accumulates

`contribution` reads the four loop bodies as a function: what one stored entry adds
to the output index `i`. -/

section Contribution

variable {R : Type} [CommRing R] [StarRing R]

/-- Amount one stored entry adds to output index `i` (`b` read with zero past its end). -/
def contribution (stype : Int) (trans : Bool) (alpha : R) (b : List R) (e : Entry R)
    (i : Nat) : R :=
  if stype = 0 then
    if trans then (if e.1.2 = i then alpha * b.getD e.1.1 0 * e.2 else 0)
    else (if e.1.1 = i then alpha * b.getD e.1.2 0 * e.2 else 0)
  else if stype = -1 then
    (if e.1.1 = i then alpha * b.getD e.1.2 0 * star e.2 else 0)
      + (if e.1.2 > e.1.1 ∧ e.1.2 = i then alpha * b.getD e.1.1 0 * e.2 else 0)
  else if stype = 1 then
    (if e.1.1 = i then alpha * b.getD e.1.2 0 * star e.2 else 0)
      + (if e.1.2 < e.1.1 ∧ e.1.2 = i then alpha * b.getD e.1.1 0 * e.2 else 0)
  else 0

/-- Sum of the contributions of all stored entries to output index `i`. -/
def accumulated (A : SparseMapMatrix R) (trans : Bool) (alpha : R) (b : List R)
    (i : Nat) : R :=
  (A.C_.map (fun e => contribution A.stype_ trans alpha b e i)).sum

end Contribution

/-- Every stored key lies inside the nominal shape. -/
def SparseMapMatrix.InRange {R : Type} (A : SparseMapMatrix R) : Prop :=
  ∀ e ∈ A.C_, e.1.1 < A._rows ∧ e.1.2 < A._cols

instance {R : Type} (A : SparseMapMatrix R) : Decidable A.InRange := by
  unfold SparseMapMatrix.InRange; infer_instance

/-- The entry store holds its keys in strictly increasing order (so no key twice). -/
def SparseMapMatrix.Ordered {R : Type} (A : SparseMapMatrix R) : Prop :=
  (A.C_.map Prod.fst).Pairwise keyLt

instance {R : Type} (A : SparseMapMatrix R) : Decidable A.Ordered := by
  unfold SparseMapMatrix.Ordered; infer_instance

/-! ## Shape of a call -/

section CallShape

variable {R : Type} [CommRing R] [StarRing R]

/-- Effective input dimension: `nRows()` if transposed, else `nCols()`. -/
def inDim (A : SparseMapMatrix R) (trans : Bool) : Nat :=
  if trans then A.nRows else A.nCols

/-- Effective output dimension: `nCols()` if transposed, else `nRows()`. -/
def outDim (A : SparseMapMatrix R) (trans : Bool) : Nat :=
  if trans then A.nCols else A.nRows

/-- Length the output is grown to when shorter: the `Index` sum of the effective output
dimension and `cOff`. -/
def requiredLength (A : SparseMapMatrix R) (cOff : Nat) (trans : Bool) : Nat :=
  indexAdd (outDim A trans) cOff

/-- Calls on which `mult_T_impl` indexes no vector past its end and reaches no
unimplemented branch: stored keys inside the shape, a symmetric-tagged matrix square,
`b` covering the effective input dimension, the dimension assertion passing, the
required length covering the effective output dimension, and no transposed call on a
symmetric tag. -/
def ValidCall (A : SparseMapMatrix R) (b : List R) (bOff cOff : Nat) (trans : Bool) :
    Prop :=
  A.InRange ∧ (A.stype_ = -1 ∨ A.stype_ = 1 → A._rows = A._cols) ∧
    inDim A trans ≤ b.length ∧ inDim A trans ≤ indexAdd b.length bOff ∧
    outDim A trans ≤ requiredLength A cOff trans ∧
    (trans = true → A.stype_ ≠ -1 ∧ A.stype_ ≠ 1)

instance (A : SparseMapMatrix R) (b : List R) (bOff cOff : Nat) (trans : Bool) :
    Decidable (ValidCall A b bOff cOff trans) := by
  unfold ValidCall; infer_instance

end CallShape

/-! ## Mutating the entry store -/

section Store

variable {R : Type} [CommRing R]

/-- Modelled from the spec: assignment at a coordinate, `(*this)[i][j] = val` (the index
operator is declared outside this file): the pair is inserted at its place in key
order, or overwrites the value stored under the same key. -/
def setEntry (k : Nat × Nat) (x : R) : List (Entry R) → List (Entry R)
  | [] => [(k, x)]
  | e :: es =>
    if keyLt k e.1 then (k, x) :: e :: es
    else if e.1 = k then (k, x) :: es
    else e :: setEntry k x es

/-- Modelled from the spec: `addAt(row, col, value)` (`addVal` and `(*this)[i][j] += val`,
declared outside this file) adds `value` to the existing coefficient, inserting a
zero-initialised entry first if absent. -/
def addEntry (k : Nat × Nat) (x : R) : List (Entry R) → List (Entry R)
  | [] => [(k, 0 + x)]
  | e :: es =>
    if keyLt k e.1 then (k, 0 + x) :: e :: es
    else if e.1 = k then (k, e.2 + x) :: es
    else e :: addEntry k x es

/-- Member form of `setEntry`: `(*this)[i][j] = val`. -/
def SparseMapMatrix.setVal (A : SparseMapMatrix R) (i j : Nat) (x : R) :
    SparseMapMatrix R :=
  { A with C_ := setEntry (i, j) x A.C_ }

/-- Member form of `addEntry`: `this->addVal(i, j, val)`. -/
def SparseMapMatrix.addVal (A : SparseMapMatrix R) (i j : Nat) (x : R) :
    SparseMapMatrix R :=
  { A with C_ := addEntry (i, j) x A.C_ }

end Store

/-! ## Symmetric storage written out -/

section Symmetric

variable {R : Type} [CommRing R] [StarRing R]

/-- The mirror image `(J, I) -> v` of a stored entry `(I, J) -> v`. -/
def mirrorEntry (e : Entry R) : Entry R := ((e.1.2, e.1.1), e.2)

/-- The stored entries followed by the mirror image of every stored off-diagonal
entry. -/
def withMirrors (L : List (Entry R)) : List (Entry R) :=
  L ++ (L.filter (fun e => e.1.1 ≠ e.1.2)).map mirrorEntry

/-- The general-tagged matrix of the same shape that stores both halves explicitly:
every stored entry of `A` and the mirror image `(J, I) -> v` of every stored
off-diagonal entry `(I, J) -> v`, each assigned into an empty store. -/
def bothHalves (A : SparseMapMatrix R) : SparseMapMatrix R :=
  (withMirrors A.C_).foldl (fun M e => M.setVal e.1.1 e.1.2 e.2)
    { C_ := [], _rows := A._rows, _cols := A._cols, stype_ := 0 }

/-- What the loop body for `stype == -1` does with one stored entry, as a list of
plain (general) entries: the conjugated entry itself, then its unconjugated mirror
image when `J > I`. -/
def expandLower (e : Entry R) : List (Entry R) :=
  (e.1, star e.2) :: (if e.1.2 > e.1.1 then [mirrorEntry e] else [])

/-- What the loop body for `stype == 1` does with one stored entry: the conjugated
entry itself, then its unconjugated mirror image when `J < I`. -/
def expandUpper (e : Entry R) : List (Entry R) :=
  (e.1, star e.2) :: (if e.1.2 < e.1.1 then [mirrorEntry e] else [])

end Symmetric

/-! ## Concrete matrices used as test inputs -/

/-- A general 2 x 2 integer matrix with three stored entries. -/
def sampleGeneral : SparseMapMatrix ℤ :=
  { C_ := [((0, 0), 2), ((0, 1), 3), ((1, 1), 5)], _rows := 2, _cols := 2, stype_ := 0 }

/-- A 2 x 2 integer matrix tagged `+1` whose only stored entry has column > row. -/
def sampleUpperTag : SparseMapMatrix ℤ :=
  { C_ := [((0, 1), 1)], _rows := 2, _cols := 2, stype_ := 1 }

/-- A 3 x 3 integer matrix tagged `-1` whose stored entries have column >= row. -/
def sampleMinusTag : SparseMapMatrix ℤ :=
  { C_ := [((0, 0), 2), ((0, 2), 3), ((1, 1), 5), ((1, 2), 7)],
    _rows := 3, _cols := 3, stype_ := -1 }

/-- The unit vector `e_J` of length `n`. -/
def unitVec {R : Type} [CommRing R] (n J : Nat) : List R :=
  (List.range n).map (fun k => if k = J then 1 else 0)

/-- A 2 x 2 Gaussian-integer matrix tagged `-1` storing the imaginary unit at `(1, 0)`. -/
def sampleComplexMinus : SparseMapMatrix GaussianInt :=
  { C_ := [((1, 0), ⟨0, 1⟩)], _rows := 2, _cols := 2, stype_ := -1 }

/-- A 2 x 2 Gaussian-integer matrix tagged `+1` storing the imaginary unit at `(0, 1)`. -/
def sampleComplexPlus : SparseMapMatrix GaussianInt :=
  { C_ := [((0, 1), ⟨0, 1⟩)], _rows := 2, _cols := 2, stype_ := 1 }

/-- A 3 x 3 Gaussian-integer matrix tagged `-1` storing `2 + 3i` at `(0, 2)`. -/
def sampleComplexMirrored : SparseMapMatrix GaussianInt :=
  { C_ := [((0, 2), ⟨2, 3⟩)], _rows := 3, _cols := 3, stype_ := -1 }

/-- A general 1 x 3 integer matrix storing one entry in its last column. -/
def sampleWide : SparseMapMatrix ℤ :=
  { C_ := [((0, 2), 1)], _rows := 1, _cols := 3, stype_ := 0 }

/-- The general 1 x 1 integer matrix storing `1`. -/
def sampleUnit : SparseMapMatrix ℤ :=
  { C_ := [((0, 0), 1)], _rows := 1, _cols := 1, stype_ := 0 }

/-! ## Constraint reduction -/

section Reduce

variable {R : Type}

/-- The erase-while-iterating loop of `SparseMapMatrix< double, Index >::reduce`, run
over the entries in iteration order; an erased entry is dropped, `++it` keeps it.
`std::find` over the whole of `ids` is list membership.  Modelled from the spec: the
exclusion vector type is declared outside this file and is taken as a sequence of
indices. -/
def reduceLoop (ids : List Nat) (keepDiag : Bool) : List (Entry R) → List (Entry R)
  | [] => []
  | it :: rest =>
    if it.1.1 ∈ ids then
      if it.1.1 ≠ it.1.2 then
        reduceLoop ids keepDiag rest
      else
        if !keepDiag then
          reduceLoop ids keepDiag rest
        else
          it :: reduceLoop ids keepDiag rest
    else if it.1.2 ∈ ids then
      reduceLoop ids keepDiag rest
    else
      it :: reduceLoop ids keepDiag rest

/-- The member `SparseMapMatrix< double, Index >::reduce(ids, keepDiag)`. -/
def SparseMapMatrix.reduce (A : SparseMapMatrix R) (ids : List Nat) (keepDiag : Bool) :
    Result (SparseMapMatrix R) :=
  Result.ok { A with C_ := reduceLoop ids keepDiag A.C_ }

end Reduce

/-- A 3 x 3 integer matrix storing all nine coefficients, `10 * row + column + 1`. -/
def sampleDense : SparseMapMatrix ℤ :=
  { C_ := [((0, 0), 1), ((0, 1), 2), ((0, 2), 3), ((1, 0), 11), ((1, 1), 12), ((1, 2), 13),
      ((2, 0), 21), ((2, 1), 22), ((2, 2), 23)],
    _rows := 3, _cols := 3, stype_ := 0 }

/-! ## Conversion from compressed form -/

section Copy

variable {R : Type} [CommRing R]

/-- Modelled from the spec: the compressed-row matrix `SparseMatrix< double >`, declared
outside this file and consumed through `rows()`, `cols()`, `stype()` and its three
parallel arrays: row-start offsets `vecColPtr()`, column indices `vecRowIdx()` and
values `vecVals()`.  Offsets and column indices are `int` in the source; they are kept
non-negative here. -/
structure SparseMatrix (R : Type) where
  rows : Nat
  cols : Nat
  stype : Int
  vecColPtr : List Nat
  vecRowIdx : List Nat
  vecVals : List R

/-- Modelled from the spec: `clear()` empties the store and resets dimensions to zero. -/
def SparseMapMatrix.clear (A : SparseMapMatrix R) : SparseMapMatrix R :=
  { A with C_ := [], _rows := 0, _cols := 0 }

/-- Body of the inner loop of `copy_`: `(*this)[i][S.vecRowIdx()[j]] = S.vecVals()[j]`. -/
def copyStep (S : SparseMatrix R) (i : Nat) (M : SparseMapMatrix R) (j : Nat) :
    Option (SparseMapMatrix R) := do
  let col ← S.vecRowIdx[j]?
  let x ← S.vecVals[j]?
  pure (M.setVal i col x)

/-- Body of the outer loop of `copy_`: `j` runs from `S.vecColPtr()[i]` up to, not
including, `S.vecColPtr()[i + 1]`. -/
def copyRow (S : SparseMatrix R) (M : SparseMapMatrix R) (i : Nat) :
    Option (SparseMapMatrix R) := do
  let lo ← S.vecColPtr[i]?
  let hi ← S.vecColPtr[i + 1]?
  (List.range' lo (hi - lo)).foldlM (copyStep S i) M

/-- The member `SparseMapMatrix< double, Index >::copy_(S)`. -/
def SparseMapMatrix.copy_ (A : SparseMapMatrix R) (S : SparseMatrix R) :
    Result (SparseMapMatrix R) :=
  let M0 : SparseMapMatrix R :=
    { A.clear with _rows := S.rows, _cols := S.cols, stype_ := S.stype }
  Result.ofOption ((List.range S.rows).foldlM (copyRow S) M0)

/-- Standard compressed-row layout: `rows + 1` non-decreasing row-start offsets, the
last one equal to the number of stored column indices and of stored values, and
column indices distinct within each row. -/
def SparseMatrix.StandardLayout (S : SparseMatrix R) : Prop :=
  S.vecColPtr.length = S.rows + 1 ∧
    S.vecColPtr.Pairwise (fun x y => x ≤ y) ∧
    S.vecColPtr.getD S.rows 0 = S.vecRowIdx.length ∧
    S.vecRowIdx.length = S.vecVals.length ∧
    ∀ i, i < S.rows →
      ((S.vecRowIdx.drop (S.vecColPtr.getD i 0)).take
        (S.vecColPtr.getD (i + 1) 0 - S.vecColPtr.getD i 0)).Nodup

instance (S : SparseMatrix R) : Decidable S.StandardLayout := by
  unfold SparseMatrix.StandardLayout
  exact inferInstanceAs (Decidable (_ ∧ _ ∧ _ ∧ _ ∧ ∀ i, i < S.rows → _))

end Copy

/-- A 3 x 4 compressed-row integer matrix with an empty middle row. -/
def sampleCompressed : SparseMatrix ℤ :=
  { rows := 3, cols := 4, stype := 0,
    vecColPtr := [0, 2, 2, 5], vecRowIdx := [3, 0, 1, 0, 2], vecVals := [7, 8, 9, 10, 11] }

/-! ## Assembly -/

section Assembly

variable {R : Type} [CommRing R]

/-- Modelled from the spec: the local element matrix `ElementMatrix< double >`, declared
outside this file and consumed through `rows()`, `mat().cols()`, the per-entry accessor
`getVal(i, j)` and the global index arrays `rowIDs()`, `colIDs()`; `addToRow` and
`addToCol` use the local count `size()` and the local-to-global map `idx(i)`.
`integrate()` only finalises the values `getVal` returns and has no other effect. -/
structure ElementMatrix (R : Type) where
  rows : Nat
  cols : Nat
  getVal : Nat → Nat → R
  rowIDs : List Nat
  colIDs : List Nat
  size : Nat := rows
  idx : List Nat := rowIDs

/-- Body of the inner loop of `add(A, f, scale)` (real, scalar factor), with
`b = f * scale`: `v = A.getVal(i, j) * b; this->addVal(A.rowIDs()[i], A.colIDs()[j], v)`. -/
def addStep (A : ElementMatrix R) (b : R) (i : Nat) (M : SparseMapMatrix R) (j : Nat) :
    Option (SparseMapMatrix R) := do
  let v := A.getVal i j * b
  let r ← A.rowIDs[i]?
  let c ← A.colIDs[j]?
  pure (M.addVal r c v)

/-- The member `SparseMapMatrix< double, Index >::add(A, f, scale)` with a scalar `f`:
`b = f * scale`, then the two nested loops over the local rows and columns. -/
def SparseMapMatrix.add (self : SparseMapMatrix R) (A : ElementMatrix R) (f scale : R) :
    Result (SparseMapMatrix R) :=
  let b := f * scale
  Result.ofOption
    ((List.range A.rows).foldlM
      (fun M i => (List.range A.cols).foldlM (addStep A b i) M) self)

end Assembly

/-- A 2 x 2 element matrix whose two local rows map to the same global row 0. -/
def sampleElement : ElementMatrix ℤ :=
  { rows := 2, cols := 2, getVal := fun i j => 10 * (i : ℤ) + j + 1,
    rowIDs := [0, 0], colIDs := [1, 2] }

/-! ## The transposed matrix -/

section Transposed

variable {R : Type} [CommRing R]

/-- The transposed matrix as a general-tagged matrix of its own: rows and cols swapped,
and `(J, I) -> v` assigned into an empty store for each stored `(I, J) -> v` of `A`. -/
def transposed (A : SparseMapMatrix R) : SparseMapMatrix R :=
  (A.C_.map mirrorEntry).foldl (fun M e => M.setVal e.1.1 e.1.2 e.2)
    { C_ := [], _rows := A._cols, _cols := A._rows, stype_ := 0 }

end Transposed

/-- A general 2 x 3 integer matrix with four stored entries. -/
def sampleRect : SparseMapMatrix ℤ :=
  { C_ := [((0, 0), 2), ((0, 2), 3), ((1, 0), 5), ((1, 1), 7)],
    _rows := 2, _cols := 3, stype_ := 0 }

/-! ## Further assembly variants -/

section AssemblyVariants

variable {R : Type} [CommRing R]

/-- Body of the inner loop of `add(A, f, scale)` (real, vector factor):
`v = A.getVal(i, j) * f[i] * scale; this->addVal(A.rowIDs()[i], A.colIDs()[j], v)`. -/
def addVectorStep (A : ElementMatrix R) (f : List R) (scale : R) (i : Nat)
    (M : SparseMapMatrix R) (j : Nat) : Option (SparseMapMatrix R) := do
  let fi ← f[i]?
  let v := A.getVal i j * fi * scale
  let r ← A.rowIDs[i]?
  let c ← A.colIDs[j]?
  pure (M.addVal r c v)

/-- The member `SparseMapMatrix< double, Index >::add(A, f, scale)` with a vector `f`. -/
def SparseMapMatrix.addVector (self : SparseMapMatrix R) (A : ElementMatrix R)
    (f : List R) (scale : R) : Result (SparseMapMatrix R) :=
  Result.ofOption
    ((List.range A.rows).foldlM
      (fun M i => (List.range A.cols).foldlM (addVectorStep A f scale i) M) self)

/-- Body of the inner loop of `add(A, f, scale)` (complex, scalar factor):
`v = A.getVal(i, j); (*this)[A.rowIDs()[i]][A.colIDs()[j]] += v * f * scale`.  The real
values of the element matrix and the real `scale` are taken inside the value ring. -/
def addComplexStep (A : ElementMatrix R) (f scale : R) (i : Nat)
    (M : SparseMapMatrix R) (j : Nat) : Option (SparseMapMatrix R) := do
  let v := A.getVal i j
  let r ← A.rowIDs[i]?
  let c ← A.colIDs[j]?
  pure (M.addVal r c (v * f * scale))

/-- The member `SparseMapMatrix< Complex, Index >::add(A, f, scale)` with a scalar `f`. -/
def SparseMapMatrix.addComplex (self : SparseMapMatrix R) (A : ElementMatrix R)
    (f scale : R) : Result (SparseMapMatrix R) :=
  Result.ofOption
    ((List.range A.rows).foldlM
      (fun M i => (List.range A.cols).foldlM (addComplexStep A f scale i) M) self)

/-- Body of the inner loop of `add(A, f, scale)` (complex, vector factor):
`v = A.getVal(i, j); (*this)[A.rowIDs()[i]][A.colIDs()[j]] += v * f[i] * scale`. -/
def addVectorComplexStep (A : ElementMatrix R) (f : List R) (scale : R) (i : Nat)
    (M : SparseMapMatrix R) (j : Nat) : Option (SparseMapMatrix R) := do
  let v := A.getVal i j
  let r ← A.rowIDs[i]?
  let c ← A.colIDs[j]?
  let fi ← f[i]?
  pure (M.addVal r c (v * fi * scale))

/-- The member `SparseMapMatrix< Complex, Index >::add(A, f, scale)` with a vector `f`. -/
def SparseMapMatrix.addVectorComplex (self : SparseMapMatrix R) (A : ElementMatrix R)
    (f : List R) (scale : R) : Result (SparseMapMatrix R) :=
  Result.ofOption
    ((List.range A.rows).foldlM
      (fun M i => (List.range A.cols).foldlM (addVectorComplexStep A f scale i) M) self)

/-- Body of the loop of `addToCol`: `(*this)[A.idx(i)][id] += A.getVal(i, i)` when
`isDiag`, else `(*this)[A.idx(i)][id] += A.getVal(0, i)`. -/
def addToColStep (id : Nat) (A : ElementMatrix R) (isDiag : Bool)
    (M : SparseMapMatrix R) (i : Nat) : Option (SparseMapMatrix R) := do
  let k ← A.idx[i]?
  if isDiag then
    pure (M.addVal k id (A.getVal i i))
  else
    pure (M.addVal k id (A.getVal 0 i))

/-- The member `SparseMapMatrix< double, Index >::addToCol(id, A, scale, isDiag)`; the
argument `scale` is not used by the body. -/
def SparseMapMatrix.addToCol (self : SparseMapMatrix R) (id : Nat) (A : ElementMatrix R)
    (_scale : R) (isDiag : Bool) : Result (SparseMapMatrix R) :=
  Result.ofOption ((List.range A.size).foldlM (addToColStep id A isDiag) self)

/-- Body of the loop of `addToRow`: `(*this)[id][A.idx(i)] += A.getVal(i, i)` when
`isDiag`, else `(*this)[id][A.idx(i)] += A.getVal(0, i)`. -/
def addToRowStep (id : Nat) (A : ElementMatrix R) (isDiag : Bool)
    (M : SparseMapMatrix R) (i : Nat) : Option (SparseMapMatrix R) := do
  let k ← A.idx[i]?
  if isDiag then
    pure (M.addVal id k (A.getVal i i))
  else
    pure (M.addVal id k (A.getVal 0 i))

/-- The member `SparseMapMatrix< double, Index >::addToRow(id, A, scale, isDiag)`; the
argument `scale` is not used by the body. -/
def SparseMapMatrix.addToRow (self : SparseMapMatrix R) (id : Nat) (A : ElementMatrix R)
    (_scale : R) (isDiag : Bool) : Result (SparseMapMatrix R) :=
  Result.ofOption ((List.range A.size).foldlM (addToRowStep id A isDiag) self)

/-- A sequence of add-at-coordinate calls `addAt(row, col, value)`, one per listed
triple, in list order. -/
def applyUpdates (M : SparseMapMatrix R) (ups : List (Entry R)) : SparseMapMatrix R :=
  ups.foldl (fun M u => M.addVal u.1.1 u.1.2 u.2) M

/-- The local pairs `(i, j)` of an element matrix in loop order, each as the triple
`(rowIDs[i], colIDs[j], w i j)`. -/
def localUpdates (A : ElementMatrix R) (w : Nat → Nat → R) : List (Entry R) :=
  (List.range A.rows).flatMap (fun i =>
    (List.range A.cols).map (fun j => ((A.rowIDs.getD i 0, A.colIDs.getD j 0), w i j)))

end AssemblyVariants

/-- A second 2 x 2 element matrix, overlapping `sampleElement` at `(0, 1)`. -/
def sampleElementB : ElementMatrix ℤ :=
  { rows := 2, cols := 2, getVal := fun i j => 100 * (i : ℤ) + 7 * j + 3,
    rowIDs := [0, 1], colIDs := [1, 0] }

/-! ## Batched multiply -/

section Batch

variable {R : Type} [CommRing R] [StarRing R]

/-- Modelled from the spec: the member `A.mult(b, c, alpha, beta)`, declared outside this
file: one single-matrix multiply, both offsets left at their default zero. -/
def SparseMapMatrix.multMember (A : SparseMapMatrix R) (b c : List R) (alpha beta : R) :
    Result (List R) :=
  mult A b c alpha beta 0 0

/-- The call `ret.resize(n)` on a `std::vector< RVector >`: truncates, or appends empty
vectors. -/
def resizeOuter (ret : List (List R)) (n : Nat) : List (List R) :=
  ret.take n ++ List.replicate (n - ret.length) []

/-- The loop `for (Index i = 0; i < A.size(); i ++) A[i].mult(b, ret[i], 1.0, 0.0)` from
index `i` on, over the matrices not yet visited; an exception leaves `ret` as it is at
that moment. -/
def multBatchLoop (b : List R) :
    List (SparseMapMatrix R) → Nat → List (List R) → Result (List (List R))
  | [], _, ret => Result.ok ret
  | Ai :: rest, i, ret =>
    match ret[i]? with
    | none => Result.undefined
    | some ci =>
      match Ai.multMember b ci 1 0 with
      | Result.ok out => multBatchLoop b rest (i + 1) (ret.set i out)
      | Result.thrown s out => Result.thrown s (ret.set i out)
      | Result.undefined => Result.undefined

/-- The free function `mult(A, b, ret)` on a `std::vector` of real matrices. -/
def multBatch (A : List (SparseMapMatrix R)) (b : List R) (ret : List (List R)) :
    Result (List (List R)) :=
  multBatchLoop b A 0 (if ret.length ≠ A.length then resizeOuter ret A.length else ret)

/-- The free function `mult(A, b)` returning the outputs: `mult(A, b, ret)` on a local,
initially empty `ret`. -/
def multBatchReturn (A : List (SparseMapMatrix R)) (b : List R) : Result (List (List R)) :=
  multBatch A b []

end Batch

/-! ## Block multiply into a vector of points -/

section Block

variable {R : Type} [CommRing R]

/-- Modelled from the spec: the point type `Pos`, declared outside this file, as the
output element of the block multiply: two scalar channels; `Pos(0.0, 0.0)` is the
zero point. -/
abbrev Pos (R : Type) := R × R

/-- Channel `k` of a point, `p[k]`; only the channels 0 and 1 exist. -/
def posChan (p : Pos R) (k : Nat) : R :=
  if k = 0 then p.1 else if k = 1 then p.2 else 0

/-- Modelled from the spec: `p[k] += x` on a point; a channel index past the two
channels has no defined behaviour and yields `none`. -/
def posAddAt (p : Pos R) (k : Nat) (x : R) : Option (Pos R) :=
  if k = 0 then some (p.1 + x, p.2) else if k = 1 then some (p.1, p.2 + x) else none

/-- Product of two `Index` values, as the machine computes it. -/
def indexMul (a b : Nat) : Nat := (a * b) % indexModulus

/-- The call `ret.resize(n, Pos(0.0, 0.0))` on a vector of points: truncates, or appends
zero points. -/
def resizePos (ret : List (Pos R)) (n : Nat) : List (Pos R) :=
  ret.take n ++ List.replicate (n - ret.length) (0, 0)

/-- Body of the inner loop of the block multiply:
`ret[it->first.first][i] += a[it->first.second + i * dof] * it->second`. -/
def multPosStep (a : List R) (dof : Nat) (it : Entry R) (ret : List (Pos R)) (i : Nat) :
    Option (List (Pos R)) := do
  let aj ← a[indexAdd it.1.2 (indexMul i dof)]?
  let p ← ret[it.1.1]?
  let p1 ← posAddAt p i (aj * it.2)
  pure (ret.set it.1.1 p1)

/-- The member `SparseMapMatrix< double, Index >::mult(a, ret)` into a vector of points.
The quotient `a.size() / this->cols()` is formed before anything else is looked at; with
no columns it is a division by zero, for which the source defines no behaviour. -/
def SparseMapMatrix.multPos (self : SparseMapMatrix R) (a : List R) (ret : List (Pos R)) :
    Result (List (Pos R)) :=
  let ret := if self._rows ≠ ret.length then resizePos ret self._rows else ret
  if self._cols = 0 then
    Result.undefined
  else
    let nCoeff := a.length / self._cols
    let dof := self._cols
    if a.length < indexMul nCoeff dof then
      Result.thrown Signal.lengthError ret
    else if self.stype_ = 0 then
      Result.ofOption
        (self.C_.foldlM (fun ret it => (List.range nCoeff).foldlM (multPosStep a dof it) ret)
          ret)
    else if self.stype_ = -1 then
      Result.thrown Signal.notImplemented ret
    else if self.stype_ = 1 then
      Result.thrown Signal.notImplemented ret
    else
      Result.ok ret

end Block

/-! ## Operations left unimplemented -/

section Unimplemented

variable {R : Type} [CommRing R]

/-- The member `SparseMapMatrix< double, Index >::add(A, f, scale)` with a point `f`:
`A.integrate(); THROW_TO_IMPL`. -/
def SparseMapMatrix.addPos (self : SparseMapMatrix R) (_A : ElementMatrix R) (_f : Pos R)
    (_scale : R) : Result (SparseMapMatrix R) :=
  Result.thrown Signal.notImplemented self

/-- The member `SparseMapMatrix< double, Index >::add(A, f, scale)` with a small dense
matrix `f` (`RSmallMatrix`, taken as its rows): `A.integrate(); THROW_TO_IMPL`. -/
def SparseMapMatrix.addSmallMatrix (self : SparseMapMatrix R) (_A : ElementMatrix R)
    (_f : List (List R)) (_scale : R) : Result (SparseMapMatrix R) :=
  Result.thrown Signal.notImplemented self

/-- The member `SparseMapMatrix< Complex, Index >::add(A, f, scale)` with a small dense
matrix `f` (`CSmallMatrix`): `A.integrate(); THROW_TO_IMPL`. -/
def SparseMapMatrix.addSmallMatrixComplex (self : SparseMapMatrix R) (_A : ElementMatrix R)
    (_f : List (List R)) (_scale : R) : Result (SparseMapMatrix R) :=
  Result.thrown Signal.notImplemented self

/-- The member `SparseMapMatrix< Complex, Index >::add(A, f, scale)` with a point `f`:
`A.integrate(); THROW_TO_IMPL`. -/
def SparseMapMatrix.addPosComplex (self : SparseMapMatrix R) (_A : ElementMatrix R)
    (_f : Pos R) (_scale : R) : Result (SparseMapMatrix R) :=
  Result.thrown Signal.notImplemented self

/-- The member `SparseMapMatrix< Complex, Index >::copy_(S)`: `clear()`, the three
assignments of shape and tag, then `THROW_TO_IMPL`. -/
def SparseMapMatrix.copy_Complex (self : SparseMapMatrix R) (S : SparseMatrix R) :
    Result (SparseMapMatrix R) :=
  Result.thrown Signal.notImplemented
    { self.clear with _rows := S.rows, _cols := S.cols, stype_ := S.stype }

/-- The member `SparseMapMatrix< Complex, Index >::addToCol`:
`A.integrate(); THROW_TO_IMPL`. -/
def SparseMapMatrix.addToColComplex (self : SparseMapMatrix R) (_id : Nat)
    (_A : ElementMatrix R) (_scale : R) (_isDiag : Bool) : Result (SparseMapMatrix R) :=
  Result.thrown Signal.notImplemented self

/-- The member `SparseMapMatrix< Complex, Index >::addToRow`:
`A.integrate(); THROW_TO_IMPL`. -/
def SparseMapMatrix.addToRowComplex (self : SparseMapMatrix R) (_id : Nat)
    (_A : ElementMatrix R) (_scale : R) (_isDiag : Bool) : Result (SparseMapMatrix R) :=
  Result.thrown Signal.notImplemented self

/-- The member `SparseMapMatrix< Complex, Index >::reduce`: `THROW_TO_IMPL`. -/
def SparseMapMatrix.reduceComplex (self : SparseMapMatrix R) (_ids : List Nat)
    (_keepDiag : Bool) : Result (SparseMapMatrix R) :=
  Result.thrown Signal.notImplemented self

/-- The member `SparseMapMatrix< Complex, Index >::mult(a, ret)` into a vector of
points: `THROW_TO_IMPL`. -/
def SparseMapMatrix.multPosComplex (_self : SparseMapMatrix R) (_a : List R)
    (ret : List (Pos R)) : Result (List (Pos R)) :=
  Result.thrown Signal.notImplemented ret

/-- The member `SparseMapMatrix< double, Index >::transMult(a, ret)` into a vector of
points: `THROW_TO_IMPL`. -/
def SparseMapMatrix.transMultPos (_self : SparseMapMatrix R) (_a : List R)
    (ret : List (Pos R)) : Result (List (Pos R)) :=
  Result.thrown Signal.notImplemented ret

/-- The member `SparseMapMatrix< Complex, Index >::transMult(a, ret)` into a vector of
points: `THROW_TO_IMPL`. -/
def SparseMapMatrix.transMultPosComplex (_self : SparseMapMatrix R) (_a : List R)
    (ret : List (Pos R)) : Result (List (Pos R)) :=
  Result.thrown Signal.notImplemented ret

end Unimplemented

/-- An empty 0 x 0 integer matrix tagged `-1`. -/
def sampleEmptyTagged : SparseMapMatrix ℤ :=
  { C_ := [], _rows := 0, _cols := 0, stype_ := -1 }

/-! # Theorems -/

/-! ## Lemmas on dense vectors -/

section VectorLemmas

variable {R : Type} [CommRing R]

theorem resize_length (c : List R) (n : Nat) : (resize c n).length = n := by
  simp only [resize, List.length_append, List.length_take, List.length_replicate]
  omega

theorem resize_getD (c : List R) (n i : Nat) (h : c.length ≤ n) :
    (resize c n).getD i 0 = c.getD i 0 := by
  have ht : c.take n = c := List.take_of_length_le h
  simp only [resize, ht, List.getD_eq_getElem?_getD]
  by_cases hi : i < c.length
  · rw [List.getElem?_append_left hi]
  · have hi2 : c.length ≤ i := Nat.le_of_not_lt hi
    rw [List.getElem?_append_right hi2, List.getElem?_eq_none hi2]
    by_cases hr : i - c.length < n - c.length
    · simp [List.getElem?_replicate, hr]
    · simp [List.getElem?_replicate, hr]

theorem scale_length (c : List R) (beta : R) : (scale c beta).length = c.length := by
  simp [scale]

theorem scale_getD (v : List R) (beta : R) (i : Nat) :
    (scale v beta).getD i 0 = v.getD i 0 * beta := by
  simp only [scale, List.getD_eq_getElem?_getD, List.getElem?_map]
  cases v[i]? <;> simp

theorem addAt_spec (v : List R) (i : Nat) (x : R) (h : i < v.length) :
    ∃ w, addAt v i x = some w ∧ w.length = v.length ∧
      ∀ k, w.getD k 0 = v.getD k 0 + (if i = k then x else 0) := by
  refine ⟨v.set i (v[i] + x), ?_, by simp, ?_⟩
  · simp [addAt, List.getElem?_eq_getElem h]
  · intro k
    simp only [List.getD_eq_getElem?_getD, List.getElem?_set]
    by_cases hik : i = k
    · subst hik
      simp [h, List.getElem?_eq_getElem h]
    · simp [hik]

/-- A loop over the stored entries whose body adds `w e i` at each index `i` and keeps
the length adds, in total, the sum of the `w e i`. -/
theorem foldlM_accumulate (step : List R → Entry R → Option (List R))
    (w : Entry R → Nat → R) (n : Nat) (L : List (Entry R))
    (hstep : ∀ e ∈ L, ∀ c : List R, c.length = n →
      ∃ c1, step c e = some c1 ∧ c1.length = n ∧ ∀ i, c1.getD i 0 = c.getD i 0 + w e i)
    (c : List R) (hc : c.length = n) :
    ∃ out, L.foldlM step c = some out ∧ out.length = n ∧
      ∀ i, out.getD i 0 = c.getD i 0 + (L.map (fun e => w e i)).sum := by
  induction L generalizing c with
  | nil => exact ⟨c, rfl, hc, by simp⟩
  | cons e es ih =>
    obtain ⟨c1, h1, hl1, hv1⟩ := hstep e (List.mem_cons_self e es) c hc
    obtain ⟨out, h2, hl2, hv2⟩ :=
      ih (fun e1 he1 => hstep e1 (List.mem_cons_of_mem e he1)) c1 hl1
    refine ⟨out, ?_, hl2, ?_⟩
    · simp [List.foldlM_cons, h1, h2]
    · intro i
      rw [hv2 i, hv1 i]
      simp [add_assoc]

theorem addAt_inv (v w : List R) (i : Nat) (x : R) (h : addAt v i x = some w) :
    i < v.length := by
  by_contra hlt
  have hnone : v[i]? = none := List.getElem?_eq_none (Nat.le_of_not_lt hlt)
  simp [addAt, hnone] at h

theorem addAt_length (v w : List R) (i : Nat) (x : R) (h : addAt v i x = some w) :
    w.length = v.length := by
  obtain ⟨w1, h1, hl, _⟩ := addAt_spec v i x (addAt_inv v w i x h)
  rw [h] at h1
  cases h1
  exact hl

omit [CommRing R] in
theorem getElem?_inv (b : List R) (j : Nat) (x : R) (h : b[j]? = some x) : j < b.length := by
  by_contra hlt
  rw [List.getElem?_eq_none (Nat.le_of_not_lt hlt)] at h
  cases h

omit [CommRing R] in
/-- A loop that ran to its end ran every body to its end, on a vector of the
original length. -/
theorem foldlM_inv (step : List R → Entry R → Option (List R)) (P : Entry R → Prop)
    (n : Nat) (L : List (Entry R))
    (hlen : ∀ e (c c1 : List R), c.length = n → step c e = some c1 → c1.length = n)
    (hP : ∀ e (c c1 : List R), c.length = n → step c e = some c1 → P e)
    (c out : List R) (hc : c.length = n) (h : L.foldlM step c = some out) :
    ∀ e ∈ L, P e := by
  induction L generalizing c with
  | nil => intro e he; cases he
  | cons e es ih =>
    simp only [List.foldlM_cons, Option.bind_eq_bind, Option.bind_eq_some] at h
    obtain ⟨c1, h1, h2⟩ := h
    intro e1 he1
    rcases List.mem_cons.mp he1 with rfl | hmem
    · exact hP _ c c1 hc h1
    · exact ih c1 (hlen e c c1 hc h1) h2 e1 hmem

end VectorLemmas

/-! ## The multiply as a function of its arguments -/

section MultLemmas

variable {R : Type} [CommRing R] [StarRing R]

theorem stepGeneral_spec (alpha : R) (b c : List R) (e : Entry R)
    (hI : e.1.1 < c.length) (hJ : e.1.2 < b.length) :
    ∃ c1, stepGeneral alpha b c e = some c1 ∧ c1.length = c.length ∧
      ∀ i, c1.getD i 0 = c.getD i 0 + contribution 0 false alpha b e i := by
  obtain ⟨w, hw, hl, hv⟩ := addAt_spec c e.1.1 (alpha * b.getD e.1.2 0 * e.2) hI
  refine ⟨w, ?_, hl, ?_⟩
  · simp only [stepGeneral, List.getElem?_eq_getElem hJ, Option.bind_eq_bind,
      Option.some_bind]
    simpa [List.getD_eq_getElem?_getD, List.getElem?_eq_getElem hJ] using hw
  · intro i
    rw [hv i]
    simp [contribution]

theorem stepGeneralTrans_spec (alpha : R) (b c : List R) (e : Entry R)
    (hJ : e.1.2 < c.length) (hI : e.1.1 < b.length) :
    ∃ c1, stepGeneralTrans alpha b c e = some c1 ∧ c1.length = c.length ∧
      ∀ i, c1.getD i 0 = c.getD i 0 + contribution 0 true alpha b e i := by
  obtain ⟨w, hw, hl, hv⟩ := addAt_spec c e.1.2 (alpha * b.getD e.1.1 0 * e.2) hJ
  refine ⟨w, ?_, hl, ?_⟩
  · simp only [stepGeneralTrans, List.getElem?_eq_getElem hI, Option.bind_eq_bind,
      Option.some_bind]
    simpa [List.getD_eq_getElem?_getD, List.getElem?_eq_getElem hI] using hw
  · intro i
    rw [hv i]
    simp [contribution]

theorem stepLower_spec (alpha : R) (b c : List R) (e : Entry R)
    (hI : e.1.1 < c.length) (hJ : e.1.2 < b.length)
    (hm : e.1.2 > e.1.1 → e.1.2 < c.length ∧ e.1.1 < b.length) :
    ∃ c1, stepLower alpha b c e = some c1 ∧ c1.length = c.length ∧
      ∀ i, c1.getD i 0 = c.getD i 0 + contribution (-1) false alpha b e i := by
  obtain ⟨w, hw, hl, hv⟩ := addAt_spec c e.1.1 (alpha * b.getD e.1.2 0 * star e.2) hI
  have hbJ : b.getD e.1.2 0 = b[e.1.2] := by
    simp [List.getD_eq_getElem?_getD, List.getElem?_eq_getElem hJ]
  rw [hbJ] at hw
  by_cases hgt : e.1.2 > e.1.1
  · obtain ⟨hJc, hIb⟩ := hm hgt
    have hbI : b.getD e.1.1 0 = b[e.1.1] := by
      simp [List.getD_eq_getElem?_getD, List.getElem?_eq_getElem hIb]
    obtain ⟨w2, hw2, hl2, hv2⟩ :=
      addAt_spec w e.1.2 (alpha * b.getD e.1.1 0 * e.2) (hl ▸ hJc)
    rw [hbI] at hw2
    refine ⟨w2, ?_, hl2.trans hl, ?_⟩
    · simp [stepLower, List.getElem?_eq_getElem hJ, List.getElem?_eq_getElem hIb, hw,
        hgt, hw2]
    · intro i
      rw [hv2 i, hv i]
      simp [contribution, hgt, add_assoc]
  · refine ⟨w, ?_, hl, ?_⟩
    · simp [stepLower, List.getElem?_eq_getElem hJ, hw, hgt]
    · intro i
      rw [hv i]
      simp [contribution, hgt]

theorem stepUpper_spec (alpha : R) (b c : List R) (e : Entry R)
    (hI : e.1.1 < c.length) (hJ : e.1.2 < b.length)
    (hm : e.1.2 < e.1.1 → e.1.2 < c.length ∧ e.1.1 < b.length) :
    ∃ c1, stepUpper alpha b c e = some c1 ∧ c1.length = c.length ∧
      ∀ i, c1.getD i 0 = c.getD i 0 + contribution 1 false alpha b e i := by
  obtain ⟨w, hw, hl, hv⟩ := addAt_spec c e.1.1 (alpha * b.getD e.1.2 0 * star e.2) hI
  have hbJ : b.getD e.1.2 0 = b[e.1.2] := by
    simp [List.getD_eq_getElem?_getD, List.getElem?_eq_getElem hJ]
  rw [hbJ] at hw
  by_cases hlt : e.1.2 < e.1.1
  · obtain ⟨hJc, hIb⟩ := hm hlt
    have hbI : b.getD e.1.1 0 = b[e.1.1] := by
      simp [List.getD_eq_getElem?_getD, List.getElem?_eq_getElem hIb]
    obtain ⟨w2, hw2, hl2, hv2⟩ :=
      addAt_spec w e.1.2 (alpha * b.getD e.1.1 0 * e.2) (hl ▸ hJc)
    rw [hbI] at hw2
    refine ⟨w2, ?_, hl2.trans hl, ?_⟩
    · simp [stepUpper, List.getElem?_eq_getElem hJ, List.getElem?_eq_getElem hIb, hw,
        hlt, hw2]
    · intro i
      rw [hv2 i, hv i]
      simp [contribution, hlt, add_assoc]
  · refine ⟨w, ?_, hl, ?_⟩
    · simp [stepUpper, List.getElem?_eq_getElem hJ, hw, hlt]
    · intro i
      rw [hv i]
      simp [contribution, hlt]

theorem mult_T_dispatch_valid (A : SparseMapMatrix R) (b c : List R) (alpha beta : R)
    (trans : Bool) (hin : A.InRange)
    (hsq : A.stype_ = -1 ∨ A.stype_ = 1 → A._rows = A._cols)
    (hb : inDim A trans ≤ b.length) (hc : outDim A trans ≤ c.length)
    (himpl : trans = true → A.stype_ ≠ -1 ∧ A.stype_ ≠ 1) :
    ∃ out, mult_T_dispatch A b c alpha beta trans = Result.ok out ∧
      out.length = c.length ∧
      ∀ i, out.getD i 0 = c.getD i 0 * beta + accumulated A trans alpha b i := by
  have hsl : (scale c beta).length = c.length := scale_length c beta
  by_cases h0 : A.stype_ = 0
  · cases trans with
    | true =>
      simp only [inDim, outDim, SparseMapMatrix.nRows, SparseMapMatrix.nCols, if_true] at hb hc
      obtain ⟨out, ho, hl, hv⟩ := foldlM_accumulate (stepGeneralTrans alpha b)
        (contribution 0 true alpha b) c.length A.C_
        (fun e he v hv => by
          obtain ⟨c1, h1, h2, h3⟩ := stepGeneralTrans_spec alpha b v e
            (by have := (hin e he).2; omega) (by have := (hin e he).1; omega)
          exact ⟨c1, h1, h2.trans hv, h3⟩)
        (scale c beta) hsl
      refine ⟨out, ?_, hl, ?_⟩
      · simp [mult_T_dispatch, SparseMapMatrix.stype, h0, ho, Result.ofOption]
      · intro i
        rw [hv i, scale_getD]
        simp [accumulated, h0]
    | false =>
      simp only [inDim, outDim, SparseMapMatrix.nRows, SparseMapMatrix.nCols] at hb hc
      obtain ⟨out, ho, hl, hv⟩ := foldlM_accumulate (stepGeneral alpha b)
        (contribution 0 false alpha b) c.length A.C_
        (fun e he v hv => by
          obtain ⟨c1, h1, h2, h3⟩ := stepGeneral_spec alpha b v e
            (by have := (hin e he).1; simp at hc; omega)
            (by have := (hin e he).2; simp at hb; omega)
          exact ⟨c1, h1, h2.trans hv, h3⟩)
        (scale c beta) hsl
      refine ⟨out, ?_, hl, ?_⟩
      · simp [mult_T_dispatch, SparseMapMatrix.stype, h0, ho, Result.ofOption]
      · intro i
        rw [hv i, scale_getD]
        simp [accumulated, h0]
  · by_cases hm : A.stype_ = -1
    · cases trans with
      | true => exact absurd hm (himpl rfl).1
      | false =>
        have hrc := hsq (Or.inl hm)
        simp only [inDim, outDim, SparseMapMatrix.nRows, SparseMapMatrix.nCols] at hb hc
        simp at hb hc
        obtain ⟨out, ho, hl, hv⟩ := foldlM_accumulate (stepLower alpha b)
          (contribution (-1) false alpha b) c.length A.C_
          (fun e he v hv => by
            have h1 := (hin e he).1
            have h2 := (hin e he).2
            obtain ⟨c1, h1, h2, h3⟩ := stepLower_spec alpha b v e
              (by omega) (by omega) (fun _ => ⟨by omega, by omega⟩)
            exact ⟨c1, h1, h2.trans hv, h3⟩)
          (scale c beta) hsl
        refine ⟨out, ?_, hl, ?_⟩
        · simp [mult_T_dispatch, SparseMapMatrix.stype, hm, ho, Result.ofOption]
        · intro i
          rw [hv i, scale_getD]
          simp [accumulated, hm]
    · by_cases hp : A.stype_ = 1
      · cases trans with
        | true => exact absurd hp (himpl rfl).2
        | false =>
          have hrc := hsq (Or.inr hp)
          simp only [inDim, outDim, SparseMapMatrix.nRows, SparseMapMatrix.nCols] at hb hc
          simp at hb hc
          obtain ⟨out, ho, hl, hv⟩ := foldlM_accumulate (stepUpper alpha b)
            (contribution 1 false alpha b) c.length A.C_
            (fun e he v hv => by
              have h1 := (hin e he).1
              have h2 := (hin e he).2
              obtain ⟨c1, h1, h2, h3⟩ := stepUpper_spec alpha b v e
                (by omega) (by omega) (fun _ => ⟨by omega, by omega⟩)
              exact ⟨c1, h1, h2.trans hv, h3⟩)
            (scale c beta) hsl
          refine ⟨out, ?_, hl, ?_⟩
          · simp [mult_T_dispatch, SparseMapMatrix.stype, hp, ho, Result.ofOption]
          · intro i
            rw [hv i, scale_getD]
            simp [accumulated, hp]
      · refine ⟨scale c beta, ?_, hsl, ?_⟩
        · simp [mult_T_dispatch, SparseMapMatrix.stype, h0, hm, hp]
        · intro i
          rw [scale_getD]
          simp [accumulated, contribution, h0, hm, hp]

/-- On a valid call `mult_T_impl` returns normally; the output has the larger of its
old length and the required length, and every position holds its old value times
`beta` plus what the stored entries accumulate there. -/
theorem mult_T_impl_valid (A : SparseMapMatrix R) (b c : List R) (alpha beta : R)
    (bOff cOff : Nat) (trans : Bool) (h : ValidCall A b bOff cOff trans) :
    ∃ out, mult_T_impl A b c alpha beta bOff cOff trans = Result.ok out ∧
      out.length = max c.length (requiredLength A cOff trans) ∧
      ∀ i, out.getD i 0 = c.getD i 0 * beta + accumulated A trans alpha b i := by
  obtain ⟨hin, hsq, hb, hchk, hreq, himpl⟩ := h
  have key : ∀ c0 : List R, c0.length = max c.length (requiredLength A cOff trans) →
      (∀ i, c0.getD i 0 = c.getD i 0) →
      ∃ out, mult_T_dispatch A b c0 alpha beta trans = Result.ok out ∧
        out.length = max c.length (requiredLength A cOff trans) ∧
        ∀ i, out.getD i 0 = c.getD i 0 * beta + accumulated A trans alpha b i := by
    intro c0 hl hv
    obtain ⟨out, ho, hol, hov⟩ := mult_T_dispatch_valid A b c0 alpha beta trans hin hsq hb
      (by rw [hl]; exact le_trans hreq (le_max_right _ _)) himpl
    exact ⟨out, ho, hol.trans hl, fun i => by rw [hov i, hv i]⟩
  have hres : ∃ c0 : List R,
      mult_T_impl A b c alpha beta bOff cOff trans = mult_T_dispatch A b c0 alpha beta trans ∧
      c0.length = max c.length (requiredLength A cOff trans) ∧
      ∀ i, c0.getD i 0 = c.getD i 0 := by
    by_cases hlt : c.length < requiredLength A cOff trans
    · refine ⟨resize c (requiredLength A cOff trans), ?_, ?_, ?_⟩
      · cases trans <;>
          simp_all [mult_T_impl, requiredLength, inDim, outDim, Nat.not_lt.mpr]
      · rw [resize_length]; omega
      · intro i; exact resize_getD c _ i (Nat.le_of_lt hlt)
    · refine ⟨c, ?_, ?_, fun _ => rfl⟩
      · cases trans <;>
          simp_all [mult_T_impl, requiredLength, inDim, outDim, Nat.not_lt.mpr]
      · omega
  obtain ⟨c0, he, hl, hv⟩ := hres
  rw [he]
  exact key c0 hl hv

end MultLemmas

/-! ## Lemmas on the entry store -/

section StoreLemmas

variable {R : Type} [CommRing R]

theorem keyLt_irrefl (k : Nat × Nat) : ¬ keyLt k k := by
  simp [keyLt]

theorem keyLt_trans {a b d : Nat × Nat} (h1 : keyLt a b) (h2 : keyLt b d) : keyLt a d := by
  unfold keyLt at *
  omega

theorem keyLt_asymm {a b : Nat × Nat} (h1 : keyLt a b) : ¬ keyLt b a := by
  unfold keyLt at *
  omega

theorem keyLt_trichotomy (a b : Nat × Nat) : keyLt a b ∨ a = b ∨ keyLt b a := by
  rcases a with ⟨a1, a2⟩
  rcases b with ⟨b1, b2⟩
  simp only [keyLt, Prod.mk.injEq]
  omega

theorem nodup_of_pairwise_keyLt {ks : List (Nat × Nat)} (h : ks.Pairwise keyLt) :
    ks.Nodup :=
  List.Pairwise.imp (S := fun a b => a ≠ b)
    (fun {a b} hab heq => keyLt_irrefl b (by rw [heq] at hab; exact hab)) h

theorem entryAt_of_not_mem (L : List (Entry R)) (k : Nat × Nat)
    (h : k ∉ L.map Prod.fst) : entryAt L k = 0 := by
  induction L with
  | nil => rfl
  | cons e es ih =>
    simp only [List.map_cons, List.mem_cons, not_or] at h
    simp [entryAt, Ne.symm h.1, ih h.2]

/-- Summing the entries of row `i` in store order, or summing over the columns the
looked-up coefficients, gives the same total when no key is stored twice. -/
theorem sum_row_eq_sum_cols (L : List (Entry R)) (hnd : (L.map Prod.fst).Nodup)
    (n : Nat) (hn : ∀ e ∈ L, e.1.2 < n) (f : Nat → R) (i : Nat) :
    (L.map (fun e => if e.1.1 = i then f e.1.2 * e.2 else 0)).sum
      = ∑ j in Finset.range n, entryAt L (i, j) * f j := by
  induction L with
  | nil => simp [entryAt]
  | cons e es ih =>
    have hnd2 : e.1 ∉ es.map Prod.fst ∧ (es.map Prod.fst).Nodup :=
      List.nodup_cons.mp (by rw [List.map_cons] at hnd; exact hnd)
    have ih2 := ih hnd2.2 (fun e1 he1 => hn e1 (List.mem_cons_of_mem e he1))
    have hlt := hn e (List.mem_cons_self e es)
    simp only [List.map_cons, List.sum_cons, ih2]
    by_cases hi : e.1.1 = i
    · have hz : entryAt es (i, e.1.2) = 0 :=
        entryAt_of_not_mem es _ (by rw [← hi]; exact hnd2.1)
      have hterm : ∀ j ∈ Finset.range n, entryAt (e :: es) (i, j) * f j
          = (if j = e.1.2 then f e.1.2 * e.2 else 0) + entryAt es (i, j) * f j := by
        intro j _
        by_cases hj : j = e.1.2
        · subst hj
          have hk : e.1 = (i, e.1.2) := Prod.ext hi rfl
          rw [entryAt, if_pos hk, if_pos rfl, hz, zero_mul, add_zero, mul_comm]
        · have hk : e.1 ≠ (i, j) := fun h => hj (congrArg Prod.snd h).symm
          rw [entryAt, if_neg hk, if_neg hj, zero_add]
      rw [Finset.sum_congr rfl hterm, Finset.sum_add_distrib, if_pos hi]
      simp [Finset.sum_ite_eq', hlt]
    · have hterm : ∀ j ∈ Finset.range n, entryAt (e :: es) (i, j) * f j
          = entryAt es (i, j) * f j := by
        intro j _
        have hk : e.1 ≠ (i, j) := fun h => hi (congrArg Prod.fst h)
        rw [entryAt, if_neg hk]
      rw [Finset.sum_congr rfl hterm, if_neg hi, zero_add]

end StoreLemmas

/-! ## Non-transposed multiply on a general matrix -/

section GeneralMult

variable {R : Type} [CommRing R] [StarRing R]

theorem indexAdd_of_lt {a b : Nat} (h : a + b < indexModulus) : indexAdd a b = a + b :=
  Nat.mod_eq_of_lt h

/-- C1: on a general-tagged matrix (ordered store, keys inside the shape), with `b` at
least `cols` long, `mult` returns and leaves at every index `i < rows` the value
`beta * c0[i] + alpha * Σ_j A(i,j) * b[j]`, where `c0[i]` is zero past the end of the
old output and `A(i,j)` is the stored coefficient or zero. -/
theorem mult_general_entrywise (A : SparseMapMatrix R) (b c : List R) (alpha beta : R)
    (bOff cOff : Nat) (hs : A.stype_ = 0) (hord : A.Ordered) (hin : A.InRange)
    (hb : A._cols ≤ b.length) (hbo : b.length + bOff < indexModulus)
    (hco : A._rows + cOff < indexModulus) :
    ∃ out, mult A b c alpha beta bOff cOff = Result.ok out ∧
      ∀ i, i < A._rows →
        out[i]? = some (beta * c.getD i 0
          + alpha * ∑ j in Finset.range A._cols, A.getVal i j * b.getD j 0) := by
  have hv : ValidCall A b bOff cOff false := by
    refine ⟨hin, fun h => ?_, ?_, ?_, ?_, fun h => by cases h⟩
    · rcases h with h | h <;> rw [hs] at h <;> cases h
    · simpa [inDim, SparseMapMatrix.nCols] using hb
    · simp only [inDim, SparseMapMatrix.nCols, indexAdd_of_lt hbo]
      simp; omega
    · simp only [requiredLength, outDim, SparseMapMatrix.nRows]
      simp [indexAdd_of_lt hco]
  obtain ⟨out, ho, hl, hval⟩ := mult_T_impl_valid A b c alpha beta bOff cOff false hv
  refine ⟨out, ho, fun i hi => ?_⟩
  have hlen : i < out.length := by
    rw [hl]
    simp only [requiredLength, outDim, SparseMapMatrix.nRows]
    simp [indexAdd_of_lt hco]
    omega
  have hsum := sum_row_eq_sum_cols A.C_ (nodup_of_pairwise_keyLt hord) A._cols
    (fun e he => (hin e he).2) (fun j => b.getD j 0) i
  have hacc : accumulated A false alpha b i
      = alpha * ∑ j in Finset.range A._cols, A.getVal i j * b.getD j 0 := by
    have hfun : (fun e : Entry R => contribution A.stype_ false alpha b e i)
        = fun e => alpha * (if e.1.1 = i then b.getD e.1.2 0 * e.2 else 0) := by
      funext e
      by_cases h : e.1.1 = i <;> simp [contribution, hs, h, mul_assoc]
    simp only [SparseMapMatrix.getVal, ← hsum, accumulated, hfun]
    exact List.sum_map_mul_left _ _ _
  have hvi := hval i
  rw [List.getD_eq_getElem?_getD, List.getElem?_eq_getElem hlen, Option.getD_some] at hvi
  rw [List.getElem?_eq_getElem hlen, hvi, hacc, mul_comm]

end GeneralMult

/-! ## Calls that return -/

section Returned

variable {R : Type} [CommRing R] [StarRing R]

omit [StarRing R] in
theorem stepGeneral_inv (alpha : R) (b c c1 : List R) (e : Entry R)
    (h : stepGeneral alpha b c e = some c1) : e.1.1 < c.length ∧ e.1.2 < b.length := by
  simp only [stepGeneral, Option.bind_eq_bind, Option.bind_eq_some] at h
  obtain ⟨x, hx, hadd⟩ := h
  exact ⟨addAt_inv _ _ _ _ hadd, getElem?_inv b _ x hx⟩

omit [StarRing R] in
theorem stepGeneralTrans_inv (alpha : R) (b c c1 : List R) (e : Entry R)
    (h : stepGeneralTrans alpha b c e = some c1) : e.1.2 < c.length ∧ e.1.1 < b.length := by
  simp only [stepGeneralTrans, Option.bind_eq_bind, Option.bind_eq_some] at h
  obtain ⟨x, hx, hadd⟩ := h
  exact ⟨addAt_inv _ _ _ _ hadd, getElem?_inv b _ x hx⟩

theorem stepLower_inv (alpha : R) (b c c1 : List R) (e : Entry R)
    (h : stepLower alpha b c e = some c1) :
    e.1.1 < c.length ∧ e.1.2 < b.length ∧
      (e.1.2 > e.1.1 → e.1.2 < c.length ∧ e.1.1 < b.length) := by
  simp only [stepLower, Option.bind_eq_bind, Option.bind_eq_some] at h
  obtain ⟨x, hx, w, hadd, hrest⟩ := h
  refine ⟨addAt_inv _ _ _ _ hadd, getElem?_inv b _ x hx, fun hgt => ?_⟩
  rw [if_pos hgt] at hrest
  simp only [Option.bind_eq_some] at hrest
  obtain ⟨y, hy, hadd2⟩ := hrest
  have := addAt_inv _ _ _ _ hadd2
  rw [addAt_length _ _ _ _ hadd] at this
  exact ⟨this, getElem?_inv b _ y hy⟩

theorem stepUpper_inv (alpha : R) (b c c1 : List R) (e : Entry R)
    (h : stepUpper alpha b c e = some c1) :
    e.1.1 < c.length ∧ e.1.2 < b.length ∧
      (e.1.2 < e.1.1 → e.1.2 < c.length ∧ e.1.1 < b.length) := by
  simp only [stepUpper, Option.bind_eq_bind, Option.bind_eq_some] at h
  obtain ⟨x, hx, w, hadd, hrest⟩ := h
  refine ⟨addAt_inv _ _ _ _ hadd, getElem?_inv b _ x hx, fun hlt => ?_⟩
  rw [if_pos hlt] at hrest
  simp only [Option.bind_eq_some] at hrest
  obtain ⟨y, hy, hadd2⟩ := hrest
  have := addAt_inv _ _ _ _ hadd2
  rw [addAt_length _ _ _ _ hadd] at this
  exact ⟨this, getElem?_inv b _ y hy⟩

end Returned

section ReturnedCalls

variable {R : Type} [CommRing R] [StarRing R]

/-- Whenever the dispatch returns normally, the output keeps its length and every
position holds its old value times `beta` plus what the stored entries accumulate. -/
theorem mult_T_dispatch_of_ok (A : SparseMapMatrix R) (b c out : List R) (alpha beta : R)
    (trans : Bool) (h : mult_T_dispatch A b c alpha beta trans = Result.ok out) :
    out.length = c.length ∧
      ∀ i, out.getD i 0 = c.getD i 0 * beta + accumulated A trans alpha b i := by
  have hsl : (scale c beta).length = c.length := scale_length c beta
  have fin : ∀ (step : List R → Entry R → Option (List R)) (P : Entry R → Prop)
      (w : Entry R → Nat → R),
      (∀ e (v v1 : List R), v.length = c.length → step v e = some v1 → P e) →
      (∀ e (v : List R), v.length = c.length → P e →
        ∃ v1, step v e = some v1 ∧ v1.length = v.length ∧
          ∀ i, v1.getD i 0 = v.getD i 0 + w e i) →
      (∀ e i, w e i = contribution A.stype_ trans alpha b e i) →
      Result.ofOption (A.C_.foldlM step (scale c beta)) = Result.ok out →
      out.length = c.length ∧
        ∀ i, out.getD i 0 = c.getD i 0 * beta + accumulated A trans alpha b i := by
    intro step P w hP hspec hw hres
    cases hfold : A.C_.foldlM step (scale c beta) with
    | none => rw [hfold] at hres; cases hres
    | some o =>
      rw [hfold] at hres
      have ho : o = out := by
        simp only [Result.ofOption] at hres
        exact Result.ok.inj hres
      subst ho
      have hall := foldlM_inv step P c.length A.C_
        (fun e v v1 hv hs => by
          obtain ⟨v2, h2, hl2, _⟩ := hspec e v hv (hP e v v1 hv hs)
          rw [hs] at h2; cases h2; exact hl2.trans hv)
        hP (scale c beta) o hsl hfold
      obtain ⟨o2, h2, hl2, hv2⟩ := foldlM_accumulate step w c.length A.C_
        (fun e he v hv => by
          obtain ⟨v1, h1, hl1, hv1⟩ := hspec e v hv (hall e he)
          exact ⟨v1, h1, hl1.trans hv, hv1⟩)
        (scale c beta) hsl
      rw [hfold] at h2
      cases h2
      refine ⟨hl2, fun i => ?_⟩
      rw [hv2 i, scale_getD]
      simp only [accumulated, hw]
  by_cases h0 : A.stype_ = 0
  · cases trans with
    | true =>
      refine fin (stepGeneralTrans alpha b)
        (fun e => e.1.2 < c.length ∧ e.1.1 < b.length) (contribution 0 true alpha b)
        (fun e v v1 hv hs => hv ▸ stepGeneralTrans_inv alpha b v v1 e hs)
        (fun e v hv hP => stepGeneralTrans_spec alpha b v e (hv ▸ hP.1) hP.2)
        (fun e i => by rw [h0]) ?_
      simpa [mult_T_dispatch, SparseMapMatrix.stype, h0] using h
    | false =>
      refine fin (stepGeneral alpha b)
        (fun e => e.1.1 < c.length ∧ e.1.2 < b.length) (contribution 0 false alpha b)
        (fun e v v1 hv hs => hv ▸ stepGeneral_inv alpha b v v1 e hs)
        (fun e v hv hP => stepGeneral_spec alpha b v e (hv ▸ hP.1) hP.2)
        (fun e i => by rw [h0]) ?_
      simpa [mult_T_dispatch, SparseMapMatrix.stype, h0] using h
  · by_cases hm : A.stype_ = -1
    · cases trans with
      | true => simp [mult_T_dispatch, SparseMapMatrix.stype, hm] at h
      | false =>
        refine fin (stepLower alpha b)
          (fun e => e.1.1 < c.length ∧ e.1.2 < b.length ∧
            (e.1.2 > e.1.1 → e.1.2 < c.length ∧ e.1.1 < b.length))
          (contribution (-1) false alpha b)
          (fun e v v1 hv hs => hv ▸ stepLower_inv alpha b v v1 e hs)
          (fun e v hv hP => stepLower_spec alpha b v e (hv ▸ hP.1) hP.2.1 (hv ▸ hP.2.2))
          (fun e i => by rw [hm]) ?_
        simpa [mult_T_dispatch, SparseMapMatrix.stype, hm] using h
    · by_cases hp : A.stype_ = 1
      · cases trans with
        | true => simp [mult_T_dispatch, SparseMapMatrix.stype, hp] at h
        | false =>
          refine fin (stepUpper alpha b)
            (fun e => e.1.1 < c.length ∧ e.1.2 < b.length ∧
              (e.1.2 < e.1.1 → e.1.2 < c.length ∧ e.1.1 < b.length))
            (contribution 1 false alpha b)
            (fun e v v1 hv hs => hv ▸ stepUpper_inv alpha b v v1 e hs)
            (fun e v hv hP => stepUpper_spec alpha b v e (hv ▸ hP.1) hP.2.1 (hv ▸ hP.2.2))
            (fun e i => by rw [hp]) ?_
          simpa [mult_T_dispatch, SparseMapMatrix.stype, hp] using h
      · have ho : scale c beta = out := by
          simpa [mult_T_dispatch, SparseMapMatrix.stype, h0, hm, hp] using h
        subst ho
        refine ⟨hsl, fun i => ?_⟩
        rw [scale_getD]
        simp [accumulated, contribution, h0, hm, hp]

/-- What `mult_T_impl` hands to the dispatch: the old output, grown with zeros to the
required length when shorter. -/
theorem mult_T_impl_eq_dispatch (A : SparseMapMatrix R) (b c : List R) (alpha beta : R)
    (bOff cOff : Nat) (trans : Bool) (hchk : inDim A trans ≤ indexAdd b.length bOff) :
    ∃ c0 : List R,
      mult_T_impl A b c alpha beta bOff cOff trans = mult_T_dispatch A b c0 alpha beta trans ∧
      c0.length = max c.length (requiredLength A cOff trans) ∧
      ∀ i, c0.getD i 0 = c.getD i 0 := by
  by_cases hlt : c.length < requiredLength A cOff trans
  · refine ⟨resize c (requiredLength A cOff trans), ?_, ?_, ?_⟩
    · cases trans <;>
        simp_all [mult_T_impl, requiredLength, inDim, outDim, Nat.not_lt.mpr]
    · rw [resize_length]; omega
    · intro i; exact resize_getD c _ i (Nat.le_of_lt hlt)
  · refine ⟨c, ?_, ?_, fun _ => rfl⟩
    · cases trans <;>
        simp_all [mult_T_impl, requiredLength, inDim, outDim, Nat.not_lt.mpr]
    · omega

/-- A call of `mult_T_impl` that returns normally passed the dimension assertion. -/
theorem mult_T_impl_ok_check (A : SparseMapMatrix R) (b c out : List R) (alpha beta : R)
    (bOff cOff : Nat) (trans : Bool)
    (h : mult_T_impl A b c alpha beta bOff cOff trans = Result.ok out) :
    inDim A trans ≤ indexAdd b.length bOff := by
  by_contra hlt
  have hlt2 := Nat.lt_of_not_le hlt
  cases trans <;> simp_all [mult_T_impl, inDim]

/-- Whenever `mult_T_impl` returns normally, the output has the larger of its old
length and the required length, and every position holds its old value times `beta`
plus what the stored entries accumulate there. -/
theorem mult_T_impl_of_ok (A : SparseMapMatrix R) (b c out : List R) (alpha beta : R)
    (bOff cOff : Nat) (trans : Bool)
    (h : mult_T_impl A b c alpha beta bOff cOff trans = Result.ok out) :
    out.length = max c.length (requiredLength A cOff trans) ∧
      ∀ i, out.getD i 0 = c.getD i 0 * beta + accumulated A trans alpha b i := by
  obtain ⟨c0, he, hl, hv⟩ := mult_T_impl_eq_dispatch A b c alpha beta bOff cOff trans
    (mult_T_impl_ok_check A b c out alpha beta bOff cOff trans h)
  rw [he] at h
  obtain ⟨h1, h2⟩ := mult_T_dispatch_of_ok A b c0 out alpha beta trans h
  exact ⟨h1.trans hl, fun i => by rw [h2 i, hv i]⟩

end ReturnedCalls

/-! ## The general loop does not depend on the order of the store -/

section Permutation

variable {R : Type} [CommRing R]

theorem list_ext_getD (l1 l2 : List R) (hl : l1.length = l2.length)
    (h : ∀ i, l1.getD i 0 = l2.getD i 0) : l1 = l2 := by
  apply List.ext_getElem hl
  intro n h1 h2
  have hn := h n
  simpa [List.getD_eq_getElem?_getD, List.getElem?_eq_getElem h1,
    List.getElem?_eq_getElem h2] using hn

variable [StarRing R]

theorem foldlM_stepGeneral_perm (alpha : R) (b c : List R) {L1 L2 : List (Entry R)}
    (hp : L1.Perm L2) :
    L1.foldlM (stepGeneral alpha b) c = L2.foldlM (stepGeneral alpha b) c := by
  have total : ∀ L : List (Entry R), (∀ e ∈ L, e.1.1 < c.length ∧ e.1.2 < b.length) →
      ∃ out, L.foldlM (stepGeneral alpha b) c = some out ∧ out.length = c.length ∧
        ∀ i, out.getD i 0
          = c.getD i 0 + (L.map (fun e => contribution 0 false alpha b e i)).sum :=
    fun L hL => foldlM_accumulate (stepGeneral alpha b) (contribution 0 false alpha b)
      c.length L
      (fun e he v hv => by
        obtain ⟨v1, h1, hl1, hv1⟩ := stepGeneral_spec alpha b v e
          (hv ▸ (hL e he).1) (hL e he).2
        exact ⟨v1, h1, hl1.trans hv, hv1⟩) c rfl
  have inv : ∀ (L : List (Entry R)) (out : List R),
      L.foldlM (stepGeneral alpha b) c = some out →
      ∀ e ∈ L, e.1.1 < c.length ∧ e.1.2 < b.length :=
    fun L out h => foldlM_inv (stepGeneral alpha b)
      (fun e => e.1.1 < c.length ∧ e.1.2 < b.length) c.length L
      (fun e v v1 hv hs => by
        obtain ⟨h1, h2⟩ := stepGeneral_inv alpha b v v1 e hs
        obtain ⟨v2, h3, hl, _⟩ := stepGeneral_spec alpha b v e h1 h2
        rw [hs] at h3; cases h3; exact hl.trans hv)
      (fun e v v1 hv hs => hv ▸ stepGeneral_inv alpha b v v1 e hs) c out rfl h
  have both : ∀ (La Lb : List (Entry R)) (out : List R), La.Perm Lb →
      La.foldlM (stepGeneral alpha b) c = some out →
      Lb.foldlM (stepGeneral alpha b) c = some out := by
    intro La Lb out hperm ha
    have hLa := inv La out ha
    obtain ⟨o1, h1, hl1, hv1⟩ := total La hLa
    obtain ⟨o2, h2, hl2, hv2⟩ := total Lb (fun e he => hLa e (hperm.mem_iff.mpr he))
    rw [ha] at h1
    cases h1
    rw [h2]
    congr 1
    apply list_ext_getD _ _ (hl2.trans hl1.symm)
    intro i
    rw [hv1 i, hv2 i]
    congr 1
    exact ((hperm.map _).sum_eq).symm
  cases h1 : L1.foldlM (stepGeneral alpha b) c with
  | some out => exact (both L1 L2 out hp h1).symm
  | none =>
    cases h2 : L2.foldlM (stepGeneral alpha b) c with
    | none => rfl
    | some out =>
      have := both L2 L1 out hp.symm h2
      rw [h1] at this
      cases this

omit [CommRing R] [StarRing R] in
theorem foldlM_flatMap (f : List R → Entry R → Option (List R))
    (g : Entry R → List (Entry R)) (L : List (Entry R)) (c : List R) :
    (L.flatMap g).foldlM f c = L.foldlM (fun v e => (g e).foldlM f v) c := by
  induction L generalizing c with
  | nil => rfl
  | cons e es ih =>
    simp only [List.flatMap_cons, List.foldlM_append, List.foldlM_cons]
    congr 1
    funext v
    exact ih v

/-- The loop body for `stype == -1` is the general loop body run over `expandLower`. -/
theorem stepLower_eq_expand (alpha : R) (b c : List R) (e : Entry R) :
    stepLower alpha b c e = (expandLower e).foldlM (stepGeneral alpha b) c := by
  by_cases hgt : e.1.2 > e.1.1
  · simp only [stepLower, expandLower, if_pos hgt, List.foldlM_cons, List.foldlM_nil,
      stepGeneral, mirrorEntry, Option.bind_eq_bind]
    cases b[e.1.2]? with
    | none => rfl
    | some x =>
      simp only [Option.some_bind]
      cases addAt c e.1.1 (alpha * x * star e.2) with
      | none => rfl
      | some c1 =>
        simp only [Option.some_bind]
        cases b[e.1.1]? with
        | none => rfl
        | some y =>
          simp only [Option.some_bind]
          cases addAt c1 e.1.2 (alpha * y * e.2) <;> rfl
  · simp only [stepLower, expandLower, if_neg hgt, List.foldlM_cons, List.foldlM_nil,
      stepGeneral, Option.bind_eq_bind]
    cases b[e.1.2]? with
    | none => rfl
    | some x =>
      cases addAt c e.1.1 (alpha * x * star e.2) <;> rfl

/-- The loop body for `stype == 1` is the general loop body run over `expandUpper`. -/
theorem stepUpper_eq_expand (alpha : R) (b c : List R) (e : Entry R) :
    stepUpper alpha b c e = (expandUpper e).foldlM (stepGeneral alpha b) c := by
  by_cases hlt : e.1.2 < e.1.1
  · simp only [stepUpper, expandUpper, if_pos hlt, List.foldlM_cons, List.foldlM_nil,
      stepGeneral, mirrorEntry, Option.bind_eq_bind]
    cases b[e.1.2]? with
    | none => rfl
    | some x =>
      simp only [Option.some_bind]
      cases addAt c e.1.1 (alpha * x * star e.2) with
      | none => rfl
      | some c1 =>
        simp only [Option.some_bind]
        cases b[e.1.1]? with
        | none => rfl
        | some y =>
          simp only [Option.some_bind]
          cases addAt c1 e.1.2 (alpha * y * e.2) <;> rfl
  · simp only [stepUpper, expandUpper, if_neg hlt, List.foldlM_cons, List.foldlM_nil,
      stepGeneral, Option.bind_eq_bind]
    cases b[e.1.2]? with
    | none => rfl
    | some x =>
      cases addAt c e.1.1 (alpha * x * star e.2) <;> rfl

end Permutation

/-! ## Both halves stored explicitly -/

section BothHalves

variable {R : Type} [CommRing R]

omit [CommRing R] in
theorem setEntry_perm (k : Nat × Nat) (x : R) (L : List (Entry R))
    (h : k ∉ L.map Prod.fst) : (setEntry k x L).Perm ((k, x) :: L) := by
  induction L with
  | nil => exact List.Perm.refl _
  | cons e es ih =>
    simp only [List.map_cons, List.mem_cons, not_or] at h
    by_cases hlt : keyLt k e.1
    · simp only [setEntry, if_pos hlt]
      exact List.Perm.refl _
    · simp only [setEntry, if_neg hlt, if_neg (Ne.symm h.1)]
      exact ((ih h.2).cons e).trans (List.Perm.swap _ _ _)

omit [CommRing R] in
theorem foldl_setEntry_perm (X M : List (Entry R))
    (h : (M.map Prod.fst ++ X.map Prod.fst).Nodup) :
    (X.foldl (fun M e => setEntry e.1 e.2 M) M).Perm (M ++ X) := by
  induction X generalizing M with
  | nil => simp
  | cons e es ih =>
    have hk : e.1 ∉ M.map Prod.fst := by
      intro hmem
      have := (List.nodup_append.mp h).2.2
      exact this hmem (by simp)
    have hstep := setEntry_perm e.1 e.2 M hk
    have hnd : ((setEntry e.1 e.2 M).map Prod.fst ++ es.map Prod.fst).Nodup := by
      have hp : ((setEntry e.1 e.2 M).map Prod.fst ++ es.map Prod.fst).Perm
          (M.map Prod.fst ++ (e :: es).map Prod.fst) := by
        refine ((hstep.map Prod.fst).append_right _).trans ?_
        simp only [List.map_cons, List.cons_append]
        exact List.perm_middle.symm
      exact hp.nodup_iff.mpr h
    simp only [List.foldl_cons]
    refine (ih _ hnd).trans ?_
    refine (hstep.append_right es).trans ?_
    simp only [List.cons_append]
    exact List.perm_middle.symm

omit [CommRing R] in
theorem bothHalves_fields (X : List (Entry R)) (A0 : SparseMapMatrix R) :
    (X.foldl (fun M e => M.setVal e.1.1 e.1.2 e.2) A0).C_
        = X.foldl (fun M e => setEntry e.1 e.2 M) A0.C_ ∧
      (X.foldl (fun M e => M.setVal e.1.1 e.1.2 e.2) A0)._rows = A0._rows ∧
      (X.foldl (fun M e => M.setVal e.1.1 e.1.2 e.2) A0)._cols = A0._cols ∧
      (X.foldl (fun M e => M.setVal e.1.1 e.1.2 e.2) A0).stype_ = A0.stype_ := by
  induction X generalizing A0 with
  | nil => simp
  | cons e es ih =>
    simp only [List.foldl_cons]
    obtain ⟨h1, h2, h3, h4⟩ := ih (A0.setVal e.1.1 e.1.2 e.2)
    exact ⟨h1, h2, h3, h4⟩

omit [CommRing R] in
theorem mirror_keys_nodup (L : List (Entry R)) (hnd : (L.map Prod.fst).Nodup)
    (htri : (∀ e ∈ L, e.1.1 ≤ e.1.2) ∨ (∀ e ∈ L, e.1.2 ≤ e.1.1)) :
    ((withMirrors L).map Prod.fst).Nodup := by
  have hkeys : (withMirrors L).map Prod.fst
      = L.map Prod.fst ++ ((L.map Prod.fst).filter (fun k => k.1 ≠ k.2)).map Prod.swap := by
    simp only [withMirrors, List.map_append, List.map_map, List.filter_map]
    congr 1
  rw [hkeys]
  refine List.Nodup.append hnd ?_ ?_
  · exact (hnd.filter _).map Prod.swap_injective
  · intro k hk1 hk2
    obtain ⟨k2, hk2mem, hk2eq⟩ := List.mem_map.mp hk2
    obtain ⟨hk2L, hk2off⟩ := List.mem_filter.mp hk2mem
    obtain ⟨e1, he1, rfl⟩ := List.mem_map.mp hk1
    obtain ⟨e2, he2, rfl⟩ := List.mem_map.mp hk2L
    have h1 : e2.1.2 = e1.1.1 := congrArg Prod.fst hk2eq
    have h2 : e2.1.1 = e1.1.2 := congrArg Prod.snd hk2eq
    simp only [ne_eq, decide_not, Bool.not_eq_eq_eq_not, Bool.not_true,
      decide_eq_false_iff_not] at hk2off
    rcases htri with ht | ht
    · have := ht e1 he1
      have := ht e2 he2
      omega
    · have := ht e1 he1
      have := ht e2 he2
      omega

omit [CommRing R] in
theorem flatMap_mirror_perm (L : List (Entry R)) :
    (L.flatMap (fun e => e :: (if e.1.1 ≠ e.1.2 then [mirrorEntry e] else []))).Perm
      (withMirrors L) := by
  induction L with
  | nil => exact List.Perm.refl _
  | cons e es ih =>
    unfold withMirrors at ih ⊢
    simp only [List.flatMap_cons, List.cons_append]
    refine List.Perm.cons e ?_
    by_cases hoff : e.1.1 ≠ e.1.2
    · simp only [if_pos hoff, List.filter_cons, hoff, decide_True, if_true, List.map_cons,
        List.cons_append, List.nil_append, ne_eq, not_false_eq_true]
      exact (ih.cons _).trans List.perm_middle.symm
    · simp only [if_neg hoff, List.filter_cons, hoff, decide_False, List.nil_append]
      simpa using ih

end BothHalves

section SymmetricMult

variable {R : Type} [CommRing R] [StarRing R]

/-- Two matrices of the same shape on which the dispatch agrees give the same
`mult_T_impl`. -/
theorem mult_T_impl_congr (A B : SparseMapMatrix R) (b c : List R) (alpha beta : R)
    (bOff cOff : Nat) (trans : Bool) (hr : A._rows = B._rows) (hc : A._cols = B._cols)
    (hd : ∀ c0, mult_T_dispatch A b c0 alpha beta trans
      = mult_T_dispatch B b c0 alpha beta trans) :
    mult_T_impl A b c alpha beta bOff cOff trans
      = mult_T_impl B b c alpha beta bOff cOff trans := by
  simp only [mult_T_impl, SparseMapMatrix.nRows, SparseMapMatrix.nCols, hr, hc, hd]

omit [StarRing R] [CommRing R] in
/-- The store of `bothHalves A` is a rearrangement of the stored entries and their
mirror images, provided `A` keeps its entries in one triangle. -/
theorem bothHalves_perm (A : SparseMapMatrix R) (hord : A.Ordered)
    (htri : (∀ e ∈ A.C_, e.1.1 ≤ e.1.2) ∨ (∀ e ∈ A.C_, e.1.2 ≤ e.1.1)) :
    (bothHalves A).C_.Perm (withMirrors A.C_) := by
  have hf := bothHalves_fields (withMirrors A.C_)
    ({ C_ := [], _rows := A._rows, _cols := A._cols, stype_ := 0 } : SparseMapMatrix R)
  unfold bothHalves
  rw [hf.1]
  have := foldl_setEntry_perm (withMirrors A.C_) ([] : List (Entry R))
    (by simpa using mirror_keys_nodup A.C_ (nodup_of_pairwise_keyLt hord) htri)
  simpa using this

/-- On a real matrix tagged `-1` with stored columns `>=` rows, or tagged `+1` with
stored columns `<=` rows, the dispatch does what the general dispatch does on
`bothHalves`. -/
theorem mult_T_dispatch_bothHalves [TrivialStar R] (A : SparseMapMatrix R)
    (hord : A.Ordered)
    (htri : (A.stype_ = -1 ∧ ∀ e ∈ A.C_, e.1.1 ≤ e.1.2) ∨
      (A.stype_ = 1 ∧ ∀ e ∈ A.C_, e.1.2 ≤ e.1.1))
    (b c : List R) (alpha beta : R) :
    mult_T_dispatch A b c alpha beta false
      = mult_T_dispatch (bothHalves A) b c alpha beta false := by
  have hf := bothHalves_fields (withMirrors A.C_)
    ({ C_ := [], _rows := A._rows, _cols := A._cols, stype_ := 0 } : SparseMapMatrix R)
  have hst : (bothHalves A).stype_ = 0 := hf.2.2.2
  have hperm := bothHalves_perm A hord (htri.imp (fun h => h.2) (fun h => h.2))
  have hgen : mult_T_dispatch (bothHalves A) b c alpha beta false
      = Result.ofOption ((withMirrors A.C_).foldlM (stepGeneral alpha b) (scale c beta)) := by
    simp only [mult_T_dispatch, SparseMapMatrix.stype, hst, if_true]
    rw [foldlM_stepGeneral_perm alpha b (scale c beta) hperm]
    rfl
  rw [hgen]
  rcases htri with ⟨hm, ht⟩ | ⟨hp, ht⟩
  · have hexp : ∀ e ∈ A.C_, expandLower e
        = e :: (if e.1.1 ≠ e.1.2 then [mirrorEntry e] else []) := by
      intro e he
      have := ht e he
      by_cases hgt : e.1.2 > e.1.1
      · have hne : e.1.1 ≠ e.1.2 := by omega
        simp [expandLower, hgt, hne]
      · have heq : e.1.1 = e.1.2 := by omega
        simp [expandLower, heq]
    have hloop : A.C_.foldlM (stepLower alpha b) (scale c beta)
        = (A.C_.flatMap expandLower).foldlM (stepGeneral alpha b) (scale c beta) := by
      rw [foldlM_flatMap]
      congr 1
      funext v e
      exact stepLower_eq_expand alpha b v e
    have hflat : A.C_.flatMap expandLower
        = A.C_.flatMap (fun e => e :: (if e.1.1 ≠ e.1.2 then [mirrorEntry e] else [])) := by
      simp only [List.flatMap, List.map_congr_left hexp]
    simp only [mult_T_dispatch, SparseMapMatrix.stype, hm]
    rw [hloop, hflat, foldlM_stepGeneral_perm alpha b (scale c beta)
      (flatMap_mirror_perm A.C_)]
    rfl
  · have hexp : ∀ e ∈ A.C_, expandUpper e
        = e :: (if e.1.1 ≠ e.1.2 then [mirrorEntry e] else []) := by
      intro e he
      have := ht e he
      by_cases hlt : e.1.2 < e.1.1
      · have hne : e.1.1 ≠ e.1.2 := by omega
        simp [expandUpper, hlt, hne]
      · have heq : e.1.1 = e.1.2 := by omega
        simp [expandUpper, heq]
    have hloop : A.C_.foldlM (stepUpper alpha b) (scale c beta)
        = (A.C_.flatMap expandUpper).foldlM (stepGeneral alpha b) (scale c beta) := by
      rw [foldlM_flatMap]
      congr 1
      funext v e
      exact stepUpper_eq_expand alpha b v e
    have hflat : A.C_.flatMap expandUpper
        = A.C_.flatMap (fun e => e :: (if e.1.1 ≠ e.1.2 then [mirrorEntry e] else [])) := by
      simp only [List.flatMap, List.map_congr_left hexp]
    simp only [mult_T_dispatch, SparseMapMatrix.stype, hp]
    rw [hloop, hflat, foldlM_stepGeneral_perm alpha b (scale c beta)
      (flatMap_mirror_perm A.C_)]
    rfl

/-- C2 (amended): for a real matrix tagged `+1` whose stored entries all have
column `<=` row, and for a real matrix tagged `-1` whose stored entries all have
column `>=` row, `mult` gives, for every `b`, `c`, `alpha`, `beta` and offsets, the
same outcome as `mult` on the general-tagged matrix of the same shape that stores both
halves explicitly. -/
theorem mult_symmetric_eq_bothHalves [TrivialStar R] (A : SparseMapMatrix R)
    (hord : A.Ordered)
    (htri : (A.stype_ = 1 ∧ ∀ e ∈ A.C_, e.1.2 ≤ e.1.1) ∨
      (A.stype_ = -1 ∧ ∀ e ∈ A.C_, e.1.2 ≥ e.1.1))
    (b c : List R) (alpha beta : R) (bOff cOff : Nat) :
    mult A b c alpha beta bOff cOff = mult (bothHalves A) b c alpha beta bOff cOff := by
  have hf := bothHalves_fields (withMirrors A.C_)
    ({ C_ := [], _rows := A._rows, _cols := A._cols, stype_ := 0 } : SparseMapMatrix R)
  exact mult_T_impl_congr A (bothHalves A) b c alpha beta bOff cOff false
    hf.2.1.symm hf.2.2.1.symm
    (fun c0 => mult_T_dispatch_bothHalves A hord htri.symm b c0 alpha beta)

/-- Instance of `mult_symmetric_eq_bothHalves`: a 3 x 3 matrix tagged `-1` with two
off-diagonal entries above the diagonal. -/
theorem mult_symmetric_eq_bothHalves_witness :
    sampleMinusTag.Ordered ∧
      ((sampleMinusTag.stype_ = 1 ∧ ∀ e ∈ sampleMinusTag.C_, e.1.2 ≤ e.1.1) ∨
        (sampleMinusTag.stype_ = -1 ∧ ∀ e ∈ sampleMinusTag.C_, e.1.2 ≥ e.1.1)) ∧
      mult sampleMinusTag [1, 10, 100] [1] 2 3 0 0
        = mult (bothHalves sampleMinusTag) [1, 10, 100] [1] 2 3 0 0 ∧
      mult sampleMinusTag [1, 10, 100] [1] 2 3 0 0 = Result.ok [607, 1500, 146] :=
  ⟨by decide, by decide,
    mult_symmetric_eq_bothHalves sampleMinusTag (by decide) (by decide)
      [1, 10, 100] [1] 2 3 0 0,
    by decide⟩

/-- C2 as stated fails: a real matrix tagged `+1` whose stored entry has
column `>=` row is not multiplied like the general matrix storing both halves; the
mirror image of the entry `(0, 1)` is never applied. -/
theorem mult_upper_tag_counterexample :
    sampleUpperTag.stype_ = 1 ∧ sampleUpperTag.Ordered ∧ sampleUpperTag.InRange ∧
      (∀ e ∈ sampleUpperTag.C_, e.1.2 ≥ e.1.1) ∧
      mult sampleUpperTag [1, 0] [] 1 0 0 0 = Result.ok [0, 0] ∧
      mult (bothHalves sampleUpperTag) [1, 0] [] 1 0 0 0 = Result.ok [0, 1] ∧
      mult sampleUpperTag [1, 0] [] 1 0 0 0
        ≠ mult (bothHalves sampleUpperTag) [1, 0] [] 1 0 0 0 := by
  decide

end SymmetricMult

/-! ## Conjugate placement -/

section Conjugate

variable {R : Type} [CommRing R]

theorem unitVec_length (n J : Nat) : (unitVec n J : List R).length = n := by
  simp [unitVec]

theorem unitVec_getD (n J k : Nat) :
    (unitVec n J : List R).getD k 0 = if k < n ∧ k = J then 1 else 0 := by
  simp only [unitVec, List.getD_eq_getElem?_getD, List.getElem?_map]
  by_cases hk : k < n
  · rw [List.getElem?_range hk]
    simp [hk]
  · rw [List.getElem?_eq_none (by simpa using hk)]
    simp [hk]

theorem unitVec_getElem?_getD (n J k : Nat) :
    ((unitVec n J : List R)[k]?).getD 0 = if k < n ∧ k = J then 1 else 0 := by
  rw [← List.getD_eq_getElem?_getD]
  exact unitVec_getD n J k

variable [StarRing R]

/-- C3 (amended): a matrix tagged `-1` or `+1` storing the single off-diagonal entry
`v` at `(I, J)`, multiplied with `alpha = 1`, `beta = 0`: on the unit vector `e_J` the
output holds `conj v` at `I`; on the unit vector `e_I` the output holds `v` at `J` when
the entry lies in the mirrored triangle (`J > I` under tag `-1`, `J < I` under tag `+1`)
and `0` otherwise. -/
theorem mult_conjugate_placement (A : SparseMapMatrix R) (I J n : Nat) (v : R)
    (c0 : List R) (bOff cOff : Nat)
    (hC : A.C_ = [((I, J), v)]) (hr : A._rows = n) (hcl : A._cols = n)
    (hI : I < n) (hJ : J < n) (hne : I ≠ J) (hs : A.stype_ = -1 ∨ A.stype_ = 1)
    (hbo : n + bOff < indexModulus) (hco : n + cOff < indexModulus) :
    (∃ out, mult A (unitVec n J) c0 1 0 bOff cOff = Result.ok out ∧
        out[I]? = some (star v)) ∧
      (∃ out, mult A (unitVec n I) c0 1 0 bOff cOff = Result.ok out ∧
        out[J]? = some
          (if (A.stype_ = -1 ∧ J > I) ∨ (A.stype_ = 1 ∧ J < I) then v else 0)) := by
  have hreq : requiredLength A cOff false = n + cOff := by
    simp [requiredLength, outDim, SparseMapMatrix.nRows, hr, indexAdd_of_lt hco]
  have hv : ∀ K : Nat, ValidCall A (unitVec n K : List R) bOff cOff false := by
    intro K
    refine ⟨?_, fun _ => hr.trans hcl.symm, ?_, ?_, ?_, fun h => by cases h⟩
    · intro e he
      rw [hC] at he
      simp only [List.mem_singleton] at he
      subst he
      simp only [hr, hcl]
      exact ⟨hI, hJ⟩
    · simp [inDim, SparseMapMatrix.nCols, hcl, unitVec_length]
    · simp only [inDim, SparseMapMatrix.nCols, hcl, unitVec_length, indexAdd_of_lt hbo]
      simp
    · rw [hreq]
      simp [outDim, SparseMapMatrix.nRows, hr]
  have hlen : ∀ out : List R,
      out.length = max c0.length (requiredLength A cOff false) → ∀ k, k < n →
      out[k]? = some (out.getD k 0) := by
    intro out hl k hk
    have hk2 : k < out.length := by
      rw [hl, hreq]
      exact lt_of_lt_of_le (by omega) (le_max_right _ _)
    simp [List.getD_eq_getElem?_getD, List.getElem?_eq_getElem hk2]
  constructor
  · obtain ⟨out, ho, hl, hval⟩ := mult_T_impl_valid A (unitVec n J) c0 1 0 bOff cOff false
      (hv J)
    refine ⟨out, ho, ?_⟩
    rw [hlen out hl I hI, hval I]
    congr 1
    rcases hs with hm | hp
    · simp [accumulated, hC, contribution, hm, unitVec_getElem?_getD, hI, hJ, hne, Ne.symm hne]
    · simp [accumulated, hC, contribution, hp, unitVec_getElem?_getD, hI, hJ, hne, Ne.symm hne]
  · obtain ⟨out, ho, hl, hval⟩ := mult_T_impl_valid A (unitVec n I) c0 1 0 bOff cOff false
      (hv I)
    refine ⟨out, ho, ?_⟩
    rw [hlen out hl J hJ, hval J]
    congr 1
    rcases hs with hm | hp
    · simp [accumulated, hC, contribution, hm, unitVec_getElem?_getD, hI, hJ, hne, Ne.symm hne]
    · simp [accumulated, hC, contribution, hp, unitVec_getElem?_getD, hI, hJ, hne, Ne.symm hne]

end Conjugate

/-- Instance of `mult_conjugate_placement`: `2 + 3i` stored at `(0, 2)` under tag `-1`;
`e_2` yields `2 - 3i` at index 0 and `e_0` yields `2 + 3i` at index 2. -/
theorem mult_conjugate_placement_witness :
    (∃ out, mult sampleComplexMirrored (unitVec 3 2) [] 1 0 0 0 = Result.ok out ∧
        out[0]? = some (star (⟨2, 3⟩ : GaussianInt))) ∧
      (∃ out, mult sampleComplexMirrored (unitVec 3 0) [] 1 0 0 0 = Result.ok out ∧
        out[2]? = some
          (if (sampleComplexMirrored.stype_ = -1 ∧ 2 > 0) ∨
            (sampleComplexMirrored.stype_ = 1 ∧ 2 < 0) then (⟨2, 3⟩ : GaussianInt) else 0)) :=
  mult_conjugate_placement sampleComplexMirrored 0 2 3 ⟨2, 3⟩ [] 0 0 rfl rfl rfl
    (by decide) (by decide) (by decide) (Or.inl rfl) (by decide) (by decide)

/-- C3 as stated fails: with the imaginary unit stored at `(I, J) = (1, 0)` under tag
`-1`, or at `(I, J) = (0, 1)` under tag `+1`, multiplying the unit vector `e_I` leaves
`0`, not `v`, at index `J`. -/
theorem mult_conjugate_counterexample :
    (sampleComplexMinus.stype_ = -1 ∧ sampleComplexMinus.C_ = [((1, 0), ⟨0, 1⟩)] ∧
        mult sampleComplexMinus (unitVec 2 1) [] 1 0 0 0 = Result.ok [0, 0] ∧
        ([0, 0] : List GaussianInt)[0]? ≠ some ⟨0, 1⟩) ∧
      (sampleComplexPlus.stype_ = 1 ∧ sampleComplexPlus.C_ = [((0, 1), ⟨0, 1⟩)] ∧
        mult sampleComplexPlus (unitVec 2 0) [] 1 0 0 0 = Result.ok [0, 0] ∧
        ([0, 0] : List GaussianInt)[1]? ≠ some ⟨0, 1⟩) := by
  decide

/-- Instance of `mult_general_entrywise` on a 2 x 2 integer matrix. -/
theorem mult_general_entrywise_witness :
    ∃ out, mult sampleGeneral [1, 10] [7] 1 2 0 0 = Result.ok out ∧
      ∀ i, i < sampleGeneral._rows →
        out[i]? = some (2 * ([7] : List ℤ).getD i 0
          + 1 * ∑ j in Finset.range sampleGeneral._cols,
              sampleGeneral.getVal i j * ([1, 10] : List ℤ).getD j 0) :=
  mult_general_entrywise sampleGeneral [1, 10] [7] 1 2 0 0 rfl (by decide) (by decide)
    (by decide) (by decide) (by decide)

/-! ## The dimension assertion -/

/-- C4, the code at the failing input: `b` has 2 elements and `bOff = 1`, so 1 element
remains, fewer than the 3 columns; the assertion compares `b.size() + bOff = 3` and
passes, and the loop reads `b[2]`, past the end of `b`. -/
theorem mult_T_impl_short_input_not_rejected :
    ([5, 7] : List ℤ).length - 1 < inDim sampleWide false ∧
      mult_T_impl sampleWide [5, 7] [] 1 0 1 0 false ≠ Result.thrown Signal.lengthError [] ∧
      mult_T_impl sampleWide [5, 7] [] 1 0 1 0 false = Result.undefined := by
  decide

/-! ## Resize and scaling of the output -/

section Resize

variable {R : Type} [CommRing R] [StarRing R]

/-- On a valid call nothing is accumulated at or beyond the effective output
dimension. -/
theorem accumulated_eq_zero_of_ge (A : SparseMapMatrix R) (b : List R) (alpha : R)
    (bOff cOff : Nat) (trans : Bool) (hv : ValidCall A b bOff cOff trans) (i : Nat)
    (hi : outDim A trans ≤ i) : accumulated A trans alpha b i = 0 := by
  obtain ⟨hin, hsq, _, _, _, himpl⟩ := hv
  apply List.sum_eq_zero
  intro x hx
  obtain ⟨e, he, rfl⟩ := List.mem_map.mp hx
  have h1 := (hin e he).1
  have h2 := (hin e he).2
  by_cases h0 : A.stype_ = 0
  · cases trans with
    | true =>
      simp only [outDim, SparseMapMatrix.nCols, if_true] at hi
      have : e.1.2 ≠ i := by omega
      simp [contribution, h0, this]
    | false =>
      simp only [outDim, SparseMapMatrix.nRows] at hi
      have : e.1.1 ≠ i := by simp at hi; omega
      simp [contribution, h0, this]
  · by_cases hm : A.stype_ = -1
    · have hrc := hsq (Or.inl hm)
      cases trans with
      | true => exact absurd hm (himpl rfl).1
      | false =>
        simp only [outDim, SparseMapMatrix.nRows] at hi
        have : e.1.1 ≠ i := by simp at hi; omega
        have : e.1.2 ≠ i := by simp at hi; omega
        simp [contribution, hm, *]
    · by_cases hp : A.stype_ = 1
      · have hrc := hsq (Or.inr hp)
        cases trans with
        | true => exact absurd hp (himpl rfl).2
        | false =>
          simp only [outDim, SparseMapMatrix.nRows] at hi
          have : e.1.1 ≠ i := by simp at hi; omega
          have : e.1.2 ≠ i := by simp at hi; omega
          simp [contribution, hp, *]
      · simp [contribution, h0, hm, hp]

/-- C5 (amended): on a valid call whose output is already longer than the required
length, the output keeps its length and every entry at an index at or beyond the
required length holds `beta` times its old value: the whole output vector is scaled by
`beta`, and nothing is accumulated past the required length. -/
theorem mult_T_impl_tail_scaled (A : SparseMapMatrix R) (b c0 : List R) (alpha beta : R)
    (bOff cOff : Nat) (trans : Bool) (hv : ValidCall A b bOff cOff trans)
    (hlong : requiredLength A cOff trans < c0.length) :
    ∃ out, mult_T_impl A b c0 alpha beta bOff cOff trans = Result.ok out ∧
      out.length = c0.length ∧
      ∀ i, requiredLength A cOff trans ≤ i → i < c0.length →
        out[i]? = some (beta * c0.getD i 0) := by
  obtain ⟨out, ho, hl, hval⟩ := mult_T_impl_valid A b c0 alpha beta bOff cOff trans hv
  have hlen : out.length = c0.length := by rw [hl]; omega
  refine ⟨out, ho, hlen, fun i hi1 hi2 => ?_⟩
  have hacc := accumulated_eq_zero_of_ge A b alpha bOff cOff trans hv i
    (le_trans hv.2.2.2.2.1 hi1)
  have hio : i < out.length := hlen ▸ hi2
  have hvi := hval i
  rw [List.getD_eq_getElem?_getD, List.getElem?_eq_getElem hio, Option.getD_some] at hvi
  rw [List.getElem?_eq_getElem hio, hvi, hacc, add_zero, mul_comm]

/-- C6: a valid call returns; and whenever a call returns, an output shorter than the
required length `L` has length exactly `L` afterwards, each old position holds `beta`
times its old value plus what is accumulated there, each new position holds only what
is accumulated there; an output of length at least `L` keeps its length.  `L` is the
effective output dimension plus `cOff` whenever that sum is an `Index` value. -/
theorem mult_T_impl_resize (A : SparseMapMatrix R) (b c0 : List R) (alpha beta : R)
    (bOff cOff : Nat) (trans : Bool) :
    (ValidCall A b bOff cOff trans →
        ∃ out, mult_T_impl A b c0 alpha beta bOff cOff trans = Result.ok out) ∧
      (outDim A trans + cOff < indexModulus →
        requiredLength A cOff trans = outDim A trans + cOff) ∧
      ∀ out, mult_T_impl A b c0 alpha beta bOff cOff trans = Result.ok out →
        (c0.length < requiredLength A cOff trans →
          out.length = requiredLength A cOff trans ∧
          (∀ i, i < c0.length →
            out[i]? = some (beta * c0.getD i 0 + accumulated A trans alpha b i)) ∧
          (∀ i, c0.length ≤ i → i < requiredLength A cOff trans →
            out[i]? = some (accumulated A trans alpha b i))) ∧
        (requiredLength A cOff trans ≤ c0.length → out.length = c0.length) := by
  refine ⟨fun hv => ?_, fun hlt => indexAdd_of_lt hlt, fun out ho => ?_⟩
  · obtain ⟨out, ho, _⟩ := mult_T_impl_valid A b c0 alpha beta bOff cOff trans hv
    exact ⟨out, ho⟩
  · obtain ⟨hl, hval⟩ := mult_T_impl_of_ok A b c0 out alpha beta bOff cOff trans ho
    have hget : ∀ i, i < out.length → out[i]? = some (out.getD i 0) := by
      intro i hi
      simp [List.getD_eq_getElem?_getD, List.getElem?_eq_getElem hi]
    refine ⟨fun hshort => ⟨by rw [hl]; omega, fun i hi => ?_, fun i hi1 hi2 => ?_⟩,
      fun hlong => by rw [hl]; omega⟩
    · rw [hget i (by rw [hl]; omega), hval i, mul_comm]
    · have hz : c0.getD i 0 = 0 := by
        simp [List.getD_eq_getElem?_getD, List.getElem?_eq_none hi1]
      rw [hget i (by rw [hl]; omega), hval i, hz, zero_mul, zero_add]

end Resize

/-- Instance of `mult_T_impl_tail_scaled`: a 1 x 1 matrix and an output of length 2;
the entry at index 1 is doubled by `beta = 2`. -/
theorem mult_T_impl_tail_scaled_witness :
    ∃ out, mult_T_impl sampleUnit [1] [1, 1] 1 2 0 0 false = Result.ok out ∧
      out.length = ([1, 1] : List ℤ).length ∧
      ∀ i, requiredLength sampleUnit 0 false ≤ i → i < ([1, 1] : List ℤ).length →
        out[i]? = some (2 * ([1, 1] : List ℤ).getD i 0) :=
  mult_T_impl_tail_scaled sampleUnit [1] [1, 1] 1 2 0 0 false (by decide) (by decide)

/-- C5 as stated fails: the output `[1, 1]` is longer than the required length 1, and
with `beta = 2` the entry at index 1 is `2` after the call, not `1`. -/
theorem mult_T_impl_tail_counterexample :
    requiredLength sampleUnit 0 false = 1 ∧
      mult_T_impl sampleUnit [1] [1, 1] 1 2 0 0 false = Result.ok [3, 2] ∧
      ([3, 2] : List ℤ)[1]? ≠ ([1, 1] : List ℤ)[1]? := by
  decide

/-- Instance of `mult_T_impl_resize`: a 3 x 3 matrix tagged `-1` applied to an output of
length 1 returns an output of length 3. -/
theorem mult_T_impl_resize_witness :
    ValidCall sampleMinusTag [1, 10, 100] 0 0 false ∧
      (∃ out, mult_T_impl sampleMinusTag [1, 10, 100] [1] 2 3 0 0 false = Result.ok out) ∧
      (([1] : List ℤ).length < requiredLength sampleMinusTag 0 false →
        ([607, 1500, 146] : List ℤ).length = requiredLength sampleMinusTag 0 false ∧
        (∀ i, i < ([1] : List ℤ).length →
          ([607, 1500, 146] : List ℤ)[i]? = some (3 * ([1] : List ℤ).getD i 0
            + accumulated sampleMinusTag false 2 [1, 10, 100] i)) ∧
        (∀ i, ([1] : List ℤ).length ≤ i → i < requiredLength sampleMinusTag 0 false →
          ([607, 1500, 146] : List ℤ)[i]?
            = some (accumulated sampleMinusTag false 2 [1, 10, 100] i))) :=
  ⟨by decide,
    (mult_T_impl_resize sampleMinusTag [1, 10, 100] [1] 2 3 0 0 false).1 (by decide),
    ((mult_T_impl_resize sampleMinusTag [1, 10, 100] [1] 2 3 0 0 false).2.2
      [607, 1500, 146] (by decide)).1⟩

/-! ## Constraint reduction -/

section ReduceLemmas

variable {R : Type}

theorem reduceLoop_false (ids : List Nat) (L : List (Entry R)) :
    reduceLoop ids false L = L.filter (fun e => decide (e.1.1 ∉ ids ∧ e.1.2 ∉ ids)) := by
  induction L with
  | nil => rfl
  | cons e es ih =>
    by_cases h1 : e.1.1 ∈ ids
    · by_cases hd : e.1.1 = e.1.2
      · have h2 : e.1.2 ∈ ids := hd ▸ h1
        simp [reduceLoop, List.filter_cons, h1, h2, hd, ih]
      · simp [reduceLoop, List.filter_cons, h1, hd, ih]
    · by_cases h2 : e.1.2 ∈ ids <;> simp [reduceLoop, List.filter_cons, h1, h2, ih]

theorem reduceLoop_true (ids : List Nat) (L : List (Entry R)) :
    reduceLoop ids true L = L.filter (fun e =>
      decide ((e.1.1 ∉ ids ∧ e.1.2 ∉ ids) ∨ (e.1.1 = e.1.2 ∧ e.1.1 ∈ ids))) := by
  induction L with
  | nil => rfl
  | cons e es ih =>
    by_cases h1 : e.1.1 ∈ ids
    · by_cases hd : e.1.1 = e.1.2
      · have h2 : e.1.2 ∈ ids := hd ▸ h1
        simp [reduceLoop, List.filter_cons, h1, h2, hd, ih]
      · simp [reduceLoop, List.filter_cons, h1, hd, ih]
    · by_cases h2 : e.1.2 ∈ ids <;> simp [reduceLoop, List.filter_cons, h1, h2, ih]

/-- C7: `reduce(ids, false)` returns normally and leaves, in their old order and with
their old values, exactly the stored entries whose row and column are both outside
`ids`; shape and tag are kept; an id matching no stored row or column changes
nothing. -/
theorem reduce_without_diagonal (A : SparseMapMatrix R) (ids : List Nat) :
    ∃ B, A.reduce ids false = Result.ok B ∧
      B._rows = A._rows ∧ B._cols = A._cols ∧ B.stype_ = A.stype_ ∧
      B.C_ = A.C_.filter (fun e => decide (e.1.1 ∉ ids ∧ e.1.2 ∉ ids)) ∧
      (∀ e, e ∈ B.C_ ↔ e ∈ A.C_ ∧ e.1.1 ∉ ids ∧ e.1.2 ∉ ids) ∧
      (∀ x, (∀ e ∈ A.C_, e.1.1 ≠ x ∧ e.1.2 ≠ x) →
        A.reduce (x :: ids) false = A.reduce ids false) ∧
      ((∀ e ∈ A.C_, e.1.1 ∉ ids ∧ e.1.2 ∉ ids) → B = A) := by
  refine ⟨{ A with C_ := reduceLoop ids false A.C_ }, rfl, rfl, rfl, rfl,
    reduceLoop_false ids A.C_, fun e => ?_, fun x hx => ?_, fun hall => ?_⟩
  · simp [reduceLoop_false, List.mem_filter]
  · simp only [SparseMapMatrix.reduce, reduceLoop_false]
    congr 2
    apply List.filter_congr
    intro e he
    have := hx e he
    simp [this.1, this.2]
  · have : reduceLoop ids false A.C_ = A.C_ := by
      rw [reduceLoop_false, List.filter_eq_self]
      intro e he
      simpa using hall e he
    simp [this]

/-- C8: `reduce(ids, true)` returns normally and leaves, in their old order and with
their old values, exactly the stored entries whose row and column are both outside
`ids` and the stored diagonal entries `(r, r)` with `r` in `ids`; every off-diagonal
entry with row or column in `ids` is gone; shape and tag are kept. -/
theorem reduce_keeping_diagonal (A : SparseMapMatrix R) (ids : List Nat) :
    ∃ B, A.reduce ids true = Result.ok B ∧
      B._rows = A._rows ∧ B._cols = A._cols ∧ B.stype_ = A.stype_ ∧
      B.C_ = A.C_.filter (fun e =>
        decide ((e.1.1 ∉ ids ∧ e.1.2 ∉ ids) ∨ (e.1.1 = e.1.2 ∧ e.1.1 ∈ ids))) ∧
      (∀ e, e ∈ B.C_ ↔
        e ∈ A.C_ ∧ ((e.1.1 ∉ ids ∧ e.1.2 ∉ ids) ∨ (e.1.1 = e.1.2 ∧ e.1.1 ∈ ids))) ∧
      (∀ e ∈ A.C_, e.1.1 = e.1.2 → e.1.1 ∈ ids → e ∈ B.C_) ∧
      (∀ e ∈ A.C_, e.1.1 ≠ e.1.2 → (e.1.1 ∈ ids ∨ e.1.2 ∈ ids) → e ∉ B.C_) := by
  refine ⟨{ A with C_ := reduceLoop ids true A.C_ }, rfl, rfl, rfl, rfl,
    reduceLoop_true ids A.C_, fun e => ?_, fun e he hd hi => ?_, fun e he hd hi => ?_⟩
  · simp [reduceLoop_true, List.mem_filter]
  · simp [reduceLoop_true, List.mem_filter, he, hd, hi]
  · simp only [reduceLoop_true, List.mem_filter, not_and]
    intro _
    simp only [decide_eq_true_eq, not_or, not_and]
    refine ⟨fun h1 h2 => ?_, fun h => absurd h hd⟩
    rcases hi with h | h
    · exact h1 h
    · exact h2 h

end ReduceLemmas

/-! ## Assignment and accumulation at a coordinate -/

section StoreMutation

variable {R : Type} [CommRing R]

theorem entryAt_setEntry (k : Nat × Nat) (x : R) (L : List (Entry R)) (k1 : Nat × Nat) :
    entryAt (setEntry k x L) k1 = if k = k1 then x else entryAt L k1 := by
  induction L with
  | nil => simp [setEntry, entryAt]
  | cons e es ih =>
    by_cases hlt : keyLt k e.1
    · simp only [setEntry, if_pos hlt]
      rw [entryAt]
    · by_cases he : e.1 = k
      · simp only [setEntry, if_neg hlt, if_pos he]
        rw [entryAt, entryAt]
        by_cases hk : k = k1
        · rw [if_pos hk, if_pos hk]
        · rw [if_neg hk, if_neg hk, if_neg (he ▸ hk)]
      · simp only [setEntry, if_neg hlt, if_neg he]
        rw [entryAt, entryAt, ih]
        by_cases hk : k = k1
        · simp only [if_pos hk, if_neg (hk ▸ he : ¬ e.1 = k1)]
        · simp only [if_neg hk]

omit [CommRing R] in
theorem mem_keys_setEntry (k : Nat × Nat) (x : R) (L : List (Entry R)) (k1 : Nat × Nat) :
    k1 ∈ (setEntry k x L).map Prod.fst ↔ k1 = k ∨ k1 ∈ L.map Prod.fst := by
  induction L with
  | nil => simp [setEntry]
  | cons e es ih =>
    by_cases hlt : keyLt k e.1
    · simp only [setEntry, if_pos hlt, List.map_cons, List.mem_cons]
    · by_cases he : e.1 = k
      · simp only [setEntry, if_neg hlt, if_pos he, List.map_cons, List.mem_cons]
        rw [he]
        tauto
      · simp only [setEntry, if_neg hlt, if_neg he, List.map_cons, List.mem_cons, ih]
        tauto

omit [CommRing R] in
theorem setEntry_ordered (k : Nat × Nat) (x : R) (L : List (Entry R))
    (h : (L.map Prod.fst).Pairwise keyLt) :
    ((setEntry k x L).map Prod.fst).Pairwise keyLt := by
  induction L with
  | nil => simp [setEntry]
  | cons e es ih =>
    rw [List.map_cons, List.pairwise_cons] at h
    by_cases hlt : keyLt k e.1
    · simp only [setEntry, if_pos hlt, List.map_cons, List.pairwise_cons]
      refine ⟨fun k1 hk1 => ?_, h⟩
      rcases List.mem_cons.mp hk1 with rfl | hmem
      · exact hlt
      · exact keyLt_trans hlt (h.1 k1 hmem)
    · by_cases he : e.1 = k
      · simp only [setEntry, if_neg hlt, if_pos he, List.map_cons, List.pairwise_cons]
        exact ⟨fun k1 hk1 => he ▸ h.1 k1 hk1, h.2⟩
      · simp only [setEntry, if_neg hlt, if_neg he, List.map_cons, List.pairwise_cons]
        refine ⟨fun k1 hk1 => ?_, ih h.2⟩
        rcases (mem_keys_setEntry k x es k1).mp hk1 with rfl | hmem
        · rcases keyLt_trichotomy e.1 k1 with h1 | h1 | h1
          · exact h1
          · exact absurd h1 he
          · exact absurd h1 hlt
        · exact h.1 k1 hmem

end StoreMutation

/-! ## Conversion from compressed form -/

section CopyLemmas

variable {R : Type} [CommRing R]

omit [CommRing R] in
theorem getElem?_eq_some_getD {α : Type} (l : List α) (i : Nat) (d : α) (h : i < l.length) :
    l[i]? = some (l.getD i d) := by
  simp [List.getD_eq_getElem?_getD, List.getElem?_eq_getElem h]

omit [CommRing R] in
theorem layout_offset_le (S : SparseMatrix R) (h : S.StandardLayout) (i : Nat)
    (hi : i ≤ S.rows) : S.vecColPtr.getD i 0 ≤ S.vecRowIdx.length := by
  obtain ⟨hlen, hmono, hlast, _, _⟩ := h
  rw [← hlast]
  rcases Nat.lt_or_eq_of_le hi with hlt | heq
  · have h1 : i < S.vecColPtr.length := by omega
    have h2 : S.rows < S.vecColPtr.length := by omega
    have := List.pairwise_iff_getElem.mp hmono i S.rows h1 h2 hlt
    simpa [List.getD_eq_getElem?_getD, List.getElem?_eq_getElem h1,
      List.getElem?_eq_getElem h2] using this
  · rw [heq]

omit [CommRing R] in
theorem layout_distinct (S : SparseMatrix R) (h : S.StandardLayout) (i j j1 : Nat)
    (hi : i < S.rows) (hlo : S.vecColPtr.getD i 0 ≤ j) (hjj : j < j1)
    (hhi : j1 < S.vecColPtr.getD (i + 1) 0) :
    S.vecRowIdx.getD j 0 ≠ S.vecRowIdx.getD j1 0 := by
  have hle := layout_offset_le S h (i + 1) hi
  obtain ⟨_, _, _, _, hnd⟩ := h
  have hslice := List.nodup_iff_getElem?_ne_getElem?.mp (hnd i hi)
    (j - S.vecColPtr.getD i 0) (j1 - S.vecColPtr.getD i 0) (by omega)
    (by rw [List.length_take, List.length_drop]; omega)
  rw [List.getElem?_take_of_lt (by omega), List.getElem?_take_of_lt (by omega),
    List.getElem?_drop, List.getElem?_drop] at hslice
  have e1 : S.vecColPtr.getD i 0 + (j - S.vecColPtr.getD i 0) = j := by omega
  have e2 : S.vecColPtr.getD i 0 + (j1 - S.vecColPtr.getD i 0) = j1 := by omega
  rw [e1, e2, getElem?_eq_some_getD _ j 0 (by omega),
    getElem?_eq_some_getD _ j1 0 (by omega)] at hslice
  exact fun heq => hslice (congrArg some heq)

theorem copy_inner (S : SparseMatrix R) (n lo : Nat) (m : Nat) (M : SparseMapMatrix R)
    (hr : lo + m ≤ S.vecRowIdx.length) (hv : lo + m ≤ S.vecVals.length)
    (hd : ∀ j j1, lo ≤ j → j < j1 → j1 < lo + m →
      S.vecRowIdx.getD j 0 ≠ S.vecRowIdx.getD j1 0) :
    ∃ M1, (List.range' lo m).foldlM (copyStep S n) M = some M1 ∧
      M1._rows = M._rows ∧ M1._cols = M._cols ∧ M1.stype_ = M.stype_ ∧
      (∀ k : Nat × Nat, k.1 ≠ n → entryAt M1.C_ k = entryAt M.C_ k) ∧
      (∀ j, lo ≤ j → j < lo + m →
        entryAt M1.C_ (n, S.vecRowIdx.getD j 0) = S.vecVals.getD j 0) ∧
      (∀ k, k ∈ M1.C_.map Prod.fst ↔ k ∈ M.C_.map Prod.fst ∨
        ∃ j, lo ≤ j ∧ j < lo + m ∧ k = (n, S.vecRowIdx.getD j 0)) ∧
      ((M.C_.map Prod.fst).Pairwise keyLt → (M1.C_.map Prod.fst).Pairwise keyLt) := by
  induction m with
  | zero =>
    refine ⟨M, rfl, rfl, rfl, rfl, fun _ _ => rfl, fun j h1 h2 => by omega, fun k => ?_,
      fun h => h⟩
    constructor
    · exact fun h => Or.inl h
    · rintro (h | ⟨j, h1, h2, _⟩)
      · exact h
      · omega
  | succ m ih =>
    obtain ⟨M1, hf, h1, h2, h3, h4, h5, h6, h7⟩ := ih (by omega) (by omega)
      (fun j j1 a b c => hd j j1 a b (by omega))
    have hstep : copyStep S n M1 (lo + m)
        = some (M1.setVal n (S.vecRowIdx.getD (lo + m) 0) (S.vecVals.getD (lo + m) 0)) := by
      simp only [copyStep, getElem?_eq_some_getD S.vecRowIdx (lo + m) 0 (by omega),
        getElem?_eq_some_getD S.vecVals (lo + m) 0 (by omega)]
      rfl
    refine ⟨M1.setVal n (S.vecRowIdx.getD (lo + m) 0) (S.vecVals.getD (lo + m) 0),
      ?_, h1, h2, h3, fun k hk => ?_, fun j hj1 hj2 => ?_, fun k => ?_, fun h => ?_⟩
    · rw [List.range'_concat, List.foldlM_append, hf, Nat.one_mul]
      show List.foldlM (copyStep S n) M1 [lo + m] = _
      rw [List.foldlM_cons, hstep]
      rfl
    · simp only [SparseMapMatrix.setVal, entryAt_setEntry]
      rw [if_neg (fun h => hk (congrArg Prod.fst h).symm)]
      exact h4 k hk
    · simp only [SparseMapMatrix.setVal, entryAt_setEntry]
      rcases Nat.lt_or_eq_of_le (Nat.lt_succ_iff.mp (by omega : j < lo + m + 1)) with hlt | heq
      · have hne := hd j (lo + m) hj1 hlt (by omega)
        rw [if_neg (fun h => hne (congrArg Prod.snd h).symm)]
        exact h5 j hj1 hlt
      · rw [heq, if_pos rfl]
    · simp only [SparseMapMatrix.setVal, mem_keys_setEntry, h6]
      constructor
      · rintro (h | h | ⟨j, a, b, c⟩)
        · exact Or.inr ⟨lo + m, by omega, by omega, h⟩
        · exact Or.inl h
        · exact Or.inr ⟨j, a, by omega, c⟩
      · rintro (h | ⟨j, a, b, c⟩)
        · exact Or.inr (Or.inl h)
        · rcases Nat.lt_or_eq_of_le (Nat.lt_succ_iff.mp (by omega : j < lo + m + 1))
            with hlt | heq
          · exact Or.inr (Or.inr ⟨j, a, hlt, c⟩)
          · exact Or.inl (heq ▸ c)
    · exact setEntry_ordered _ _ _ (h7 h)

end CopyLemmas

section CopyTheorem

variable {R : Type} [CommRing R]

omit [CommRing R] in
theorem layout_mono (S : SparseMatrix R) (h : S.StandardLayout) (i : Nat)
    (hi : i < S.rows) : S.vecColPtr.getD i 0 ≤ S.vecColPtr.getD (i + 1) 0 := by
  obtain ⟨hlen, hmono, _, _, _⟩ := h
  have h1 : i < S.vecColPtr.length := by omega
  have h2 : i + 1 < S.vecColPtr.length := by omega
  have := List.pairwise_iff_getElem.mp hmono i (i + 1) h1 h2 (Nat.lt_succ_self i)
  simpa [List.getD_eq_getElem?_getD, List.getElem?_eq_getElem h1,
    List.getElem?_eq_getElem h2] using this

theorem copy_outer (S : SparseMatrix R) (h : S.StandardLayout) (M0 : SparseMapMatrix R)
    (hM0 : M0.C_ = []) (n : Nat) (hn : n ≤ S.rows) :
    ∃ M, (List.range n).foldlM (copyRow S) M0 = some M ∧
      M._rows = M0._rows ∧ M._cols = M0._cols ∧ M.stype_ = M0.stype_ ∧
      (∀ i j, i < n → S.vecColPtr.getD i 0 ≤ j → j < S.vecColPtr.getD (i + 1) 0 →
        entryAt M.C_ (i, S.vecRowIdx.getD j 0) = S.vecVals.getD j 0) ∧
      (∀ k, k ∈ M.C_.map Prod.fst ↔ ∃ i j, i < n ∧ S.vecColPtr.getD i 0 ≤ j ∧
        j < S.vecColPtr.getD (i + 1) 0 ∧ k = (i, S.vecRowIdx.getD j 0)) ∧
      (M.C_.map Prod.fst).Pairwise keyLt := by
  induction n with
  | zero =>
    refine ⟨M0, rfl, rfl, rfl, rfl, fun i j hi => by omega, fun k => ?_, by simp [hM0]⟩
    simp [hM0]
  | succ n ih =>
    obtain ⟨M, hf, h1, h2, h3, h4, h5, h6⟩ := ih (by omega)
    have hmono := layout_mono S h n (by omega)
    have hle := layout_offset_le S h (n + 1) (by omega)
    have hsum : S.vecColPtr.getD n 0 + (S.vecColPtr.getD (n + 1) 0 - S.vecColPtr.getD n 0)
        = S.vecColPtr.getD (n + 1) 0 := by omega
    obtain ⟨M1, g0, g1, g2, g3, g4, g5, g6, g7⟩ := copy_inner S n (S.vecColPtr.getD n 0)
      (S.vecColPtr.getD (n + 1) 0 - S.vecColPtr.getD n 0) M
      (by rw [hsum]; exact hle) (by rw [hsum, ← h.2.2.2.1]; exact hle)
      (fun j j1 a b c => layout_distinct S h n j j1 (by omega) a b (by rw [← hsum]; exact c))
    rw [hsum] at g5 g6
    have hrow : copyRow S M n = some M1 := by
      simp only [copyRow, getElem?_eq_some_getD S.vecColPtr n 0 (by rw [h.1]; omega),
        getElem?_eq_some_getD S.vecColPtr (n + 1) 0 (by rw [h.1]; omega)]
      exact g0
    refine ⟨M1, ?_, g1.trans h1, g2.trans h2, g3.trans h3, fun i j hi hj1 hj2 => ?_,
      fun k => ?_, g7 h6⟩
    · rw [List.range_succ, List.foldlM_append, hf]
      show List.foldlM (copyRow S) M [n] = _
      rw [List.foldlM_cons, hrow]
      rfl
    · rcases Nat.lt_or_eq_of_le (Nat.lt_succ_iff.mp hi) with hlt | heq
      · rw [g4 _ (by simpa using Nat.ne_of_lt hlt)]
        exact h4 i j hlt hj1 hj2
      · subst heq
        exact g5 j hj1 hj2
    · rw [g6 k, h5 k]
      constructor
      · rintro (⟨i, j, a, b, c, d⟩ | ⟨j, a, b, c⟩)
        · exact ⟨i, j, by omega, b, c, d⟩
        · exact ⟨n, j, by omega, a, b, c⟩
      · rintro ⟨i, j, a, b, c, d⟩
        rcases Nat.lt_or_eq_of_le (Nat.lt_succ_iff.mp a) with hlt | heq
        · exact Or.inl ⟨i, j, hlt, b, c, d⟩
        · subst heq
          exact Or.inr ⟨j, b, c, d⟩

/-- C9: for a compressed-row matrix `S` in standard layout and any prior content of
the target, `copy_(S)` returns normally with rows, cols and symmetry tag equal to
those of `S`; reading `(i, colIdx[j])` gives `vals[j]` for every row `i` and every `j`
in `[rowStart[i], rowStart[i+1])`; the store holds no other key, and it is in key
order. -/
theorem copy__roundtrip (A : SparseMapMatrix R) (S : SparseMatrix R)
    (h : S.StandardLayout) :
    ∃ M, A.copy_ S = Result.ok M ∧
      M._rows = S.rows ∧ M._cols = S.cols ∧ M.stype_ = S.stype ∧
      (∀ i j, i < S.rows → S.vecColPtr.getD i 0 ≤ j → j < S.vecColPtr.getD (i + 1) 0 →
        M.getVal i (S.vecRowIdx.getD j 0) = S.vecVals.getD j 0) ∧
      (∀ k, k ∈ M.C_.map Prod.fst ↔ ∃ i j, i < S.rows ∧ S.vecColPtr.getD i 0 ≤ j ∧
        j < S.vecColPtr.getD (i + 1) 0 ∧ k = (i, S.vecRowIdx.getD j 0)) ∧
      M.Ordered := by
  obtain ⟨M, hf, h1, h2, h3, h4, h5, h6⟩ := copy_outer S h
    { A.clear with _rows := S.rows, _cols := S.cols, stype_ := S.stype } rfl S.rows
    (Nat.le_refl _)
  refine ⟨M, ?_, h1, h2, h3, h4, h5, h6⟩
  simp only [SparseMapMatrix.copy_, hf, Result.ofOption]

end CopyTheorem

/-- Instance of `copy__roundtrip`: a 3 x 4 compressed matrix copied over a matrix
that held nine entries. -/
theorem copy__roundtrip_witness :
    sampleCompressed.StandardLayout ∧
      sampleDense.copy_ sampleCompressed = Result.ok
        ⟨[((0, 0), 8), ((0, 3), 7), ((2, 0), 10), ((2, 1), 9), ((2, 2), 11)], 3, 4, 0⟩ ∧
      ∃ M, sampleDense.copy_ sampleCompressed = Result.ok M ∧
        M._rows = sampleCompressed.rows ∧ M._cols = sampleCompressed.cols ∧
        M.stype_ = sampleCompressed.stype ∧
        (∀ i j, i < sampleCompressed.rows → sampleCompressed.vecColPtr.getD i 0 ≤ j →
          j < sampleCompressed.vecColPtr.getD (i + 1) 0 →
          M.getVal i (sampleCompressed.vecRowIdx.getD j 0)
            = sampleCompressed.vecVals.getD j 0) ∧
        (∀ k, k ∈ M.C_.map Prod.fst ↔ ∃ i j, i < sampleCompressed.rows ∧
          sampleCompressed.vecColPtr.getD i 0 ≤ j ∧
          j < sampleCompressed.vecColPtr.getD (i + 1) 0 ∧
          k = (i, sampleCompressed.vecRowIdx.getD j 0)) ∧
        M.Ordered :=
  ⟨by decide, by decide, copy__roundtrip sampleDense sampleCompressed (by decide)⟩

/-! ## Assembly with a scalar factor -/

section AssemblyLemmas

variable {R : Type} [CommRing R]

omit [CommRing R] in
theorem not_mem_of_keyLt_head (k : Nat × Nat) (e : Entry R) (es : List (Entry R))
    (h : ((e :: es).map Prod.fst).Pairwise keyLt) (hlt : keyLt k e.1) :
    k ∉ (e :: es).map Prod.fst := by
  rw [List.map_cons, List.pairwise_cons] at h
  intro hmem
  rcases List.mem_cons.mp hmem with heq | hmem
  · exact keyLt_irrefl e.1 (heq ▸ hlt)
  · exact keyLt_asymm hlt (h.1 k hmem)

theorem entryAt_addEntry (k : Nat × Nat) (x : R) (L : List (Entry R))
    (h : (L.map Prod.fst).Pairwise keyLt) (k1 : Nat × Nat) :
    entryAt (addEntry k x L) k1 = entryAt L k1 + if k = k1 then x else 0 := by
  induction L with
  | nil =>
    by_cases hk : k = k1 <;> simp [addEntry, entryAt, hk]
  | cons e es ih =>
    by_cases hlt : keyLt k e.1
    · simp only [addEntry, if_pos hlt]
      rw [entryAt]
      by_cases hk : k = k1
      · have hz := entryAt_of_not_mem (e :: es) k (not_mem_of_keyLt_head k e es h hlt)
        simp only [if_pos hk]
        rw [← hk, hz]
      · simp only [if_neg hk, add_zero]
    · have h2 := (List.pairwise_cons.mp (by rw [List.map_cons] at h; exact h)).2
      by_cases he : e.1 = k
      · simp only [addEntry, if_neg hlt, if_pos he]
        rw [entryAt, entryAt]
        by_cases hk : k = k1
        · simp only [if_pos hk, if_pos (he.trans hk)]
        · simp only [if_neg hk, if_neg (he ▸ hk : ¬ e.1 = k1), add_zero]
      · simp only [addEntry, if_neg hlt, if_neg he]
        rw [entryAt, entryAt, ih h2]
        by_cases hk : k = k1
        · simp only [if_pos hk, if_neg (hk ▸ he : ¬ e.1 = k1)]
        · simp only [if_neg hk, add_zero]

theorem mem_keys_addEntry (k : Nat × Nat) (x : R) (L : List (Entry R))
    (k1 : Nat × Nat) :
    k1 ∈ (addEntry k x L).map Prod.fst ↔ k1 = k ∨ k1 ∈ L.map Prod.fst := by
  induction L with
  | nil => simp [addEntry]
  | cons e es ih =>
    by_cases hlt : keyLt k e.1
    · simp only [addEntry, if_pos hlt, List.map_cons, List.mem_cons]
    · by_cases he : e.1 = k
      · simp only [addEntry, if_neg hlt, if_pos he, List.map_cons, List.mem_cons]
        rw [he]
        tauto
      · simp only [addEntry, if_neg hlt, if_neg he, List.map_cons, List.mem_cons, ih]
        tauto

theorem addEntry_ordered (k : Nat × Nat) (x : R) (L : List (Entry R))
    (h : (L.map Prod.fst).Pairwise keyLt) :
    ((addEntry k x L).map Prod.fst).Pairwise keyLt := by
  induction L with
  | nil => simp [addEntry]
  | cons e es ih =>
    rw [List.map_cons, List.pairwise_cons] at h
    by_cases hlt : keyLt k e.1
    · simp only [addEntry, if_pos hlt, List.map_cons, List.pairwise_cons]
      refine ⟨fun k1 hk1 => ?_, h⟩
      rcases List.mem_cons.mp hk1 with rfl | hmem
      · exact hlt
      · exact keyLt_trans hlt (h.1 k1 hmem)
    · by_cases he : e.1 = k
      · simp only [addEntry, if_neg hlt, if_pos he, List.map_cons, List.pairwise_cons]
        exact ⟨fun k1 hk1 => he ▸ h.1 k1 hk1, h.2⟩
      · simp only [addEntry, if_neg hlt, if_neg he, List.map_cons, List.pairwise_cons]
        refine ⟨fun k1 hk1 => ?_, ih h.2⟩
        rcases (mem_keys_addEntry k x es k1).mp hk1 with rfl | hmem
        · rcases keyLt_trichotomy e.1 k1 with h1 | h1 | h1
          · exact h1
          · exact absurd h1 he
          · exact absurd h1 hlt
        · exact h.1 k1 hmem

end AssemblyLemmas

section AssemblyTheorem

variable {R : Type} [CommRing R]

theorem add_inner (A : ElementMatrix R) (b : R) (i : Nat) (hi : i < A.rowIDs.length)
    (n : Nat) (hn : n ≤ A.colIDs.length) (M : SparseMapMatrix R) (hord : M.Ordered) :
    ∃ M1, (List.range n).foldlM (addStep A b i) M = some M1 ∧
      M1._rows = M._rows ∧ M1._cols = M._cols ∧ M1.stype_ = M.stype_ ∧ M1.Ordered ∧
      ∀ k, entryAt M1.C_ k = entryAt M.C_ k + ∑ j in Finset.range n,
        if (A.rowIDs.getD i 0, A.colIDs.getD j 0) = k then A.getVal i j * b else 0 := by
  induction n with
  | zero => exact ⟨M, rfl, rfl, rfl, rfl, hord, fun k => by simp⟩
  | succ n ih =>
    obtain ⟨M1, hf, h1, h2, h3, h4, h5⟩ := ih (by omega)
    have hstep : addStep A b i M1 n
        = some (M1.addVal (A.rowIDs.getD i 0) (A.colIDs.getD n 0) (A.getVal i n * b)) := by
      simp only [addStep, getElem?_eq_some_getD A.rowIDs i 0 hi,
        getElem?_eq_some_getD A.colIDs n 0 (by omega)]
      rfl
    refine ⟨M1.addVal (A.rowIDs.getD i 0) (A.colIDs.getD n 0) (A.getVal i n * b),
      ?_, h1, h2, h3, addEntry_ordered _ _ _ h4, fun k => ?_⟩
    · rw [List.range_succ, List.foldlM_append, hf]
      show List.foldlM (addStep A b i) M1 [n] = _
      rw [List.foldlM_cons, hstep]
      rfl
    · simp only [SparseMapMatrix.addVal]
      rw [entryAt_addEntry _ _ _ h4, h5 k, Finset.sum_range_succ, add_assoc]

theorem add_outer (A : ElementMatrix R) (b : R) (hc : A.cols ≤ A.colIDs.length)
    (n : Nat) (hn : n ≤ A.rowIDs.length) (M : SparseMapMatrix R) (hord : M.Ordered) :
    ∃ M1, (List.range n).foldlM
        (fun M i => (List.range A.cols).foldlM (addStep A b i) M) M = some M1 ∧
      M1._rows = M._rows ∧ M1._cols = M._cols ∧ M1.stype_ = M.stype_ ∧ M1.Ordered ∧
      ∀ k, entryAt M1.C_ k = entryAt M.C_ k + ∑ i in Finset.range n,
        ∑ j in Finset.range A.cols,
          if (A.rowIDs.getD i 0, A.colIDs.getD j 0) = k then A.getVal i j * b else 0 := by
  induction n with
  | zero => exact ⟨M, rfl, rfl, rfl, rfl, hord, fun k => by simp⟩
  | succ n ih =>
    obtain ⟨M1, hf, h1, h2, h3, h4, h5⟩ := ih (by omega)
    obtain ⟨M2, g0, g1, g2, g3, g4, g5⟩ := add_inner A b n (by omega) A.cols hc M1 h4
    refine ⟨M2, ?_, g1.trans h1, g2.trans h2, g3.trans h3, g4, fun k => ?_⟩
    · rw [List.range_succ, List.foldlM_append, hf]
      show List.foldlM (fun M i => (List.range A.cols).foldlM (addStep A b i) M) M1 [n] = _
      rw [List.foldlM_cons, g0]
      rfl
    · rw [g5 k, h5 k, Finset.sum_range_succ, add_assoc]

/-- C10: on a matrix with an ordered store, and an element matrix whose index arrays
cover its local rows and columns, `add(A, f, scale)` returns normally; afterwards the
coefficient at every coordinate `(r, c)` is its previous coefficient plus the sum,
over the local pairs `(i, j)` with `rowIDs[i] = r` and `colIDs[j] = c`, of
`A(i,j) * (f * scale)`; a coordinate hit by no local pair keeps its coefficient.
Shape, tag and key order are kept. -/
theorem add_scalar_spec (M : SparseMapMatrix R) (A : ElementMatrix R) (f scale : R)
    (hord : M.Ordered) (hr : A.rows ≤ A.rowIDs.length) (hc : A.cols ≤ A.colIDs.length) :
    ∃ M1, M.add A f scale = Result.ok M1 ∧
      M1._rows = M._rows ∧ M1._cols = M._cols ∧ M1.stype_ = M.stype_ ∧ M1.Ordered ∧
      (∀ r c, M1.getVal r c = M.getVal r c + ∑ i in Finset.range A.rows,
        ∑ j in Finset.range A.cols,
          if A.rowIDs.getD i 0 = r ∧ A.colIDs.getD j 0 = c
            then A.getVal i j * (f * scale) else 0) ∧
      (∀ r c, (∀ i j, i < A.rows → j < A.cols →
          ¬ (A.rowIDs.getD i 0 = r ∧ A.colIDs.getD j 0 = c)) →
        M1.getVal r c = M.getVal r c) := by
  obtain ⟨M1, hf, h1, h2, h3, h4, h5⟩ := add_outer A (f * scale) hc A.rows hr M hord
  have hval : ∀ r c, M1.getVal r c = M.getVal r c + ∑ i in Finset.range A.rows,
      ∑ j in Finset.range A.cols,
        if A.rowIDs.getD i 0 = r ∧ A.colIDs.getD j 0 = c
          then A.getVal i j * (f * scale) else 0 := by
    intro r c
    simp only [SparseMapMatrix.getVal, h5 (r, c), Prod.mk.injEq]
  refine ⟨M1, ?_, h1, h2, h3, h4, hval, fun r c hno => ?_⟩
  · simp only [SparseMapMatrix.add, hf, Result.ofOption]
  · rw [hval r c]
    have hz : ∑ i in Finset.range A.rows, ∑ j in Finset.range A.cols,
        (if A.rowIDs.getD i 0 = r ∧ A.colIDs.getD j 0 = c
          then A.getVal i j * (f * scale) else 0) = 0 := by
      apply Finset.sum_eq_zero
      intro i hi
      apply Finset.sum_eq_zero
      intro j hj
      rw [if_neg (hno i j (Finset.mem_range.mp hi) (Finset.mem_range.mp hj))]
    rw [hz, add_zero]

end AssemblyTheorem

/-- Instance of `add_scalar_spec`: an element matrix whose two local rows share the
global row 0 is added, with `f = 2` and `scale = 3`, to a 2 x 2 matrix. -/
theorem add_scalar_spec_witness :
    sampleGeneral.add sampleElement 2 3 = Result.ok
        ⟨[((0, 0), 2), ((0, 1), 75), ((0, 2), 84), ((1, 1), 5)], 2, 2, 0⟩ ∧
      ∃ M1, sampleGeneral.add sampleElement 2 3 = Result.ok M1 ∧
        M1._rows = sampleGeneral._rows ∧ M1._cols = sampleGeneral._cols ∧
        M1.stype_ = sampleGeneral.stype_ ∧ M1.Ordered ∧
        (∀ r c, M1.getVal r c = sampleGeneral.getVal r c
          + ∑ i in Finset.range sampleElement.rows, ∑ j in Finset.range sampleElement.cols,
            if sampleElement.rowIDs.getD i 0 = r ∧ sampleElement.colIDs.getD j 0 = c
              then sampleElement.getVal i j * (2 * 3) else 0) ∧
        (∀ r c, (∀ i j, i < sampleElement.rows → j < sampleElement.cols →
            ¬ (sampleElement.rowIDs.getD i 0 = r ∧ sampleElement.colIDs.getD j 0 = c)) →
          M1.getVal r c = sampleGeneral.getVal r c) :=
  ⟨by decide, add_scalar_spec sampleGeneral sampleElement 2 3 (by decide) (by decide)
    (by decide)⟩

/-! ## Transposed multiply -/

section TransposedMult

variable {R : Type} [CommRing R] [StarRing R]

/-- C17: on a matrix tagged `-1` or `+1`, `transMult` never returns: when the dimension
assertion fails it leaves by the length error with the output untouched, otherwise it
leaves by the not-implemented signal, the output only grown to the required length
and scaled by `beta`, no product term added; it neither returns normally nor indexes a
vector. -/
theorem transMult_symmetric_fails (A : SparseMapMatrix R) (b c0 : List R) (alpha beta : R)
    (bOff cOff : Nat) (hs : A.stype_ = -1 ∨ A.stype_ = 1) :
    (indexAdd b.length bOff < A.nRows →
        transMult A b c0 alpha beta bOff cOff = Result.thrown Signal.lengthError c0) ∧
      (A.nRows ≤ indexAdd b.length bOff →
        ∃ c1, transMult A b c0 alpha beta bOff cOff
            = Result.thrown Signal.notImplemented c1 ∧
          c1.length = max c0.length (requiredLength A cOff true) ∧
          ∀ i, c1.getD i 0 = c0.getD i 0 * beta) ∧
      (∀ out, transMult A b c0 alpha beta bOff cOff ≠ Result.ok out) ∧
      transMult A b c0 alpha beta bOff cOff ≠ Result.undefined := by
  have hdis : ∀ v : List R, mult_T_dispatch A b v alpha beta true
      = Result.thrown Signal.notImplemented (scale v beta) := by
    intro v
    rcases hs with h | h <;> simp [mult_T_dispatch, SparseMapMatrix.stype, h]
  have hfail : indexAdd b.length bOff < A.nRows →
      transMult A b c0 alpha beta bOff cOff = Result.thrown Signal.lengthError c0 := by
    intro h
    simp [transMult, mult_T_impl, h]
  have hpass : A.nRows ≤ indexAdd b.length bOff →
      ∃ c1, transMult A b c0 alpha beta bOff cOff
          = Result.thrown Signal.notImplemented c1 ∧
        c1.length = max c0.length (requiredLength A cOff true) ∧
        ∀ i, c1.getD i 0 = c0.getD i 0 * beta := by
    intro h
    obtain ⟨v, he, hl, hv⟩ := mult_T_impl_eq_dispatch A b c0 alpha beta bOff cOff true
      (by simpa [inDim] using h)
    refine ⟨scale v beta, ?_, ?_, fun i => ?_⟩
    · rw [transMult, he, hdis]
    · rw [scale_length, hl]
    · rw [scale_getD, hv]
  refine ⟨hfail, hpass, fun out ho => ?_, fun hu => ?_⟩
  · rcases Nat.lt_or_ge (indexAdd b.length bOff) A.nRows with h | h
    · rw [hfail h] at ho; cases ho
    · obtain ⟨c1, h1, _⟩ := hpass h
      rw [h1] at ho; cases ho
  · rcases Nat.lt_or_ge (indexAdd b.length bOff) A.nRows with h | h
    · rw [hfail h] at hu; cases hu
    · obtain ⟨c1, h1, _⟩ := hpass h
      rw [h1] at hu; cases hu

omit [StarRing R] in
theorem foldlM_stepGeneralTrans_eq (alpha : R) (b c : List R) (L : List (Entry R)) :
    L.foldlM (stepGeneralTrans alpha b) c
      = (L.map mirrorEntry).foldlM (stepGeneral alpha b) c := by
  induction L generalizing c with
  | nil => rfl
  | cons e es ih =>
    simp only [List.map_cons, List.foldlM_cons]
    have hstep : stepGeneralTrans alpha b c e = stepGeneral alpha b c (mirrorEntry e) := rfl
    rw [hstep]
    congr 1
    funext v
    exact ih v

omit [StarRing R] [CommRing R] in
theorem transposed_perm (A : SparseMapMatrix R) (hord : A.Ordered) :
    (transposed A).C_.Perm (A.C_.map mirrorEntry) := by
  have hf := bothHalves_fields (A.C_.map mirrorEntry)
    ({ C_ := [], _rows := A._cols, _cols := A._rows, stype_ := 0 } : SparseMapMatrix R)
  unfold transposed
  rw [hf.1]
  have hkeys : (A.C_.map mirrorEntry).map Prod.fst = (A.C_.map Prod.fst).map Prod.swap := by
    simp only [List.map_map]
    rfl
  have hnd : ((A.C_.map mirrorEntry).map Prod.fst).Nodup := by
    rw [hkeys]
    exact (nodup_of_pairwise_keyLt hord).map Prod.swap_injective
  have := foldl_setEntry_perm (A.C_.map mirrorEntry) ([] : List (Entry R))
    (by simpa using hnd)
  simpa using this

/-- C16: on a general-tagged matrix with an ordered store, `transMult` gives, for all
`b`, `c`, `alpha`, `beta` and offsets, the same outcome as `mult` on the transposed
matrix (rows and cols swapped, `(J, I) -> v` stored for each stored `(I, J) -> v`). -/
theorem transMult_eq_mult_transposed (A : SparseMapMatrix R) (b c : List R)
    (alpha beta : R) (bOff cOff : Nat) (hs : A.stype_ = 0) (hord : A.Ordered) :
    transMult A b c alpha beta bOff cOff
      = mult (transposed A) b c alpha beta bOff cOff := by
  have hf := bothHalves_fields (A.C_.map mirrorEntry)
    ({ C_ := [], _rows := A._cols, _cols := A._rows, stype_ := 0 } : SparseMapMatrix R)
  have hr : (transposed A)._rows = A._cols := hf.2.1
  have hc : (transposed A)._cols = A._rows := hf.2.2.1
  have hst : (transposed A).stype_ = 0 := hf.2.2.2
  have hdis : ∀ v : List R, mult_T_dispatch A b v alpha beta true
      = mult_T_dispatch (transposed A) b v alpha beta false := by
    intro v
    simp only [mult_T_dispatch, SparseMapMatrix.stype, hs, hst, if_true]
    rw [foldlM_stepGeneralTrans_eq,
      foldlM_stepGeneral_perm alpha b (scale v beta) (transposed_perm A hord)]
    rfl
  simp only [transMult, mult, mult_T_impl, SparseMapMatrix.nRows, SparseMapMatrix.nCols,
    hr, hc, hdis]
  rfl

end TransposedMult

/-- Instance of `transMult_symmetric_fails`: a 3 x 3 matrix tagged `-1`. -/
theorem transMult_symmetric_fails_witness :
    transMult sampleMinusTag [1, 10, 100] [4] 2 3 0 0
        = Result.thrown Signal.notImplemented [12, 0, 0] ∧
      transMult sampleMinusTag [1, 10] [4] 2 3 0 0 = Result.thrown Signal.lengthError [4] ∧
      (∀ out, transMult sampleMinusTag [1, 10, 100] [4] 2 3 0 0 ≠ Result.ok out) :=
  ⟨by decide, by decide,
    (transMult_symmetric_fails sampleMinusTag [1, 10, 100] [4] 2 3 0 0 (Or.inl rfl)).2.2.1⟩

/-- Instance of `transMult_eq_mult_transposed`: a 2 x 3 matrix. -/
theorem transMult_eq_mult_transposed_witness :
    transposed sampleRect
        = ⟨[((0, 0), 2), ((0, 1), 5), ((1, 1), 7), ((2, 0), 3)], 3, 2, 0⟩ ∧
      transMult sampleRect [1, 10] [4] 2 3 0 0 = Result.ok [116, 140, 6] ∧
      transMult sampleRect [1, 10] [4] 2 3 0 0
        = mult (transposed sampleRect) [1, 10] [4] 2 3 0 0 :=
  ⟨by decide, by decide,
    transMult_eq_mult_transposed sampleRect [1, 10] [4] 2 3 0 0 rfl (by decide)⟩

/-! ## Symmetric storage and offsets -/

section MirrorAndOffsets

variable {R : Type} [CommRing R] [StarRing R]

/-- C19: for a real matrix tagged `-1` whose stored entries all have column `>=` row,
and for a real matrix tagged `+1` whose stored entries all have column `<=` row, `mult`
gives the same outcome as `mult` on the general-tagged matrix `bothHalves`, whose store
holds every stored entry and the mirror image of every stored off-diagonal entry; and
in every returning call each stored entry `(I, J) -> v` adds `alpha * b[J] * v` at `I`
and, exactly when `J > I` under tag `-1` or `J < I` under tag `+1`, `alpha * b[I] * v`
at `J`, so a diagonal entry contributes once. -/
theorem mult_symmetric_mirror [TrivialStar R] (A : SparseMapMatrix R) (hord : A.Ordered)
    (htri : (A.stype_ = -1 ∧ ∀ e ∈ A.C_, e.1.2 ≥ e.1.1) ∨
      (A.stype_ = 1 ∧ ∀ e ∈ A.C_, e.1.2 ≤ e.1.1))
    (b c0 : List R) (alpha beta : R) (bOff cOff : Nat) :
    mult A b c0 alpha beta bOff cOff = mult (bothHalves A) b c0 alpha beta bOff cOff ∧
      (bothHalves A).stype_ = 0 ∧ (bothHalves A)._rows = A._rows ∧
      (bothHalves A)._cols = A._cols ∧
      (bothHalves A).C_.Perm
        (A.C_ ++ (A.C_.filter (fun e => e.1.1 ≠ e.1.2)).map mirrorEntry) ∧
      ∀ out, mult A b c0 alpha beta bOff cOff = Result.ok out →
        ∀ i, out.getD i 0 = c0.getD i 0 * beta + (A.C_.map (fun e =>
          (if e.1.1 = i then alpha * b.getD e.1.2 0 * e.2 else 0)
            + (if ((A.stype_ = -1 ∧ e.1.2 > e.1.1) ∨ (A.stype_ = 1 ∧ e.1.2 < e.1.1))
                  ∧ e.1.2 = i
                then alpha * b.getD e.1.1 0 * e.2 else 0))).sum := by
  have hf := bothHalves_fields (withMirrors A.C_)
    ({ C_ := [], _rows := A._rows, _cols := A._cols, stype_ := 0 } : SparseMapMatrix R)
  refine ⟨?_, hf.2.2.2, hf.2.1, hf.2.2.1, ?_, fun out ho i => ?_⟩
  · exact mult_T_impl_congr A (bothHalves A) b c0 alpha beta bOff cOff false
      hf.2.1.symm hf.2.2.1.symm
      (fun v => mult_T_dispatch_bothHalves A hord htri b v alpha beta)
  · exact bothHalves_perm A hord (htri.imp (fun h => h.2) (fun h => h.2))
  · have hval := (mult_T_impl_of_ok A b c0 out alpha beta bOff cOff false ho).2 i
    rw [hval]
    congr 1
    unfold accumulated
    refine congrArg List.sum (List.map_congr_left (fun e _ => ?_))
    rcases htri with ⟨hm, _⟩ | ⟨hp, _⟩
    · simp [contribution, hm]
    · simp [contribution, hp]

/-- C20: two returning calls of `mult_T_impl` that differ only in the two offsets agree
at every index both outputs have; each output holds `beta` times the old value plus
the accumulated terms, which mention no offset, and has the larger of the old length
and the required length.  Two calls with the same outcome of the dimension assertion
and the same required length have the same outcome altogether. -/
theorem mult_T_impl_offsets (A : SparseMapMatrix R) (b c0 : List R) (alpha beta : R)
    (trans : Bool) (bOff1 cOff1 bOff2 cOff2 : Nat) :
    (∀ out1 out2,
        mult_T_impl A b c0 alpha beta bOff1 cOff1 trans = Result.ok out1 →
        mult_T_impl A b c0 alpha beta bOff2 cOff2 trans = Result.ok out2 →
        (∀ i, i < out1.length → i < out2.length → out1[i]? = out2[i]?) ∧
        (∀ i, out1.getD i 0 = c0.getD i 0 * beta + accumulated A trans alpha b i) ∧
        (∀ i, out2.getD i 0 = c0.getD i 0 * beta + accumulated A trans alpha b i) ∧
        out1.length = max c0.length (requiredLength A cOff1 trans) ∧
        out2.length = max c0.length (requiredLength A cOff2 trans)) ∧
      (((indexAdd b.length bOff1 < inDim A trans) ↔ (indexAdd b.length bOff2 < inDim A trans)) →
        requiredLength A cOff1 trans = requiredLength A cOff2 trans →
        mult_T_impl A b c0 alpha beta bOff1 cOff1 trans
          = mult_T_impl A b c0 alpha beta bOff2 cOff2 trans) := by
  constructor
  · intro out1 out2 h1 h2
    obtain ⟨hl1, hv1⟩ := mult_T_impl_of_ok A b c0 out1 alpha beta bOff1 cOff1 trans h1
    obtain ⟨hl2, hv2⟩ := mult_T_impl_of_ok A b c0 out2 alpha beta bOff2 cOff2 trans h2
    refine ⟨fun i hi1 hi2 => ?_, hv1, hv2, hl1, hl2⟩
    have e1 := hv1 i
    have e2 := hv2 i
    rw [List.getD_eq_getElem?_getD, List.getElem?_eq_getElem hi1, Option.getD_some] at e1
    rw [List.getD_eq_getElem?_getD, List.getElem?_eq_getElem hi2, Option.getD_some] at e2
    rw [List.getElem?_eq_getElem hi1, List.getElem?_eq_getElem hi2, e1, e2]
  · intro hchk hreq
    cases trans with
    | true =>
      simp only [inDim, requiredLength, outDim, if_true] at hchk hreq
      simp only [mult_T_impl, if_true, hreq]
      by_cases h : indexAdd b.length bOff1 < A.nRows
      · rw [if_pos h, if_pos (hchk.mp h)]
      · rw [if_neg h, if_neg (fun h2 => h (hchk.mpr h2))]
    | false =>
      simp only [inDim, requiredLength, outDim, Bool.false_eq_true, if_false] at hchk hreq
      simp only [mult_T_impl, Bool.false_eq_true, if_false, hreq]
      by_cases h : indexAdd b.length bOff1 < A.nCols
      · rw [if_pos h, if_pos (hchk.mp h)]
      · rw [if_neg h, if_neg (fun h2 => h (hchk.mpr h2))]

end MirrorAndOffsets

/-- Instance of `mult_symmetric_mirror`: a 3 x 3 matrix tagged `-1` with two entries
above the diagonal. -/
theorem mult_symmetric_mirror_witness :
    mult sampleMinusTag [1, 10, 100] [1] 2 3 0 0 = Result.ok [607, 1500, 146] ∧
      mult sampleMinusTag [1, 10, 100] [1] 2 3 0 0
        = mult (bothHalves sampleMinusTag) [1, 10, 100] [1] 2 3 0 0 ∧
      ([607, 1500, 146] : List ℤ).getD 2 0 = ([1] : List ℤ).getD 2 0 * 3
        + (sampleMinusTag.C_.map (fun e =>
          (if e.1.1 = 2 then 2 * ([1, 10, 100] : List ℤ).getD e.1.2 0 * e.2 else 0)
            + (if ((sampleMinusTag.stype_ = -1 ∧ e.1.2 > e.1.1) ∨
                    (sampleMinusTag.stype_ = 1 ∧ e.1.2 < e.1.1)) ∧ e.1.2 = 2
                then 2 * ([1, 10, 100] : List ℤ).getD e.1.1 0 * e.2 else 0))).sum :=
  ⟨by decide,
    (mult_symmetric_mirror sampleMinusTag (by decide) (by decide)
      [1, 10, 100] [1] 2 3 0 0).1,
    (mult_symmetric_mirror sampleMinusTag (by decide) (by decide)
      [1, 10, 100] [1] 2 3 0 0).2.2.2.2.2 [607, 1500, 146] (by decide) 2⟩

/-- Instance of `mult_T_impl_offsets`: the same multiply with offsets `(0, 0)` and
`(3, 2)`; the second output is two entries longer and agrees on the first two. -/
theorem mult_T_impl_offsets_witness :
    mult_T_impl sampleGeneral [1, 10] [7] 1 2 0 0 false = Result.ok [46, 50] ∧
      mult_T_impl sampleGeneral [1, 10] [7] 1 2 3 2 false = Result.ok [46, 50, 0, 0] ∧
      (∀ i, i < ([46, 50] : List ℤ).length → i < ([46, 50, 0, 0] : List ℤ).length →
        ([46, 50] : List ℤ)[i]? = ([46, 50, 0, 0] : List ℤ)[i]?) :=
  ⟨by decide, by decide,
    ((mult_T_impl_offsets sampleGeneral [1, 10] [7] 1 2 false 0 0 3 2).1
      [46, 50] [46, 50, 0, 0] (by decide) (by decide)).1⟩

/-! ## Sequences of add-at-coordinate calls -/

section Updates

variable {R : Type} [CommRing R]

theorem applyUpdates_fields (ups : List (Entry R)) (M : SparseMapMatrix R) :
    (applyUpdates M ups)._rows = M._rows ∧ (applyUpdates M ups)._cols = M._cols ∧
      (applyUpdates M ups).stype_ = M.stype_ ∧
      (M.Ordered → (applyUpdates M ups).Ordered) ∧
      (M.Ordered → ∀ k, entryAt (applyUpdates M ups).C_ k
        = entryAt M.C_ k + (ups.map (fun u => if u.1 = k then u.2 else 0)).sum) ∧
      (∀ k, k ∈ (applyUpdates M ups).C_.map Prod.fst ↔
        k ∈ M.C_.map Prod.fst ∨ k ∈ ups.map Prod.fst) := by
  induction ups generalizing M with
  | nil =>
    refine ⟨rfl, rfl, rfl, fun h => h, fun _ k => ?_, fun k => ?_⟩
    · simp [applyUpdates]
    · simp [applyUpdates]
  | cons u us ih =>
    obtain ⟨h1, h2, h3, h4, h5, h6⟩ := ih (M.addVal u.1.1 u.1.2 u.2)
    have hstep : applyUpdates M (u :: us) = applyUpdates (M.addVal u.1.1 u.1.2 u.2) us := rfl
    have hord : M.Ordered → (M.addVal u.1.1 u.1.2 u.2).Ordered :=
      fun h => addEntry_ordered _ _ _ h
    rw [hstep]
    refine ⟨h1, h2, h3, fun h => h4 (hord h), fun h k => ?_, fun k => ?_⟩
    · rw [h5 (hord h) k]
      simp only [SparseMapMatrix.addVal, List.map_cons, List.sum_cons]
      rw [entryAt_addEntry _ _ _ h k, add_assoc]
    · rw [h6 k]
      simp only [SparseMapMatrix.addVal, mem_keys_addEntry, List.map_cons, List.mem_cons]
      tauto

theorem applyUpdates_append (M : SparseMapMatrix R) (u1 u2 : List (Entry R)) :
    applyUpdates M (u1 ++ u2) = applyUpdates (applyUpdates M u1) u2 := by
  simp [applyUpdates, List.foldl_append]

/-- Two stores in key order with the same keys and the same values are the same
store. -/
theorem ordered_ext (L1 L2 : List (Entry R))
    (h1 : (L1.map Prod.fst).Pairwise keyLt) (h2 : (L2.map Prod.fst).Pairwise keyLt)
    (hk : ∀ k, k ∈ L1.map Prod.fst ↔ k ∈ L2.map Prod.fst)
    (hv : ∀ k, entryAt L1 k = entryAt L2 k) : L1 = L2 := by
  induction L1 generalizing L2 with
  | nil =>
    cases L2 with
    | nil => rfl
    | cons e2 es2 =>
      have := (hk e2.1).mpr (by simp)
      simp at this
  | cons e es ih =>
    cases L2 with
    | nil =>
      have := (hk e.1).mp (by simp)
      simp at this
    | cons e2 es2 =>
      rw [List.map_cons, List.pairwise_cons] at h1 h2
      have hkey : e.1 = e2.1 := by
        have ha : e.1 = e2.1 ∨ e.1 ∈ es2.map Prod.fst := by
          simpa using (hk e.1).mp (by simp)
        have hb : e2.1 = e.1 ∨ e2.1 ∈ es.map Prod.fst := by
          simpa using (hk e2.1).mpr (by simp)
        rcases ha with ha | ha
        · exact ha
        · rcases hb with hb | hb
          · exact hb.symm
          · exact absurd (h1.1 _ hb) (keyLt_asymm (h2.1 _ ha))
      have hne1 : e.1 ∉ es.map Prod.fst := fun h => keyLt_irrefl _ (h1.1 _ h)
      have hne2 : e2.1 ∉ es2.map Prod.fst := fun h => keyLt_irrefl _ (h2.1 _ h)
      have hval : e.2 = e2.2 := by
        have := hv e.1
        rw [entryAt, entryAt, if_pos rfl, if_pos hkey.symm] at this
        exact this
      have hee : e = e2 := Prod.ext hkey hval
      subst hee
      congr 1
      apply ih es2 h1.2 h2.2
      · intro k
        have hkk := hk k
        simp only [List.map_cons, List.mem_cons] at hkk
        constructor
        · intro hm
          rcases hkk.mp (Or.inr hm) with h | h
          · exact absurd (h ▸ hm) hne1
          · exact h
        · intro hm
          rcases hkk.mpr (Or.inr hm) with h | h
          · exact absurd (h ▸ hm) hne2
          · exact h
      · intro k
        by_cases hke : e.1 = k
        · rw [← hke, entryAt_of_not_mem es _ hne1, entryAt_of_not_mem es2 _ hne2]
        · have := hv k
          rw [entryAt, entryAt, if_neg hke, if_neg hke] at this
          exact this

/-- On an ordered store the result of a sequence of add-at-coordinate calls does not
depend on their order. -/
theorem applyUpdates_perm (M : SparseMapMatrix R) (hord : M.Ordered)
    {ups1 ups2 : List (Entry R)} (hp : ups1.Perm ups2) :
    applyUpdates M ups1 = applyUpdates M ups2 := by
  obtain ⟨a1, a2, a3, a4, a5, a6⟩ := applyUpdates_fields ups1 M
  obtain ⟨b1, b2, b3, b4, b5, b6⟩ := applyUpdates_fields ups2 M
  have hC : (applyUpdates M ups1).C_ = (applyUpdates M ups2).C_ := by
    apply ordered_ext _ _ (a4 hord) (b4 hord)
    · intro k
      rw [a6 k, b6 k]
      have : k ∈ ups1.map Prod.fst ↔ k ∈ ups2.map Prod.fst := (hp.map Prod.fst).mem_iff
      rw [this]
    · intro k
      rw [a5 hord k, b5 hord k, (hp.map _).sum_eq]
  cases hx : applyUpdates M ups1 with
  | mk C1 r1 c1 s1 =>
    cases hy : applyUpdates M ups2 with
    | mk C2 r2 c2 s2 =>
      rw [hx] at a1 a2 a3 hC
      rw [hy] at b1 b2 b3 hC
      simp only at a1 a2 a3 b1 b2 b3 hC
      rw [hC, a1, a2, a3, b1, b2, b3]

/-- A loop whose body performs a fixed list of add-at-coordinate calls per element
performs, in total, the concatenation of those lists. -/
theorem foldlM_eq_applyUpdates {α : Type} (step : SparseMapMatrix R → α → Option (SparseMapMatrix R))
    (g : α → List (Entry R)) (xs : List α)
    (h : ∀ x ∈ xs, ∀ M, step M x = some (applyUpdates M (g x))) (M : SparseMapMatrix R) :
    xs.foldlM step M = some (applyUpdates M (xs.flatMap g)) := by
  induction xs generalizing M with
  | nil => rfl
  | cons x xs ih =>
    rw [List.foldlM_cons, h x (List.mem_cons_self x xs) M]
    show List.foldlM step (applyUpdates M (g x)) xs = _
    rw [ih (fun y hy => h y (List.mem_cons_of_mem x hy)), List.flatMap_cons,
      applyUpdates_append]

theorem sum_map_flatMap_range {β : Type} (n : Nat) (G : Nat → List β) (h : β → R) :
    (((List.range n).flatMap G).map h).sum
      = ∑ i in Finset.range n, ((G i).map h).sum := by
  induction n with
  | zero => simp
  | succ n ih =>
    rw [List.range_succ, List.flatMap_append, List.map_append, List.sum_append, ih,
      Finset.sum_range_succ]
    simp

theorem sum_map_range (n : Nat) (h : Nat → R) :
    ((List.range n).map h).sum = ∑ i in Finset.range n, h i := by
  induction n with
  | zero => simp
  | succ n ih =>
    rw [List.range_succ, List.map_append, List.sum_append, ih, Finset.sum_range_succ]
    simp

end Updates

/-! ## Assembly variants -/

section AssemblyVariantLemmas

variable {R : Type} [CommRing R]

omit [CommRing R] in
theorem flatMap_singleton_eq_map {α β : Type} (f : α → β) (xs : List α) :
    xs.flatMap (fun x => [f x]) = xs.map f := by
  induction xs with
  | nil => rfl
  | cons x xs ih => simp [List.flatMap_cons, ih]

/-- Two nested loops over the local rows and columns whose body performs one
add-at-coordinate call `addAt(rowIDs[i], colIDs[j], w i j)` perform `localUpdates`. -/
theorem nested_eq_applyUpdates (A : ElementMatrix R) (w : Nat → Nat → R)
    (step : Nat → SparseMapMatrix R → Nat → Option (SparseMapMatrix R))
    (hstep : ∀ i j M, i < A.rows → j < A.cols →
      step i M j = some (M.addVal (A.rowIDs.getD i 0) (A.colIDs.getD j 0) (w i j)))
    (M : SparseMapMatrix R) :
    (List.range A.rows).foldlM (fun M i => (List.range A.cols).foldlM (step i) M) M
      = some (applyUpdates M (localUpdates A w)) := by
  unfold localUpdates
  apply foldlM_eq_applyUpdates
  intro i hi M1
  rw [← flatMap_singleton_eq_map]
  apply foldlM_eq_applyUpdates
  intro j hj M2
  rw [hstep i j M2 (List.mem_range.mp hi) (List.mem_range.mp hj)]
  rfl

/-- Coefficients after `localUpdates`: each grows by the sum of `w i j` over the local
pairs mapped to it. -/
theorem applyUpdates_localUpdates (A : ElementMatrix R) (w : Nat → Nat → R)
    (M : SparseMapMatrix R) (hord : M.Ordered) (r c : Nat) :
    (applyUpdates M (localUpdates A w)).getVal r c = M.getVal r c
      + ∑ i in Finset.range A.rows, ∑ j in Finset.range A.cols,
          if A.rowIDs.getD i 0 = r ∧ A.colIDs.getD j 0 = c then w i j else 0 := by
  simp only [SparseMapMatrix.getVal]
  rw [(applyUpdates_fields (localUpdates A w) M).2.2.2.2.1 hord (r, c)]
  congr 1
  unfold localUpdates
  rw [sum_map_flatMap_range]
  apply Finset.sum_congr rfl
  intro i _
  rw [List.map_map, sum_map_range]
  apply Finset.sum_congr rfl
  intro j _
  simp only [Function.comp, Prod.mk.injEq]

theorem add_eq_applyUpdates (M : SparseMapMatrix R) (A : ElementMatrix R) (f scale : R)
    (hr : A.rows ≤ A.rowIDs.length) (hc : A.cols ≤ A.colIDs.length) :
    M.add A f scale
      = Result.ok (applyUpdates M (localUpdates A (fun i j => A.getVal i j * (f * scale)))) := by
  have := nested_eq_applyUpdates A (fun i j => A.getVal i j * (f * scale))
    (fun i M j => addStep A (f * scale) i M j)
    (fun i j M1 hi hj => by
      simp only [addStep, getElem?_eq_some_getD A.rowIDs i 0 (by omega),
        getElem?_eq_some_getD A.colIDs j 0 (by omega)]
      rfl) M
  simp only [SparseMapMatrix.add, this, Result.ofOption]

theorem addComplex_eq_applyUpdates (M : SparseMapMatrix R) (A : ElementMatrix R)
    (f scale : R) (hr : A.rows ≤ A.rowIDs.length) (hc : A.cols ≤ A.colIDs.length) :
    M.addComplex A f scale
      = Result.ok (applyUpdates M (localUpdates A (fun i j => A.getVal i j * (f * scale)))) := by
  have := nested_eq_applyUpdates A (fun i j => A.getVal i j * (f * scale))
    (fun i M j => addComplexStep A f scale i M j)
    (fun i j M1 hi hj => by
      simp only [addComplexStep, getElem?_eq_some_getD A.rowIDs i 0 (by omega),
        getElem?_eq_some_getD A.colIDs j 0 (by omega), mul_assoc]
      rfl) M
  simp only [SparseMapMatrix.addComplex, this, Result.ofOption]

theorem addVector_eq_applyUpdates (M : SparseMapMatrix R) (A : ElementMatrix R)
    (f : List R) (scale : R) (hr : A.rows ≤ A.rowIDs.length)
    (hc : A.cols ≤ A.colIDs.length) (hf : A.rows ≤ f.length) :
    M.addVector A f scale = Result.ok
      (applyUpdates M (localUpdates A (fun i j => A.getVal i j * f.getD i 0 * scale))) := by
  have := nested_eq_applyUpdates A (fun i j => A.getVal i j * f.getD i 0 * scale)
    (fun i M j => addVectorStep A f scale i M j)
    (fun i j M1 hi hj => by
      simp only [addVectorStep, getElem?_eq_some_getD A.rowIDs i 0 (by omega),
        getElem?_eq_some_getD A.colIDs j 0 (by omega),
        getElem?_eq_some_getD f i 0 (by omega)]
      rfl) M
  simp only [SparseMapMatrix.addVector, this, Result.ofOption]

theorem addVectorComplex_eq_applyUpdates (M : SparseMapMatrix R) (A : ElementMatrix R)
    (f : List R) (scale : R) (hr : A.rows ≤ A.rowIDs.length)
    (hc : A.cols ≤ A.colIDs.length) (hf : A.rows ≤ f.length) :
    M.addVectorComplex A f scale = Result.ok
      (applyUpdates M (localUpdates A (fun i j => A.getVal i j * f.getD i 0 * scale))) := by
  have := nested_eq_applyUpdates A (fun i j => A.getVal i j * f.getD i 0 * scale)
    (fun i M j => addVectorComplexStep A f scale i M j)
    (fun i j M1 hi hj => by
      simp only [addVectorComplexStep, getElem?_eq_some_getD A.rowIDs i 0 (by omega),
        getElem?_eq_some_getD A.colIDs j 0 (by omega),
        getElem?_eq_some_getD f i 0 (by omega)]
      rfl) M
  simp only [SparseMapMatrix.addVectorComplex, this, Result.ofOption]

end AssemblyVariantLemmas

section AssemblyVariantTheorems

variable {R : Type} [CommRing R]

/-- C11: with a per-row vector weight `f` covering the local rows, the real and the
complex `add(A, f, scale)` both return, and both perform exactly one add-at-coordinate
call per local pair `(i, j)`, at `(rowIDs[i], colIDs[j])` with the value
`A(i,j) * f[i] * scale`, the weight taken at the local row index `i`; so the
coefficient at `(r, c)` grows by the sum of `A(i,j) * f[i] * scale` over the local
pairs with `rowIDs[i] = r` and `colIDs[j] = c`. -/
theorem add_vector_weight (M : SparseMapMatrix R) (A : ElementMatrix R) (f : List R)
    (scale : R) (hord : M.Ordered) (hr : A.rows ≤ A.rowIDs.length)
    (hc : A.cols ≤ A.colIDs.length) (hf : A.rows ≤ f.length) :
    ∃ M1, M.addVector A f scale = Result.ok M1 ∧
      M.addVectorComplex A f scale = Result.ok M1 ∧
      M1 = applyUpdates M ((List.range A.rows).flatMap (fun i =>
        (List.range A.cols).map (fun j =>
          ((A.rowIDs.getD i 0, A.colIDs.getD j 0), A.getVal i j * f.getD i 0 * scale)))) ∧
      ∀ r c, M1.getVal r c = M.getVal r c
        + ∑ i in Finset.range A.rows, ∑ j in Finset.range A.cols,
            if A.rowIDs.getD i 0 = r ∧ A.colIDs.getD j 0 = c
              then A.getVal i j * f.getD i 0 * scale else 0 :=
  ⟨_, addVector_eq_applyUpdates M A f scale hr hc hf,
    addVectorComplex_eq_applyUpdates M A f scale hr hc hf, rfl,
    fun r c => applyUpdates_localUpdates A _ M hord r c⟩

theorem applyUpdates_flatten (M : SparseMapMatrix R) (gs : List (List (Entry R))) :
    gs.foldl applyUpdates M = applyUpdates M gs.flatten := by
  induction gs generalizing M with
  | nil => rfl
  | cons g gs ih => rw [List.foldl_cons, ih, List.flatten_cons, applyUpdates_append]

/-- C12: on an ordered store, the real and the complex `add(A, f, scale)` leave the
same store as the add-at-coordinate calls
`addAt(rowIDs[i], colIDs[j], A(i,j) * (f * scale))` performed one local pair at a time
in any order, and in any grouping into consecutive batches; and assembling `A` then
`B` leaves the same store as assembling `B` then `A`. -/
theorem add_order_independent (M : SparseMapMatrix R) (A : ElementMatrix R) (f scale : R)
    (hord : M.Ordered) (hr : A.rows ≤ A.rowIDs.length) (hc : A.cols ≤ A.colIDs.length) :
    (∀ ups : List (Entry R),
        ups.Perm (localUpdates A (fun i j => A.getVal i j * (f * scale))) →
        M.add A f scale = Result.ok (applyUpdates M ups) ∧
        M.addComplex A f scale = Result.ok (applyUpdates M ups)) ∧
      (∀ gs : List (List (Entry R)),
        gs.flatten.Perm (localUpdates A (fun i j => A.getVal i j * (f * scale))) →
        M.add A f scale = Result.ok (gs.foldl applyUpdates M) ∧
        M.addComplex A f scale = Result.ok (gs.foldl applyUpdates M)) ∧
      (∀ (B : ElementMatrix R) (g t : R), B.rows ≤ B.rowIDs.length →
        B.cols ≤ B.colIDs.length →
        ∃ MA MB MAB, M.add A f scale = Result.ok MA ∧ MA.add B g t = Result.ok MAB ∧
          M.add B g t = Result.ok MB ∧ MB.add A f scale = Result.ok MAB ∧
          M.addComplex A f scale = Result.ok MA ∧ MA.addComplex B g t = Result.ok MAB ∧
          M.addComplex B g t = Result.ok MB ∧ MB.addComplex A f scale = Result.ok MAB) := by
  have hany : ∀ ups : List (Entry R),
      ups.Perm (localUpdates A (fun i j => A.getVal i j * (f * scale))) →
      M.add A f scale = Result.ok (applyUpdates M ups) ∧
      M.addComplex A f scale = Result.ok (applyUpdates M ups) := by
    intro ups hp
    rw [add_eq_applyUpdates M A f scale hr hc, addComplex_eq_applyUpdates M A f scale hr hc,
      applyUpdates_perm M hord hp]
    exact ⟨rfl, rfl⟩
  refine ⟨hany, fun gs hp => ?_, fun B g t hrB hcB => ?_⟩
  · rw [applyUpdates_flatten]
    exact hany gs.flatten hp
  · refine ⟨applyUpdates M (localUpdates A (fun i j => A.getVal i j * (f * scale))),
      applyUpdates M (localUpdates B (fun i j => B.getVal i j * (g * t))),
      applyUpdates M (localUpdates A (fun i j => A.getVal i j * (f * scale))
        ++ localUpdates B (fun i j => B.getVal i j * (g * t))),
      add_eq_applyUpdates M A f scale hr hc, ?_, add_eq_applyUpdates M B g t hrB hcB, ?_,
      addComplex_eq_applyUpdates M A f scale hr hc, ?_,
      addComplex_eq_applyUpdates M B g t hrB hcB, ?_⟩
    · rw [add_eq_applyUpdates _ B g t hrB hcB, applyUpdates_append]
    · rw [add_eq_applyUpdates _ A f scale hr hc, ← applyUpdates_append,
        applyUpdates_perm M hord List.perm_append_comm]
    · rw [addComplex_eq_applyUpdates _ B g t hrB hcB, applyUpdates_append]
    · rw [addComplex_eq_applyUpdates _ A f scale hr hc, ← applyUpdates_append,
        applyUpdates_perm M hord List.perm_append_comm]

theorem addToRow_eq_applyUpdates (M : SparseMapMatrix R) (id : Nat) (A : ElementMatrix R)
    (scale : R) (isDiag : Bool) (hidx : A.size ≤ A.idx.length) :
    M.addToRow id A scale isDiag = Result.ok (applyUpdates M ((List.range A.size).map
      (fun i => ((id, A.idx.getD i 0), if isDiag then A.getVal i i else A.getVal 0 i)))) := by
  have := foldlM_eq_applyUpdates (addToRowStep id A isDiag)
    (fun i => [((id, A.idx.getD i 0), if isDiag then A.getVal i i else A.getVal 0 i)])
    (List.range A.size)
    (fun i hi M1 => by
      have hlt := List.mem_range.mp hi
      simp only [addToRowStep, getElem?_eq_some_getD A.idx i 0 (by omega)]
      cases isDiag <;> rfl) M
  rw [flatMap_singleton_eq_map] at this
  simp only [SparseMapMatrix.addToRow, this, Result.ofOption]

theorem addToCol_eq_applyUpdates (M : SparseMapMatrix R) (id : Nat) (A : ElementMatrix R)
    (scale : R) (isDiag : Bool) (hidx : A.size ≤ A.idx.length) :
    M.addToCol id A scale isDiag = Result.ok (applyUpdates M ((List.range A.size).map
      (fun i => ((A.idx.getD i 0, id), if isDiag then A.getVal i i else A.getVal 0 i)))) := by
  have := foldlM_eq_applyUpdates (addToColStep id A isDiag)
    (fun i => [((A.idx.getD i 0, id), if isDiag then A.getVal i i else A.getVal 0 i)])
    (List.range A.size)
    (fun i hi M1 => by
      have hlt := List.mem_range.mp hi
      simp only [addToColStep, getElem?_eq_some_getD A.idx i 0 (by omega)]
      cases isDiag <;> rfl) M
  rw [flatMap_singleton_eq_map] at this
  simp only [SparseMapMatrix.addToCol, this, Result.ofOption]

/-- C13: on an ordered store, with `idx` covering the local indices, `addToRow` returns
and increases the coefficient at `(id, k)` by the sum, over the local indices `i` with
`idx(i) = k`, of `A(i,i)` when `isDiag` is set and of `A(0,i)` otherwise; `addToCol`
does the same at `(k, id)`; no other coordinate changes, and the outcome is the same
for every value of the `scale` argument. -/
theorem addToRow_addToCol_spec (M : SparseMapMatrix R) (id : Nat) (A : ElementMatrix R)
    (scale : R) (isDiag : Bool) (hord : M.Ordered) (hidx : A.size ≤ A.idx.length) :
    ∃ Mr Mc, M.addToRow id A scale isDiag = Result.ok Mr ∧
      M.addToCol id A scale isDiag = Result.ok Mc ∧
      (∀ r k, Mr.getVal r k = M.getVal r k + if r = id
        then ∑ i in Finset.range A.size,
          (if A.idx.getD i 0 = k then (if isDiag then A.getVal i i else A.getVal 0 i) else 0)
        else 0) ∧
      (∀ k c, Mc.getVal k c = M.getVal k c + if c = id
        then ∑ i in Finset.range A.size,
          (if A.idx.getD i 0 = k then (if isDiag then A.getVal i i else A.getVal 0 i) else 0)
        else 0) ∧
      (∀ r k, r ≠ id → Mr.getVal r k = M.getVal r k) ∧
      (∀ k c, c ≠ id → Mc.getVal k c = M.getVal k c) ∧
      (∀ scale1 : R, M.addToRow id A scale1 isDiag = Result.ok Mr ∧
        M.addToCol id A scale1 isDiag = Result.ok Mc) := by
  have hrow : ∀ r k, (applyUpdates M ((List.range A.size).map
      (fun i => ((id, A.idx.getD i 0),
        if isDiag then A.getVal i i else A.getVal 0 i)))).getVal r k
      = M.getVal r k + if r = id
        then ∑ i in Finset.range A.size,
          (if A.idx.getD i 0 = k then (if isDiag then A.getVal i i else A.getVal 0 i) else 0)
        else 0 := by
    intro r k
    simp only [SparseMapMatrix.getVal]
    rw [(applyUpdates_fields _ M).2.2.2.2.1 hord (r, k), List.map_map, sum_map_range]
    congr 1
    by_cases hrid : r = id
    · rw [if_pos hrid]
      apply Finset.sum_congr rfl
      intro i _
      simp only [Function.comp, Prod.mk.injEq, hrid, true_and]
    · rw [if_neg hrid]
      apply Finset.sum_eq_zero
      intro i _
      simp only [Function.comp, Prod.mk.injEq]
      rw [if_neg (fun h => hrid h.1.symm)]
  have hcol : ∀ k c, (applyUpdates M ((List.range A.size).map
      (fun i => ((A.idx.getD i 0, id),
        if isDiag then A.getVal i i else A.getVal 0 i)))).getVal k c
      = M.getVal k c + if c = id
        then ∑ i in Finset.range A.size,
          (if A.idx.getD i 0 = k then (if isDiag then A.getVal i i else A.getVal 0 i) else 0)
        else 0 := by
    intro k c
    simp only [SparseMapMatrix.getVal]
    rw [(applyUpdates_fields _ M).2.2.2.2.1 hord (k, c), List.map_map, sum_map_range]
    congr 1
    by_cases hcid : c = id
    · rw [if_pos hcid]
      apply Finset.sum_congr rfl
      intro i _
      simp only [Function.comp, Prod.mk.injEq, hcid, and_true]
    · rw [if_neg hcid]
      apply Finset.sum_eq_zero
      intro i _
      simp only [Function.comp, Prod.mk.injEq]
      rw [if_neg (fun h => hcid h.2.symm)]
  refine ⟨_, _, addToRow_eq_applyUpdates M id A scale isDiag hidx,
    addToCol_eq_applyUpdates M id A scale isDiag hidx, hrow, hcol,
    fun r k hne => ?_, fun k c hne => ?_,
    fun scale1 => ⟨addToRow_eq_applyUpdates M id A scale1 isDiag hidx,
      addToCol_eq_applyUpdates M id A scale1 isDiag hidx⟩⟩
  · rw [hrow r k, if_neg hne, add_zero]
  · rw [hcol k c, if_neg hne, add_zero]

end AssemblyVariantTheorems

/-- Instance of `add_vector_weight`: local rows 0 and 1 both map to global row 0 and
carry the weights 2 and 5. -/
theorem add_vector_weight_witness :
    sampleGeneral.addVector sampleElement [2, 5] 3 = Result.ok
        ⟨[((0, 0), 2), ((0, 1), 174), ((0, 2), 192), ((1, 1), 5)], 2, 2, 0⟩ ∧
      ∃ M1, sampleGeneral.addVector sampleElement [2, 5] 3 = Result.ok M1 ∧
        sampleGeneral.addVectorComplex sampleElement [2, 5] 3 = Result.ok M1 ∧
        ∀ r c, M1.getVal r c = sampleGeneral.getVal r c
          + ∑ i in Finset.range sampleElement.rows, ∑ j in Finset.range sampleElement.cols,
              if sampleElement.rowIDs.getD i 0 = r ∧ sampleElement.colIDs.getD j 0 = c
                then sampleElement.getVal i j * ([2, 5] : List ℤ).getD i 0 * 3 else 0 := by
  refine ⟨by decide, ?_⟩
  obtain ⟨M1, h1, h2, _, h4⟩ := add_vector_weight sampleGeneral sampleElement [2, 5] 3
    (by decide) (by decide) (by decide) (by decide)
  exact ⟨M1, h1, h2, h4⟩

/-- Instance of `add_order_independent`: two overlapping element matrices assembled in
both orders. -/
theorem add_order_independent_witness :
    ∃ MA MB MAB, sampleGeneral.add sampleElement 2 3 = Result.ok MA ∧
      MA.add sampleElementB 1 2 = Result.ok MAB ∧
      sampleGeneral.add sampleElementB 1 2 = Result.ok MB ∧
      MB.add sampleElement 2 3 = Result.ok MAB ∧
      MAB = ⟨[((0, 0), 22), ((0, 1), 81), ((0, 2), 84), ((1, 0), 220), ((1, 1), 211)],
        2, 2, 0⟩ := by
  obtain ⟨MA, MB, MAB, h1, h2, h3, h4, _⟩ :=
    (add_order_independent sampleGeneral sampleElement 2 3 (by decide) (by decide)
      (by decide)).2.2 sampleElementB 1 2 (by decide) (by decide)
  refine ⟨MA, MB, MAB, h1, h2, h3, h4, ?_⟩
  have e1 : sampleGeneral.add sampleElement 2 3 = Result.ok
      ⟨[((0, 0), 2), ((0, 1), 75), ((0, 2), 84), ((1, 1), 5)], 2, 2, 0⟩ := by decide
  rw [h1] at e1
  have e2 := Result.ok.inj e1
  subst e2
  have e3 : (⟨[((0, 0), 2), ((0, 1), 75), ((0, 2), 84), ((1, 1), 5)], 2, 2, 0⟩ :
      SparseMapMatrix ℤ).add sampleElementB 1 2 = Result.ok
      ⟨[((0, 0), 22), ((0, 1), 81), ((0, 2), 84), ((1, 0), 220), ((1, 1), 211)],
        2, 2, 0⟩ := by decide
  rw [h2] at e3
  exact Result.ok.inj e3

/-- Instance of `addToRow_addToCol_spec`: the diagonal of a 2 x 2 element matrix whose
local indices both map to 0, added to row 1 and to column 1. -/
theorem addToRow_addToCol_spec_witness :
    sampleGeneral.addToRow 1 sampleElement 9 true = Result.ok
        ⟨[((0, 0), 2), ((0, 1), 3), ((1, 0), 13), ((1, 1), 5)], 2, 2, 0⟩ ∧
      sampleGeneral.addToCol 1 sampleElement 9 true = Result.ok
        ⟨[((0, 0), 2), ((0, 1), 16), ((1, 1), 5)], 2, 2, 0⟩ ∧
      ∃ Mr Mc, sampleGeneral.addToRow 1 sampleElement 9 true = Result.ok Mr ∧
        sampleGeneral.addToCol 1 sampleElement 9 true = Result.ok Mc ∧
        (∀ r k, r ≠ 1 → Mr.getVal r k = sampleGeneral.getVal r k) ∧
        (∀ k c, c ≠ 1 → Mc.getVal k c = sampleGeneral.getVal k c) := by
  refine ⟨by decide, by decide, ?_⟩
  obtain ⟨Mr, Mc, h1, h2, _, _, h5, h6, _⟩ :=
    addToRow_addToCol_spec sampleGeneral 1 sampleElement 9 true (by decide) (by decide)
  exact ⟨Mr, Mc, h1, h2, h5, h6⟩

/-! ## Batched multiply -/

section BatchLemmas

variable {R : Type} [CommRing R] [StarRing R]

omit [CommRing R] [StarRing R] in
theorem resizeOuter_length (ret : List (List R)) (n : Nat) :
    (resizeOuter ret n).length = n := by
  simp only [resizeOuter, List.length_append, List.length_take, List.length_replicate]
  omega

/-- The batch loop from index `i` on, when every single multiply returns: it returns,
keeps the length of `ret`, leaves the entries before `i` alone and puts at `i + k` the
output of the multiply of the `k`-th remaining matrix into the old `ret[i + k]`. -/
theorem multBatchLoop_spec (b : List R) (A : List (SparseMapMatrix R)) (i : Nat)
    (ret : List (List R)) (hlen : i + A.length ≤ ret.length)
    (hok : ∀ k Ak, A[k]? = some Ak →
      ∃ out, mult Ak b (ret.getD (i + k) []) 1 0 0 0 = Result.ok out) :
    ∃ outs : List (List R), multBatchLoop b A i ret = Result.ok outs ∧
      outs.length = ret.length ∧
      (∀ k Ak, A[k]? = some Ak → ∃ out, outs[i + k]? = some out ∧
        mult Ak b (ret.getD (i + k) []) 1 0 0 0 = Result.ok out) ∧
      (∀ j, j < i → outs[j]? = ret[j]?) := by
  induction A generalizing i ret with
  | nil =>
    refine ⟨ret, rfl, rfl, fun k Ak h => ?_, fun j _ => rfl⟩
    simp at h
  | cons Ai rest ih =>
    simp only [List.length_cons] at hlen
    have hi : i < ret.length := by omega
    obtain ⟨out, ho⟩ := hok 0 Ai (by simp)
    rw [Nat.add_zero] at ho
    have hget : ret[i]? = some (ret.getD i []) := getElem?_eq_some_getD ret i [] hi
    have hset : ∀ j, j ≠ i → (ret.set i out).getD j [] = ret.getD j [] := by
      intro j hj
      simp only [List.getD_eq_getElem?_getD, List.getElem?_set]
      rw [if_neg (fun h => hj h.symm)]
    obtain ⟨outs, h1, h2, h3, h4⟩ := ih (i + 1) (ret.set i out)
      (by rw [List.length_set]; omega)
      (fun k Ak hk => by
        rw [hset (i + 1 + k) (by omega)]
        have := hok (k + 1) Ak (by simpa using hk)
        rw [show i + (k + 1) = i + 1 + k by omega] at this
        exact this)
    have hloop : multBatchLoop b (Ai :: rest) i ret = Result.ok outs := by
      rw [multBatchLoop, hget]
      simp only [SparseMapMatrix.multMember, ho]
      exact h1
    refine ⟨outs, hloop, by rw [h2, List.length_set], fun k Ak hk => ?_, fun j hj => ?_⟩
    · cases k with
      | zero =>
        simp only [List.getElem?_cons_zero, Option.some.injEq] at hk
        subst hk
        refine ⟨out, ?_, by rw [Nat.add_zero]; exact ho⟩
        rw [Nat.add_zero, h4 i (by omega), List.getElem?_set]
        simp [hi]
      | succ k =>
        obtain ⟨o, g1, g2⟩ := h3 k Ak (by simpa using hk)
        rw [hset (i + 1 + k) (by omega)] at g2
        rw [show i + (k + 1) = i + 1 + k by omega]
        exact ⟨o, g1, g2⟩
    · rw [h4 j (by omega), List.getElem?_set]
      rw [if_neg (by omega)]

/-- C14: when `b` is valid for every matrix of the batch, the batched multiply returns
as many outputs as there are matrices, and the `k`-th output is the output of the
single multiply of the `k`-th matrix with `b`, `alpha = 1`, `beta = 0`: into an empty
vector for `mult(A, b)`, so of length `rows`; into the `k`-th element `ret` holds after
its resize for `mult(A, b, ret)`.  No output mentions another matrix. -/
theorem multBatch_spec (A : List (SparseMapMatrix R)) (b : List R)
    (hv : ∀ Ai ∈ A, ValidCall Ai b 0 0 false) :
    (∃ outs : List (List R), multBatchReturn A b = Result.ok outs ∧
        outs.length = A.length ∧
        ∀ (k : Nat) (Ak : SparseMapMatrix R), A[k]? = some Ak → ∃ out, outs[k]? = some out ∧
          mult Ak b [] 1 0 0 0 = Result.ok out ∧ out.length = Ak._rows) ∧
      ∀ ret : List (List R), ∃ outs : List (List R), multBatch A b ret = Result.ok outs ∧
        outs.length = A.length ∧
        ∀ (k : Nat) (Ak : SparseMapMatrix R), A[k]? = some Ak → ∃ out, outs[k]? = some out ∧
          mult Ak b
            ((if ret.length ≠ A.length then resizeOuter ret A.length else ret).getD k [])
            1 0 0 0 = Result.ok out := by
  have hgen : ∀ ret : List (List R), ∃ outs : List (List R),
      multBatch A b ret = Result.ok outs ∧
      outs.length = A.length ∧
      ∀ (k : Nat) (Ak : SparseMapMatrix R), A[k]? = some Ak → ∃ out, outs[k]? = some out ∧
        mult Ak b
          ((if ret.length ≠ A.length then resizeOuter ret A.length else ret).getD k [])
          1 0 0 0 = Result.ok out := by
    intro ret
    have hl : (if ret.length ≠ A.length then resizeOuter ret A.length else ret).length
        = A.length := by
      by_cases h : ret.length ≠ A.length
      · rw [if_pos h, resizeOuter_length]
      · rw [if_neg h]; exact not_not.mp h
    obtain ⟨outs, h1, h2, h3, _⟩ := multBatchLoop_spec b A 0
      (if ret.length ≠ A.length then resizeOuter ret A.length else ret)
      (by rw [hl]; omega)
      (fun k Ak hk => by
        obtain ⟨out, ho, _⟩ := mult_T_impl_valid Ak b
          ((if ret.length ≠ A.length then resizeOuter ret A.length else ret).getD (0 + k) [])
          1 0 0 0 false (hv Ak (List.getElem?_mem hk))
        exact ⟨out, ho⟩)
    refine ⟨outs, h1, h2.trans hl, fun k Ak hk => ?_⟩
    obtain ⟨out, g1, g2⟩ := h3 k Ak hk
    rw [Nat.zero_add] at g1 g2
    exact ⟨out, g1, g2⟩
  refine ⟨?_, hgen⟩
  obtain ⟨outs, h1, h2, h3⟩ := hgen []
  refine ⟨outs, h1, h2, fun k Ak hk => ?_⟩
  obtain ⟨out, g1, g2⟩ := h3 k Ak hk
  have hempty : (if ([] : List (List R)).length ≠ A.length
      then resizeOuter ([] : List (List R)) A.length
      else ([] : List (List R))).getD k ([] : List R) = ([] : List R) := by
    by_cases h : ([] : List (List R)).length ≠ A.length
    · rw [if_pos h]
      simp only [resizeOuter, List.take_nil, List.nil_append, List.getD_eq_getElem?_getD,
        List.getElem?_replicate]
      split <;> rfl
    · rw [if_neg h]; rfl
  rw [hempty] at g2
  refine ⟨out, g1, g2, ?_⟩
  have hval := hv Ak (List.getElem?_mem hk)
  have hlen := (mult_T_impl_of_ok Ak b [] out 1 0 0 0 false g2).1
  have hreq : requiredLength Ak 0 false = Ak._rows := by
    have h1 := hval.2.2.2.2.1
    simp only [requiredLength, outDim, SparseMapMatrix.nRows, indexAdd, Nat.add_zero,
      Bool.false_eq_true, if_false] at h1 ⊢
    exact Nat.le_antisymm (Nat.mod_le _ _) h1
  rw [hlen, hreq]
  simp

end BatchLemmas

/-- Instance of `multBatch_spec`: three matrices of different shapes sharing one input
vector. -/
theorem multBatch_spec_witness :
    multBatchReturn [sampleGeneral, sampleRect, sampleUnit] ([1, 10, 100] : List ℤ)
        = Result.ok [[32, 50], [302, 75], [1]] ∧
      mult sampleRect ([1, 10, 100] : List ℤ) [] 1 0 0 0 = Result.ok [302, 75] ∧
      ∃ outs : List (List ℤ),
        multBatchReturn [sampleGeneral, sampleRect, sampleUnit] ([1, 10, 100] : List ℤ)
          = Result.ok outs ∧
        outs.length = [sampleGeneral, sampleRect, sampleUnit].length ∧
        ∀ (k : Nat) (Ak : SparseMapMatrix ℤ),
          [sampleGeneral, sampleRect, sampleUnit][k]? = some Ak →
          ∃ out, outs[k]? = some out ∧
            mult Ak ([1, 10, 100] : List ℤ) [] 1 0 0 0 = Result.ok out ∧
            out.length = Ak._rows :=
  ⟨by decide, by decide,
    (multBatch_spec [sampleGeneral, sampleRect, sampleUnit] [1, 10, 100] (by decide)).1⟩

/-! ## Block multiply into a vector of points -/

section BlockLemmas

variable {R : Type} [CommRing R]

theorem posAddAt_spec (p : Pos R) (k : Nat) (x : R) (hk : k < 2) :
    ∃ p1, posAddAt p k x = some p1 ∧
      ∀ k1, posChan p1 k1 = posChan p k1 + if k1 = k then x else 0 := by
  rcases Nat.lt_or_ge k 1 with h0 | h1
  · have hk0 : k = 0 := by omega
    subst hk0
    refine ⟨(p.1 + x, p.2), by simp [posAddAt], fun k1 => ?_⟩
    by_cases h : k1 = 0
    · simp [posChan, h]
    · by_cases h1 : k1 = 1 <;> simp [posChan, h, h1]
  · have hk1 : k = 1 := by omega
    subst hk1
    refine ⟨(p.1, p.2 + x), by simp [posAddAt], fun k1 => ?_⟩
    by_cases h : k1 = 0
    · simp [posChan, h]
    · by_cases h1 : k1 = 1 <;> simp [posChan, h, h1]

omit [CommRing R] in
theorem getD_set {α : Type} (l : List α) (i j : Nat) (x d : α) (hi : i < l.length) :
    (l.set i x).getD j d = if i = j then x else l.getD j d := by
  simp only [List.getD_eq_getElem?_getD, List.getElem?_set]
  by_cases h : i = j
  · subst h
    simp [hi]
  · simp [h]

theorem multPosStep_spec (a : List R) (dof : Nat) (it : Entry R) (ret : List (Pos R))
    (i : Nat) (ha : indexAdd it.1.2 (indexMul i dof) < a.length)
    (hI : it.1.1 < ret.length) (hi : i < 2) :
    ∃ ret1, multPosStep a dof it ret i = some ret1 ∧ ret1.length = ret.length ∧
      ∀ I1 k1, posChan (ret1.getD I1 (0, 0)) k1 = posChan (ret.getD I1 (0, 0)) k1
        + if I1 = it.1.1 ∧ k1 = i
            then a.getD (indexAdd it.1.2 (indexMul i dof)) 0 * it.2 else 0 := by
  obtain ⟨p1, hp1, hch⟩ := posAddAt_spec (ret.getD it.1.1 (0, 0)) i
    (a.getD (indexAdd it.1.2 (indexMul i dof)) 0 * it.2) hi
  refine ⟨ret.set it.1.1 p1, ?_, by simp, fun I1 k1 => ?_⟩
  · simp only [multPosStep, getElem?_eq_some_getD a _ 0 ha,
      getElem?_eq_some_getD ret _ (0, 0) hI, Option.bind_eq_bind, Option.some_bind, hp1]
    rfl
  · rw [getD_set ret it.1.1 I1 p1 (0, 0) hI]
    by_cases hII : it.1.1 = I1
    · subst hII
      rw [if_pos rfl, hch k1]
      by_cases hk : k1 = i <;> simp [hk]
    · rw [if_neg hII]
      have : ¬ (I1 = it.1.1 ∧ k1 = i) := fun h => hII h.1.symm
      rw [if_neg this, add_zero]

omit [CommRing R] in
/-- A loop whose body adds `w e i` to each observed quantity `obs s i` and keeps the
invariant adds, in total, the sum of the `w e i`. -/
theorem foldlM_accumulate_obs {R : Type} [AddCommMonoid R] {σ α ι : Type}
    (obs : σ → ι → R) (inv : σ → Prop) (step : σ → α → Option σ) (w : α → ι → R)
    (L : List α)
    (hstep : ∀ e ∈ L, ∀ s, inv s →
      ∃ s1, step s e = some s1 ∧ inv s1 ∧ ∀ i, obs s1 i = obs s i + w e i)
    (s : σ) (hs : inv s) :
    ∃ out, L.foldlM step s = some out ∧ inv out ∧
      ∀ i, obs out i = obs s i + (L.map (fun e => w e i)).sum := by
  induction L generalizing s with
  | nil => exact ⟨s, rfl, hs, by simp⟩
  | cons e es ih =>
    obtain ⟨s1, h1, hi1, hv1⟩ := hstep e (List.mem_cons_self e es) s hs
    obtain ⟨out, h2, hi2, hv2⟩ :=
      ih (fun e1 he1 => hstep e1 (List.mem_cons_of_mem e he1)) s1 hi1
    refine ⟨out, ?_, hi2, fun i => ?_⟩
    · simp [List.foldlM_cons, h1, h2]
    · rw [hv2 i, hv1 i]
      simp [add_assoc]

theorem resizePos_length (ret : List (Pos R)) (n : Nat) : (resizePos ret n).length = n := by
  simp only [resizePos, List.length_append, List.length_take, List.length_replicate]
  omega

theorem resizePos_getD (ret : List (Pos R)) (n I : Nat) (hI : I < n) :
    (resizePos ret n).getD I (0, 0) = ret.getD I (0, 0) := by
  simp only [resizePos, List.getD_eq_getElem?_getD]
  by_cases h : I < ret.length
  · rw [List.getElem?_append_left (by rw [List.length_take]; omega),
      List.getElem?_take_of_lt hI]
  · have hle : ret.length ≤ I := Nat.le_of_not_lt h
    have ht : (ret.take n).length = ret.length := by rw [List.length_take]; omega
    rw [List.getElem?_append_right (by rw [ht]; exact hle), ht,
      List.getElem?_eq_none hle, List.getElem?_replicate]
    have : I - ret.length < n - ret.length := by omega
    simp [this]

end BlockLemmas

section BlockTheorem

variable {R : Type} [CommRing R]

theorem sum_range_ite_eq (n k : Nat) (g : Nat → R) :
    ((List.range n).map (fun i => if k = i then g i else 0)).sum
      = if k < n then g k else 0 := by
  rw [sum_map_range]
  have : ∀ i ∈ Finset.range n, (if k = i then g i else 0) = if k = i then g k else 0 := by
    intro i _
    by_cases h : k = i
    · rw [if_pos h, if_pos h, h]
    · rw [if_neg h, if_neg h]
  rw [Finset.sum_congr rfl this, Finset.sum_ite_eq]
  simp

theorem block_index (a_len cols i J : Nat) (hJ : J < cols) (hi : i < a_len / cols)
    (ha : a_len < indexModulus) :
    indexAdd J (indexMul i cols) = J + i * cols ∧ J + i * cols < a_len := by
  have h1 : (i + 1) * cols ≤ a_len / cols * cols := Nat.mul_le_mul_right cols hi
  have h2 : a_len / cols * cols ≤ a_len := Nat.div_mul_le_self a_len cols
  have h3 : (i + 1) * cols = i * cols + cols := by rw [Nat.add_mul, Nat.one_mul]
  have hlt : J + i * cols < a_len := by omega
  refine ⟨?_, hlt⟩
  unfold indexAdd indexMul
  rw [Nat.mod_eq_of_lt (by omega : i * cols < indexModulus),
    Nat.mod_eq_of_lt (by omega : J + i * cols < indexModulus)]

/-- The inner loop of the block multiply for one stored entry `(I, J) -> v`: channel
`k < nCoeff` of `ret[I]` grows by `a[J + k * cols] * v`. -/
theorem multPos_inner (a : List R) (cols : Nat) (e : Entry R) (ret : List (Pos R))
    (hJ : e.1.2 < cols) (hI : e.1.1 < ret.length) (hn : a.length / cols ≤ 2)
    (ha : a.length < indexModulus) :
    ∃ ret1, (List.range (a.length / cols)).foldlM (multPosStep a cols e) ret = some ret1 ∧
      ret1.length = ret.length ∧
      ∀ ik : Nat × Nat, posChan (ret1.getD ik.1 (0, 0)) ik.2
        = posChan (ret.getD ik.1 (0, 0)) ik.2
          + if e.1.1 = ik.1 then
              (if ik.2 < a.length / cols then a.getD (e.1.2 + ik.2 * cols) 0 * e.2 else 0)
            else 0 := by
  obtain ⟨out, h1, h2, h3⟩ := foldlM_accumulate_obs
    (fun (s : List (Pos R)) (ik : Nat × Nat) => posChan (s.getD ik.1 (0, 0)) ik.2)
    (fun s => s.length = ret.length) (multPosStep a cols e)
    (fun i ik => if ik.1 = e.1.1 ∧ ik.2 = i then a.getD (e.1.2 + i * cols) 0 * e.2 else 0)
    (List.range (a.length / cols))
    (fun i hi s hs => by
      have hlt := List.mem_range.mp hi
      have hs1 : s.length = ret.length := hs
      obtain ⟨hidx, hbound⟩ := block_index a.length cols i e.1.2 hJ hlt ha
      obtain ⟨s1, g1, g2, g3⟩ := multPosStep_spec a cols e s i (by rw [hidx]; exact hbound)
        (by rw [hs1]; exact hI) (by omega)
      refine ⟨s1, g1, g2.trans hs1, fun ik => ?_⟩
      have hg := g3 ik.1 ik.2
      rw [hidx] at hg
      exact hg)
    ret rfl
  refine ⟨out, h1, h2, fun ik => ?_⟩
  have hobs := h3 ik
  simp only at hobs
  rw [hobs]
  congr 1
  by_cases hI1 : e.1.1 = ik.1
  · rw [if_pos hI1]
    have hfun : (fun i => if ik.1 = e.1.1 ∧ ik.2 = i
        then a.getD (e.1.2 + i * cols) 0 * e.2 else 0)
        = fun i => if ik.2 = i then a.getD (e.1.2 + i * cols) 0 * e.2 else 0 := by
      funext i
      simp [hI1]
    rw [hfun, sum_range_ite_eq]
  · rw [if_neg hI1]
    apply List.sum_eq_zero
    intro x hx
    obtain ⟨i, _, rfl⟩ := List.mem_map.mp hx
    rw [if_neg (fun h => hI1 h.1.symm)]

/-- C15: for a general-tagged matrix with an ordered store, keys inside the shape and
at least one column, and a flat input `a` with `nCoeff = a.size / cols <= 2`, the block
multiply returns an output of length `rows` in which channel `k < nCoeff` of
`output[I]` is its prior value (zero for a freshly created element) plus
`Σ_J a[J + k * cols] * A(I,J)`, and a channel `k >= nCoeff` keeps its prior value. -/
theorem multPos_spec (A : SparseMapMatrix R) (a : List R) (ret : List (Pos R))
    (hs : A.stype_ = 0) (hord : A.Ordered) (hin : A.InRange) (hc : 0 < A._cols)
    (hn : a.length / A._cols ≤ 2) (ha : a.length < indexModulus) :
    ∃ out, A.multPos a ret = Result.ok out ∧ out.length = A._rows ∧
      ∀ I k, I < A._rows → k < 2 →
        posChan (out.getD I (0, 0)) k = posChan (ret.getD I (0, 0)) k
          + if k < a.length / A._cols
              then ∑ J in Finset.range A._cols, a.getD (J + k * A._cols) 0 * A.getVal I J
              else 0 := by
  have hret : ∃ ret0 : List (Pos R),
      (if A._rows ≠ ret.length then resizePos ret A._rows else ret) = ret0 ∧
      ret0.length = A._rows ∧ ∀ I, I < A._rows → ret0.getD I (0, 0) = ret.getD I (0, 0) := by
    by_cases h : A._rows ≠ ret.length
    · exact ⟨_, rfl, by rw [if_pos h, resizePos_length],
        fun I hI => by rw [if_pos h, resizePos_getD ret _ I hI]⟩
    · exact ⟨_, rfl, by rw [if_neg h]; exact (not_not.mp h).symm,
        fun I _ => by rw [if_neg h]⟩
  obtain ⟨ret0, hr0, hl0, hg0⟩ := hret
  obtain ⟨out, h1, h2, h3⟩ := foldlM_accumulate_obs
    (fun (s : List (Pos R)) (ik : Nat × Nat) => posChan (s.getD ik.1 (0, 0)) ik.2)
    (fun s => s.length = A._rows)
    (fun s it => (List.range (a.length / A._cols)).foldlM (multPosStep a A._cols it) s)
    (fun e ik => if e.1.1 = ik.1 then
      (if ik.2 < a.length / A._cols then a.getD (e.1.2 + ik.2 * A._cols) 0 * e.2 else 0)
      else 0)
    A.C_
    (fun e he s hsl => by
      have hsl1 : s.length = A._rows := hsl
      obtain ⟨s1, g1, g2, g3⟩ := multPos_inner a A._cols e s (hin e he).2
        (by rw [hsl1]; exact (hin e he).1) hn ha
      exact ⟨s1, g1, g2.trans hsl1, g3⟩)
    ret0 hl0
  have hassert : ¬ a.length < indexMul (a.length / A._cols) A._cols := by
    have h1 : indexMul (a.length / A._cols) A._cols ≤ a.length / A._cols * A._cols :=
      Nat.mod_le _ _
    have h2 := Nat.div_mul_le_self a.length A._cols
    omega
  refine ⟨out, ?_, h2, fun I k hI hk => ?_⟩
  · simp only [SparseMapMatrix.multPos, hr0, if_neg (Nat.pos_iff_ne_zero.mp hc),
      if_neg hassert, hs, if_true, h1, Result.ofOption]
  · have hobs := h3 (I, k)
    simp only at hobs
    rw [hobs, hg0 I hI]
    congr 1
    by_cases hkn : k < a.length / A._cols
    · rw [if_pos hkn]
      have hsum := sum_row_eq_sum_cols A.C_ (nodup_of_pairwise_keyLt hord) A._cols
        (fun e he => (hin e he).2) (fun j => a.getD (j + k * A._cols) 0) I
      have hfun : (fun e : Entry R => if e.1.1 = I then
          (if k < a.length / A._cols then a.getD (e.1.2 + k * A._cols) 0 * e.2 else 0)
          else 0)
          = fun e => if e.1.1 = I then a.getD (e.1.2 + k * A._cols) 0 * e.2 else 0 := by
        funext e
        rw [if_pos hkn]
      rw [hfun, hsum]
      apply Finset.sum_congr rfl
      intro J _
      rw [SparseMapMatrix.getVal, mul_comm]
    · rw [if_neg hkn]
      apply List.sum_eq_zero
      intro x hx
      obtain ⟨e, _, rfl⟩ := List.mem_map.mp hx
      simp [hkn]

end BlockTheorem

/-- Instance of `multPos_spec`: a 2 x 3 matrix applied to two blocks of length 3 and
to an output holding one point. -/
theorem multPos_spec_witness :
    sampleRect.multPos [1, 10, 100, 2, 20, 200] [(5, 6)]
        = Result.ok [(307, 610), (75, 150)] ∧
      ∃ out, sampleRect.multPos [1, 10, 100, 2, 20, 200] [(5, 6)] = Result.ok out ∧
        out.length = sampleRect._rows ∧
        ∀ I k, I < sampleRect._rows → k < 2 →
          posChan (out.getD I (0, 0)) k = posChan (([(5, 6)] : List (Pos ℤ)).getD I (0, 0)) k
            + if k < ([1, 10, 100, 2, 20, 200] : List ℤ).length / sampleRect._cols
                then ∑ J in Finset.range sampleRect._cols,
                  ([1, 10, 100, 2, 20, 200] : List ℤ).getD (J + k * sampleRect._cols) 0
                    * sampleRect.getVal I J
                else 0 :=
  ⟨by decide,
    multPos_spec sampleRect [1, 10, 100, 2, 20, 200] [(5, 6)] rfl (by decide) (by decide)
      (by decide) (by decide) (by decide)⟩

/-! ## Operations left unimplemented -/

/-- C18: every operation the source leaves unimplemented leaves by the not-implemented
signal on every input, the block multiply on a matrix tagged `-1` or `+1` included as
long as the matrix has a column; on a matrix without columns that block multiply
divides by zero before it reaches the signal, as the evaluation on the empty matrix
tagged `-1` shows. -/
theorem unimplemented_operations :
    (∀ (R : Type) [CommRing R] (M : SparseMapMatrix R) (A : ElementMatrix R) (p : Pos R)
        (f : List (List R)) (scale : R) (S : SparseMatrix R) (id : Nat)
        (isDiag keepDiag : Bool) (ids : List Nat) (a : List R) (ret : List (Pos R)),
        M.addPos A p scale = Result.thrown Signal.notImplemented M ∧
        M.addSmallMatrix A f scale = Result.thrown Signal.notImplemented M ∧
        M.addSmallMatrixComplex A f scale = Result.thrown Signal.notImplemented M ∧
        M.addPosComplex A p scale = Result.thrown Signal.notImplemented M ∧
        M.copy_Complex S = Result.thrown Signal.notImplemented
          { C_ := [], _rows := S.rows, _cols := S.cols, stype_ := S.stype } ∧
        M.addToColComplex id A scale isDiag = Result.thrown Signal.notImplemented M ∧
        M.addToRowComplex id A scale isDiag = Result.thrown Signal.notImplemented M ∧
        M.reduceComplex ids keepDiag = Result.thrown Signal.notImplemented M ∧
        M.multPosComplex a ret = Result.thrown Signal.notImplemented ret ∧
        M.transMultPos a ret = Result.thrown Signal.notImplemented ret ∧
        M.transMultPosComplex a ret = Result.thrown Signal.notImplemented ret ∧
        (M.stype_ = -1 ∨ M.stype_ = 1 → M._cols ≠ 0 →
          M.multPos a ret = Result.thrown Signal.notImplemented
            (if M._rows ≠ ret.length then resizePos ret M._rows else ret)) ∧
        (M._cols = 0 → M.multPos a ret = Result.undefined)) ∧
      sampleEmptyTagged.stype_ = -1 ∧
      sampleEmptyTagged.multPos [1, 2] [] = Result.undefined ∧
      sampleEmptyTagged.multPos [1, 2] [] ≠ Result.thrown Signal.notImplemented [] := by
  refine ⟨?_, by decide, by decide, by decide⟩
  intro R _ M A p f scale S id isDiag keepDiag ids a ret
  refine ⟨rfl, rfl, rfl, rfl, rfl, rfl, rfl, rfl, rfl, rfl, rfl, fun hs hc => ?_, fun hc => ?_⟩
  · have hassert : ¬ a.length < indexMul (a.length / M._cols) M._cols := by
      have h1 : indexMul (a.length / M._cols) M._cols ≤ a.length / M._cols * M._cols :=
        Nat.mod_le _ _
      have h2 := Nat.div_mul_le_self a.length M._cols
      omega
    rcases hs with h | h
    · simp [SparseMapMatrix.multPos, hc, hassert, h]
    · simp [SparseMapMatrix.multPos, hc, hassert, h]
  · simp [SparseMapMatrix.multPos, hc]

end GIMLI

